import Mathlib

/-!
# The antenna graph of `functest.c`

A shallow embedding of the graph engine of `src/functest.c` and the properties
of its mutation interface.

## Representation

* The singly linked list of `Vertice` nodes (`g->vertices`, linked by `prox`)
  is a `List Vertice`, head first.
* The adjacency list of a node (`arestas`, linked by `prox`) is the list of the
  `destino` pointers of its `Aresta` nodes, head first.
* A pointer stored in an edge (`Aresta.destino`) is the address of a `Vertice`
  node; every node carries its own address in the field `addr`, and `==` between
  an edge pointer and a vertex pointer compares addresses.
* A `Vertice*` that the code obtains by walking the vertex list is the position
  of the node in that list; a read or a write through it reads or writes the
  node at that position.
* `int` is `Int`, `char` is `Char`, `bool` is `Bool`.  Coordinates and counters
  are taken far from the ends of the range of an `int`; where the code computes
  a size from them (`gerarMatrizGrafo`) the result is checked against `INT_MAX`.
  The reflections `2 * a - b` of `deduzirNefasto`, which double a coordinate,
  are computed as the machine does: modulo `2^32`, in the range of a 32-bit
  two's complement `int` (`emInt`).
* A buffer of `char` is a `List Char`; a write outside it has no defined
  result.
* `malloc` is outside the program: what it returns is an argument of each
  function that calls it.  `none` / `false` is the null pointer.  The block of a
  new `Vertice` is given by its address and by the content of the one field that
  `AdicionarVertice` never writes (`visita`).
* A function `Grafo* f(..., bool* sucesso)` returns the pair of the graph after
  the call and the value stored in `*sucesso`.
* A file is what it holds: a text file is a `List Char`, the binary file of
  edges a `List Int`.  Whether `fopen` succeeds is an argument of the function
  that calls it.
* Recursion and loops that the C code does not bound (`dfsRecursivo`, the queue
  loop of `bfs`) take a bound as first argument and return `none` when it is
  not enough; that the bound given is enough is proved, and for `dfsRecursivo`
  that the result does not depend on it.
-/

namespace Antenas

/-! ## The data and the functions of `functest.c` -/

/-- One `Vertice` node: its address, then the fields of the C struct (`prox` is
the list order, `arestas` the `destino` pointers of the adjacency list). -/
structure Vertice where
  addr : Nat
  id : Int
  x : Int
  y : Int
  freq : Char
  visita : Int
  arestas : List Nat
deriving DecidableEq, Repr

/-- The `Grafo` struct. -/
structure Grafo where
  vertices : List Vertice
  num_vertices : Int
  topo : Int
deriving DecidableEq, Repr

/-- A block returned by `malloc(sizeof(Vertice))`: its address and the
indeterminate content of its `visita` field. -/
structure Bloco where
  addr : Nat
  visita : Int
deriving DecidableEq, Repr

/-- `CriarGrafo`: the argument is the result of `malloc(sizeof(Grafo))`, `none`
for a null pointer, `some t` for a block whose `topo` field holds `t` (the
function does not write it). -/
def CriarGrafo (bloco : Option Int) : Option Grafo :=
  match bloco with
  | none => none
  | some t => some { vertices := [], num_vertices := 0, topo := t }

/-- The `while` loop of `ProcurarVertice`: the position of the first node whose
coordinates are `(x, y)`. -/
def ProcurarVertice.laco (x y : Int) : List Vertice → Option Nat
  | [] => none
  | atual :: resto =>
    if atual.x = x ∧ atual.y = y then some 0
    else (ProcurarVertice.laco x y resto).map (· + 1)

/-- `ProcurarVertice(g, x, y)`: `none` is `NULL`. -/
def ProcurarVertice (g : Grafo) (x y : Int) : Option Nat :=
  ProcurarVertice.laco x y g.vertices

/-- `AdicionarVertice(g, x, y, freq, &sucesso)`; `novo` is what `malloc` returns
if it is called. -/
def AdicionarVertice (g : Grafo) (x y : Int) (freq : Char) (novo : Option Bloco) :
    Grafo × Bool :=
  match ProcurarVertice g x y with
  | some _ => (g, false)
  | none =>
    match novo with
    | none => (g, false)
    | some b =>
      -- novo->id = g->num_vertices++;
      let id := g.num_vertices
      let n1 := g.num_vertices + 1
      let v : Vertice :=
        { addr := b.addr, id := id, x := x, y := y, freq := freq,
          visita := b.visita, arestas := [] }
      -- g->vertices = novo; g->num_vertices++;
      ({ vertices := v :: g.vertices, num_vertices := n1 + 1, topo := g.topo }, true)

/-- Address of the node at position `p` of the vertex list (`p->...`, read). -/
def endereco (vs : List Vertice) (p : Nat) : Nat :=
  match vs[p]? with
  | some v => v.addr
  | none => 0

/-- Read of `p->arestas` for the node at position `p`. -/
def lerArestas (vs : List Vertice) (p : Nat) : List Nat :=
  match vs[p]? with
  | some v => v.arestas
  | none => []

/-- Write of `p->arestas` for the node at position `p`. -/
def porArestas (vs : List Vertice) (p : Nat) (lista : List Nat) : List Vertice :=
  match vs[p]? with
  | some v => vs.set p { v with arestas := lista }
  | none => vs

/-- The loop that looks for an edge whose `destino` is `p` in an adjacency list
(`AdicionarAresta`, `inserirAresta`). -/
def temAresta (p : Nat) : List Nat → Bool
  | [] => false
  | a :: resto => if a = p then true else temAresta p resto

/-- The unlink loop of `RemoverAresta` (and of `removerAresta`): the adjacency
list without its first edge to `p`, and whether there was one. -/
def removerPrimeira (p : Nat) : List Nat → List Nat × Bool
  | [] => ([], false)
  | atual :: resto =>
    if atual = p then (resto, true)
    else (atual :: (removerPrimeira p resto).1, (removerPrimeira p resto).2)

/-- `RemoverAresta(g, xOrig, yOrig, xDest, yDest, &sucesso)`. -/
def RemoverAresta (g : Grafo) (xOrig yOrig xDest yDest : Int) : Grafo × Bool :=
  match ProcurarVertice g xOrig yOrig, ProcurarVertice g xDest yDest with
  | some origem, some destino =>
    -- first loop: origem->arestas, looking for destino
    let r1 := removerPrimeira (endereco g.vertices destino) (lerArestas g.vertices origem)
    let vs1 := porArestas g.vertices origem r1.1
    -- second loop: destino->arestas, looking for origem
    let r2 := removerPrimeira (endereco vs1 origem) (lerArestas vs1 destino)
    let vs2 := porArestas vs1 destino r2.1
    ({ g with vertices := vs2 }, r1.2 || r2.2)
  | _, _ => (g, false)

/-- One round of the inner loop of `RemoverVertice`, `v` being the position of
the node: `RemoverAresta(g, v->x, v->y, x, y, &dummy)`. -/
def RemoverVertice.passo (x y : Int) (g1 : Grafo) (v : Nat) : Grafo :=
  match g1.vertices[v]? with
  | some n => (RemoverAresta g1 n.x n.y x y).1
  | none => g1

/-- The inner loop of `RemoverVertice`: `v` walks all the positions of the
vertex list, in order. -/
def RemoverVertice.limpar (x y : Int) (g : Grafo) : Grafo :=
  (List.range g.vertices.length).foldl (RemoverVertice.passo x y) g

/-- The outer loop of `RemoverVertice`: `atual` is at position `pos`, `resto`
is the list from `atual` on. -/
def RemoverVertice.laco (g : Grafo) (x y : Int) : List Vertice → Nat → Grafo × Bool
  | [], _ => (g, false)
  | atual :: resto, pos =>
    if atual.x = x ∧ atual.y = y then
      let g1 := RemoverVertice.limpar x y g
      ({ g1 with vertices := g1.vertices.eraseIdx pos,
                 num_vertices := g1.num_vertices - 1 }, true)
    else RemoverVertice.laco g x y resto (pos + 1)

/-- `RemoverVertice(g, x, y, &sucesso)`. -/
def RemoverVertice (g : Grafo) (x y : Int) : Grafo × Bool :=
  RemoverVertice.laco g x y g.vertices 0

/-- `AdicionarAresta(g, xOrig, yOrig, xDest, yDest, &sucesso)`; `nova` tells
whether `malloc(sizeof(Aresta))` succeeds if it is called. -/
def AdicionarAresta (g : Grafo) (xOrig yOrig xDest yDest : Int) (nova : Bool) :
    Grafo × Bool :=
  match ProcurarVertice g xOrig yOrig, ProcurarVertice g xDest yDest with
  | some origem, some destino =>
    if temAresta (endereco g.vertices destino) (lerArestas g.vertices origem) then (g, false)
    else if nova then
      -- nova->destino = destino; nova->prox = origem->arestas; origem->arestas = nova;
      let lista := endereco g.vertices destino :: lerArestas g.vertices origem
      ({ g with vertices := porArestas g.vertices origem lista }, true)
    else (g, false)
  | _, _ => (g, false)

/-- `inserirAresta(origem, destino)` on the nodes of `g`; `nova` tells whether
`malloc` succeeds if it is called.  The result is the graph after the call and
the returned `bool`. -/
def inserirAresta (g : Grafo) (origem destino : Option Nat) (nova : Bool) : Grafo × Bool :=
  match origem, destino with
  | some o, some d =>
    if temAresta (endereco g.vertices d) (lerArestas g.vertices o) then (g, false)
    else if nova then
      let lista := endereco g.vertices d :: lerArestas g.vertices o
      ({ g with vertices := porArestas g.vertices o lista }, true)
    else (g, false)
  | _, _ => (g, false)

/-- `encontrarVerticePorID(g, id)`: the position of the first node with that
`id`, `none` for `NULL`. -/
def encontrarVerticePorID.laco (id : Int) : List Vertice → Option Nat
  | [] => none
  | v :: resto =>
    if v.id = id then some 0 else (encontrarVerticePorID.laco id resto).map (· + 1)

/-- `encontrarVerticePorID(g, id)`. -/
def encontrarVerticePorID (g : Grafo) (id : Int) : Option Nat :=
  encontrarVerticePorID.laco id g.vertices

/-- State of the loops of `deduzirNefasto` and `ligarVerticesComMesmaFrequencia`:
the graph, the flag `modificou`, and the number of calls made so far to the
function that may allocate. -/
structure Estado where
  g : Grafo
  modificou : Bool
  chamadas : Nat

/-- The largest value of an `int` (32 bits). -/
def INT_MAX : Int := 2147483647

/-- The value that the machine gives to an `int` expression whose exact value
is `n`: the 32-bit two's complement `int` that differs from `n` by a multiple
of `2^32` (sums, differences and products of `int`s wrap around). -/
def emInt (n : Int) : Int :=
  (n + 2147483648) % 4294967296 - 2147483648

/-- The exact value `n` is that of an `int`: computing it does not overflow. -/
def cabeEmInt (n : Int) : Prop :=
  -INT_MAX - 1 ≤ n ∧ n ≤ INT_MAX

instance (n : Int) : Decidable (cabeEmInt n) :=
  inferInstanceAs (Decidable (-INT_MAX - 1 ≤ n ∧ n ≤ INT_MAX))

/-- One guarded call `AdicionarVertice(g, x, y, '#', &sucesso); if (sucesso)
modificou = true;` of `deduzirNefasto`. -/
def deduzirNefasto.tentar (malloc : Nat → Option Bloco) (x y : Int) (st : Estado) : Estado :=
  if x ≥ 0 ∧ y ≥ 0 then
    let r := AdicionarVertice st.g x y '#' (malloc st.chamadas)
    { g := r.1, modificou := st.modificou || r.2, chamadas := st.chamadas + 1 }
  else st

/-- Body of the inner loop of `deduzirNefasto` after the `v1 == v2` test.  The
four reflections are `int`s computed from `int`s: they are the values `emInt`
of the exact results (reducing modulo `2^32` after the product and after the
difference gives the same value as reducing the exact result once). -/
def deduzirNefasto.par (malloc : Nat → Option Bloco) (v1 v2 : Vertice) (st : Estado) : Estado :=
  if v1.freq = v2.freq ∧ v1.freq ≠ '#' then
    let x_espelho1 := emInt (2 * v1.x - v2.x)
    let y_espelho1 := emInt (2 * v1.y - v2.y)
    let x_espelho2 := emInt (2 * v2.x - v1.x)
    let y_espelho2 := emInt (2 * v2.y - v1.y)
    deduzirNefasto.tentar malloc x_espelho2 y_espelho2
      (deduzirNefasto.tentar malloc x_espelho1 y_espelho1 st)
  else st

/-- Inner loop of `deduzirNefasto`: `v2` walks the list that `g->vertices` was
when the loop started (nodes added meanwhile go in front of the head).  `v1` is
the node that `depois1` nodes follow; `v1 == v2` holds when as many nodes follow
`v2`. -/
def deduzirNefasto.interno (malloc : Nat → Option Bloco) (v1 : Vertice) (depois1 : Nat) :
    List Vertice → Estado → Estado
  | [], st => st
  | v2 :: resto, st =>
    if resto.length = depois1 then deduzirNefasto.interno malloc v1 depois1 resto st
    else deduzirNefasto.interno malloc v1 depois1 resto (deduzirNefasto.par malloc v1 v2 st)

/-- Outer loop of `deduzirNefasto`: `v1` walks the list that `g->vertices` was
at the call (no node is unlinked and `x`, `y`, `freq` of a node are not written
during the call). -/
def deduzirNefasto.externo (malloc : Nat → Option Bloco) : List Vertice → Estado → Estado
  | [], st => st
  | v1 :: resto, st =>
    deduzirNefasto.externo malloc resto
      (deduzirNefasto.interno malloc v1 resto.length st.g.vertices st)

/-- `deduzirNefasto(g)`: the graph after the call and the returned `bool`.
`malloc n` is what `malloc` returns, if called, in the call number `n` of
`AdicionarVertice`. -/
def deduzirNefasto (g : Grafo) (malloc : Nat → Option Bloco) : Grafo × Bool :=
  let st := deduzirNefasto.externo malloc g.vertices { g := g, modificou := false, chamadas := 0 }
  (st.g, st.modificou)

/-- Body of the inner loop of `ligarVerticesComMesmaFrequencia` for the nodes at
positions `v1` and `v2`. -/
def ligarVerticesComMesmaFrequencia.par (malloc : Nat → Bool) (v1 v2 : Nat) (st : Estado) :
    Estado :=
  match st.g.vertices[v1]?, st.g.vertices[v2]? with
  | some n1, some n2 =>
    if n1.freq = n2.freq ∧ n1.freq ≠ '#' ∧ n1.freq ≠ '.' then
      let r1 := inserirAresta st.g (some v1) (some v2) (malloc st.chamadas)
      let r2 := inserirAresta r1.1 (some v2) (some v1) (malloc (st.chamadas + 1))
      { g := r2.1, modificou := (st.modificou || r1.2) || r2.2, chamadas := st.chamadas + 2 }
    else st
  | _, _ => st

/-- `ligarVerticesComMesmaFrequencia(g)`: `v1` walks all positions, `v2` the
positions after `v1`.  `malloc n` tells whether `malloc` succeeds, if called, in
the call number `n` of `inserirAresta`. -/
def ligarVerticesComMesmaFrequencia (g : Grafo) (malloc : Nat → Bool) : Grafo × Bool :=
  let n := g.vertices.length
  let st := (List.range n).foldl
    (fun st v1 =>
      (List.range' (v1 + 1) (n - (v1 + 1))).foldl
        (fun st v2 => ligarVerticesComMesmaFrequencia.par malloc v1 v2 st) st)
    { g := g, modificou := false, chamadas := 0 }
  (st.g, st.modificou)

/-- The read loop of `LerArestasBinario` over the `int`s of the file: it stops
at the first record that is not complete.  `n` counts the records read. -/
def LerArestasBinario.laco (malloc : Nat → Bool) : List Int → Nat → Grafo → Grafo
  | x1 :: y1 :: x2 :: y2 :: resto, n, g =>
    match ProcurarVertice g x1 y1, ProcurarVertice g x2 y2 with
    | some v1, some v2 =>
      match g.vertices[v1]?, g.vertices[v2]? with
      | some n1, some n2 =>
        LerArestasBinario.laco malloc resto (n + 1)
          (AdicionarAresta g n1.x n1.y n2.x n2.y (malloc n)).1
      | _, _ => LerArestasBinario.laco malloc resto (n + 1) g
    | _, _ => LerArestasBinario.laco malloc resto (n + 1) g
  | _, _, g => g

/-- `LerArestasBinario(g, nomeFicheiro)`: `ficheiro` is `none` when the file
cannot be opened, else the sequence of `int`s it holds.  `malloc n` tells
whether `malloc` succeeds, if called, while record number `n` is handled. -/
def LerArestasBinario (g : Grafo) (ficheiro : Option (List Int)) (malloc : Nat → Bool) : Grafo :=
  match ficheiro with
  | none => g
  | some ints => LerArestasBinario.laco malloc ints 0 g

/-- Read of `p->visita` for the node at position `p`. -/
def lerVisita (vs : List Vertice) (p : Nat) : Int :=
  match vs[p]? with
  | some v => v.visita
  | none => 0

/-- Write of `p->visita` for the node at position `p`. -/
def porVisita (vs : List Vertice) (p : Nat) (n : Int) : List Vertice :=
  match vs[p]? with
  | some v => vs.set p { v with visita := n }
  | none => vs

/-- The position of the node that is at address `a`. -/
def desref.laco (a : Nat) : List Vertice → Option Nat
  | [] => none
  | v :: resto => if v.addr = a then some 0 else (desref.laco a resto).map (· + 1)

/-- The node that an edge pointer `a` (`atual->destino`) designates: its position
in the vertex list.  An address at which no node of the list is reads as `NULL`
(the C code would read freed memory there). -/
def desref (vs : List Vertice) (a : Nat) : Option Nat :=
  desref.laco a vs

/-- `limparVisitados(g)`: the graph after the call and the returned `bool`
(`g` is never `NULL` here). -/
def limparVisitados (g : Grafo) : Grafo × Bool :=
  ({ vertices := g.vertices.map (fun v => { v with visita := 0 }),
     num_vertices := g.num_vertices, topo := 1 }, true)

/-- The statement `v->visita = g->topo++;` for the node at position `v`. -/
def carimbar (g : Grafo) (v : Nat) : Grafo :=
  { vertices := porVisita g.vertices v g.topo, num_vertices := g.num_vertices,
    topo := g.topo + 1 }

/-- `dfsRecursivo(v, g)`: the graph after the call and the returned `bool`.
The first argument bounds the depth of the recursion, which the C function does
not bound: the result is `none` when that depth is not enough. -/
def dfsRecursivo : Nat → Option Nat → Grafo → Option (Grafo × Bool)
  | 0, _, _ => none
  | _ + 1, none, g => some (g, false)
  | fundo + 1, some v, g =>
    if lerVisita g.vertices v ≠ 0 then some (g, false)
    else
      let g1 := carimbar g v
      -- while (a != NULL) { dfsRecursivo(a->destino, g); a = a->prox; }
      ((lerArestas g1.vertices v).foldlM
        (fun g2 a => (dfsRecursivo fundo (desref g2.vertices a) g2).map Prod.fst) g1).map
        (fun g3 => (g3, true))

/-- The `while` loop of `dfsRecursivo` over the adjacency list `l`, the calls
being given the depth `fundo`. -/
def dfsArestas (fundo : Nat) (l : List Nat) (g : Grafo) : Option Grafo :=
  l.foldlM (fun g2 a => (dfsRecursivo fundo (desref g2.vertices a) g2).map Prod.fst) g

/-- `dfs(g, x, y)`: the graph after the call and the returned `bool`.  The
recursion is given the depth `number of nodes + 1`. -/
def dfs (g : Grafo) (x y : Int) : Option (Grafo × Bool) :=
  let r := limparVisitados g
  if r.2 = false then some (r.1, false)
  else
    match ProcurarVertice r.1 x y with
    | none => some (r.1, false)
    | some inicio =>
      (dfsRecursivo (r.1.vertices.length + 1) (some inicio) r.1).map (fun s => (s.1, true))

/-- `adicionarAFila(&f, v)`: the queue after the call and the returned `bool`;
`novo` tells whether `malloc` succeeds. -/
def adicionarAFila (f : List Nat) (v : Nat) (novo : Bool) : List Nat × Bool :=
  if novo then (f ++ [v], true) else (f, false)

/-- `removerDaFila(&f)`: the queue after the call and the returned pointer. -/
def removerDaFila (f : List Nat) : List Nat × Option Nat :=
  match f with
  | [] => ([], none)
  | v :: resto => (resto, some v)

/-- State of the loops of `bfs`: the graph, the queue, and the number of calls
made so far to `adicionarAFila`. -/
structure EstadoBfs where
  g : Grafo
  fila : List Nat
  chamadas : Nat

/-- Body of the inner loop of `bfs` for the edge pointer `a`. -/
def bfs.aresta (malloc : Nat → Bool) (st : EstadoBfs) (a : Nat) : EstadoBfs :=
  match desref st.g.vertices a with
  | none => st
  | some w =>
    if lerVisita st.g.vertices w = 0 then
      { g := carimbar st.g w,
        fila := (adicionarAFila st.fila w (malloc st.chamadas)).1,
        chamadas := st.chamadas + 1 }
    else st

/-- The outer loop of `bfs`; the first argument bounds the number of rounds
(`none` when it is not enough). -/
def bfs.laco (malloc : Nat → Bool) : Nat → EstadoBfs → Option EstadoBfs
  | 0, st => if st.fila = [] then some st else none
  | rondas + 1, st =>
    match removerDaFila st.fila with
    | (_, none) => some st
    | (resto, some atual) =>
      bfs.laco malloc rondas
        ((lerArestas st.g.vertices atual).foldl (bfs.aresta malloc) { st with fila := resto })

/-- `bfs(g, x, y)`: the graph after the call and the returned `bool`.
`malloc n` tells whether `malloc` succeeds in the call number `n` of
`adicionarAFila`.  The outer loop is given as many rounds as there are nodes. -/
def bfs (g : Grafo) (x y : Int) (malloc : Nat → Bool) : Option (Grafo × Bool) :=
  let g0 := (limparVisitados g).1
  match ProcurarVertice g0 x y with
  | none => some (g0, false)
  | some inicio =>
    let fila := (adicionarAFila [] inicio (malloc 0)).1
    let g1 := carimbar g0 inicio
    (bfs.laco malloc g0.vertices.length { g := g1, fila := fila, chamadas := 1 }).map
      (fun st => (st.g, true))

/-- What a call of `gerarMatrizGrafo` gives: the null pointer, the bytes of the
buffer it returns, or no defined result (an `int` leaves its range or a byte is
written outside the buffer). -/
inductive Matriz where
  | nula
  | indefinida
  | texto (buffer : List Char)
deriving DecidableEq, Repr

/-- The assignment `buffer[i] = c`: `none` when `i` is not an index of the
buffer. -/
def escrever (buffer : List Char) (i : Int) (c : Char) : Option (List Char) :=
  if 0 ≤ i ∧ i < buffer.length then some (buffer.set i.toNat c) else none

/-- The first loop of `gerarMatrizGrafo`, on `(maxX, maxY)`. -/
def gerarMatrizGrafo.maximos : List Vertice → Int × Int → Int × Int
  | [], m => m
  | v :: resto, m =>
    gerarMatrizGrafo.maximos resto
      (if v.x > m.1 then v.x else m.1, if v.y > m.2 then v.y else m.2)

/-- One round of the loop on `y` of `gerarMatrizGrafo`: the loop on `x`, then
the line break. -/
def gerarMatrizGrafo.linha (colunas y : Int) (buffer : List Char) : Option (List Char) :=
  ((List.range colunas.toNat).foldlM
      (fun b (x : Nat) => escrever b (y * (colunas + 1) + (x : Int)) '.') buffer).bind
    (fun b => escrever b (y * (colunas + 1) + colunas) '\n')

/-- The loop on `y` of `gerarMatrizGrafo`. -/
def gerarMatrizGrafo.preencher (linhas colunas : Int) (buffer : List Char) :
    Option (List Char) :=
  (List.range linhas.toNat).foldlM
    (fun b (y : Nat) => gerarMatrizGrafo.linha colunas (y : Int) b) buffer

/-- The last loop of `gerarMatrizGrafo`: the label of every node is written. -/
def gerarMatrizGrafo.rotulos (colunas : Int) : List Vertice → List Char → Option (List Char)
  | [], b => some b
  | v :: resto, b =>
    (escrever b (v.y * (colunas + 1) + v.x) v.freq).bind
      (gerarMatrizGrafo.rotulos colunas resto)

/-- `gerarMatrizGrafo(g)`; `bloco` is what `malloc(tamanho)` returns: `none` for
the null pointer, `some lixo` for a block whose byte `i` holds `lixo i`.  The
sizes are `int`s: they are computed in `Int` and checked against `INT_MAX`
(all three are positive and `tamanho` is the largest).  An index is computed
in `Int` and checked against the buffer. -/
def gerarMatrizGrafo (g : Grafo) (bloco : Option (Nat → Char)) : Matriz :=
  let m := gerarMatrizGrafo.maximos g.vertices (0, 0)
  let linhas := m.2 + 1
  let colunas := m.1 + 1
  let tamanho := linhas * (colunas + 1) + 1
  if INT_MAX < tamanho then Matriz.indefinida
  else
    match bloco with
    | none => Matriz.nula
    | some lixo =>
      let buffer := (List.range tamanho.toNat).map lixo
      let cheio := (gerarMatrizGrafo.preencher linhas colunas buffer).bind
        (fun b => escrever b (tamanho - 1) (Char.ofNat 0))
      match cheio.bind (gerarMatrizGrafo.rotulos colunas g.vertices) with
      | none => Matriz.indefinida
      | some b => Matriz.texto b

/-- The byte 255: stored in the `char c` of `LerFicheiro` it compares equal to
`EOF` (`char` is signed, as where the program is built; with an unsigned `char`
no value of `c` equals `EOF` and the loop has no end). -/
def charEOF : Char := Char.ofNat 255

/-- The `while` loop of `LerFicheiro` on the characters that `fgetc` has still
to deliver; `g` is the pointer in the variable `g` (`none` is `NULL`), `n`
counts the calls of `AdicionarVertice`.  The result is `none` when the null
pointer is dereferenced (`AdicionarVertice(NULL, ...)`). -/
def LerFicheiro.laco (malloc : Nat → Option Bloco) :
    List Char → Option Grafo → Int → Int → Nat → Option (Option Grafo)
  | [], g, _, _, _ => some g
  | c :: resto, g, x, y, n =>
    if c = charEOF then some g
    else if c = '\n' then LerFicheiro.laco malloc resto g 0 (y + 1) n
    else if c ≠ '.' then
      match g with
      | none => none
      | some g1 =>
        LerFicheiro.laco malloc resto (some (AdicionarVertice g1 x y c (malloc n)).1)
          (x + 1) y (n + 1)
    else LerFicheiro.laco malloc resto g (x + 1) y n

/-- `LerFicheiro(g, nomeFicheiro, &sucesso)`: `ficheiro` is `none` when the file
cannot be opened, else the characters it holds; `bloco` is what `malloc` returns
to `CriarGrafo`; `malloc n` is what `malloc` returns, if called, in the call
number `n` of `AdicionarVertice`.  The result is the returned pointer and the
value stored in `*sucesso`, or `none` when the null pointer is dereferenced. -/
def LerFicheiro (g : Option Grafo) (ficheiro : Option (List Char)) (bloco : Option Int)
    (malloc : Nat → Option Bloco) : Option (Option Grafo × Bool) :=
  match ficheiro with
  | none => some (g, false)
  | some texto =>
    (LerFicheiro.laco malloc texto (CriarGrafo bloco) 0 0 0).map (fun r => (r, true))

/-- `mostrarcaminho(g)`: the lines it prints after the title (coordinates,
label and visit order of every node whose visit order is not 0, in list order)
and the returned `bool`. -/
def mostrarcaminho (g : Grafo) : List (Int × Int × Char × Int) × Bool :=
  g.vertices.foldl
    (fun r atual =>
      if atual.visita ≠ 0 then (r.1 ++ [(atual.x, atual.y, atual.freq, atual.visita)], true)
      else r)
    ([], false)

/-- The inner loop of `GuardarArestasBinario` for the node `v` on what is left
of its adjacency list: the `int`s written.  The result is `none` when
`a->destino` designates no node of the list (the C code reads freed memory). -/
def GuardarArestasBinario.arestas (vs : List Vertice) (v : Vertice) :
    List Nat → Option (List Int)
  | [] => some []
  | a :: resto =>
    match desref vs a with
    | none => none
    | some d =>
      match vs[d]? with
      | none => none
      | some destino =>
        (GuardarArestasBinario.arestas vs v resto).map
          (fun r => if v.id < destino.id then [v.x, v.y, destino.x, destino.y] ++ r else r)

/-- The outer loop of `GuardarArestasBinario` on what is left of the vertex
list. -/
def GuardarArestasBinario.laco (vs : List Vertice) : List Vertice → Option (List Int)
  | [] => some []
  | v :: resto =>
    (GuardarArestasBinario.arestas vs v v.arestas).bind
      (fun r1 => (GuardarArestasBinario.laco vs resto).map (fun r2 => r1 ++ r2))

/-- `GuardarArestasBinario(g, nomeFicheiro)`; `abre` tells whether `fopen`
succeeds.  The result is the sequence of `int`s that the file holds after the
call (`none` when the file is not opened) and the returned `bool`; it is `none`
when a pointer that designates no node is dereferenced. -/
def GuardarArestasBinario (g : Grafo) (abre : Bool) : Option (Option (List Int) × Bool) :=
  if abre then (GuardarArestasBinario.laco g.vertices g.vertices).map (fun r => (some r, true))
  else some (none, false)

/-- The C string that a buffer holds: its characters before the first NUL. -/
def textoC (buffer : List Char) : List Char :=
  buffer.takeWhile (fun c => decide (c ≠ Char.ofNat 0))

/-! ## Sequences of calls -/

/-- One call of the mutation interface, with its arguments and with what the
environment (`malloc`, the file) gives it. -/
inductive Op where
  | adicionarVertice (x y : Int) (freq : Char) (novo : Option Bloco)
  | removerVertice (x y : Int)
  | adicionarAresta (xOrig yOrig xDest yDest : Int) (nova : Bool)
  | removerAresta (xOrig yOrig xDest yDest : Int)
  | deduzirNefasto (malloc : Nat → Option Bloco)
  | ligarVerticesComMesmaFrequencia (malloc : Nat → Bool)
  | lerArestasBinario (ficheiro : Option (List Int)) (malloc : Nat → Bool)

/-- The graph after one call. -/
def executar (g : Grafo) : Op → Grafo
  | .adicionarVertice x y freq novo => (AdicionarVertice g x y freq novo).1
  | .removerVertice x y => (RemoverVertice g x y).1
  | .adicionarAresta xOrig yOrig xDest yDest nova =>
    (AdicionarAresta g xOrig yOrig xDest yDest nova).1
  | .removerAresta xOrig yOrig xDest yDest => (RemoverAresta g xOrig yOrig xDest yDest).1
  | .deduzirNefasto malloc => (deduzirNefasto g malloc).1
  | .ligarVerticesComMesmaFrequencia malloc => (ligarVerticesComMesmaFrequencia g malloc).1
  | .lerArestasBinario ficheiro malloc => LerArestasBinario g ficheiro malloc

/-- No node of the vertex list of `g` is at address `a`. -/
def livre (g : Grafo) (a : Nat) : Prop :=
  ∀ v ∈ g.vertices, v.addr ≠ a

instance (g : Grafo) (a : Nat) : Decidable (livre g a) :=
  inferInstanceAs (Decidable (∀ v ∈ g.vertices, v.addr ≠ a))

/-- What `malloc` guarantees for the blocks it hands to a call made on `g`: a
new block is at an address where no live node is, and two blocks handed out
during one call (nothing is freed in between) are at different addresses. -/
def Op.valida (g : Grafo) : Op → Prop
  | .adicionarVertice _ _ _ (some b) => livre g b.addr
  | .deduzirNefasto malloc =>
    (∀ n b, malloc n = some b → livre g b.addr) ∧
    ∀ m n b c, malloc m = some b → malloc n = some c → b.addr = c.addr → m = n
  | _ => True

/-- The graphs reachable from `CriarGrafo()` by a finite sequence of calls. -/
inductive Alcancavel : Grafo → Prop where
  | criar (bloco : Option Int) (g : Grafo) : CriarGrafo bloco = some g → Alcancavel g
  | passo (g : Grafo) (op : Op) : Alcancavel g → op.valida g → Alcancavel (executar g op)

/-! ## Properties of graphs -/

/-- The coordinates `(x, y)` of a node. -/
def coord (v : Vertice) : Int × Int := (v.x, v.y)

/-- The coordinates of the nodes of the vertex list, in list order. -/
def coordenadas (g : Grafo) : List (Int × Int) :=
  g.vertices.map coord

/-- No two nodes of the vertex list have the same `(x, y)`. -/
def coordenadasUnicas (g : Grafo) : Prop :=
  (coordenadas g).Nodup

/-- No adjacency list has two edges with the same `destino`. -/
def arestasUnicas (g : Grafo) : Prop :=
  ∀ v ∈ g.vertices, v.arestas.Nodup

/-- Total number of `Aresta` nodes of the graph. -/
def numArestas (g : Grafo) : Nat :=
  (g.vertices.map (fun v => v.arestas.length)).sum

instance (g : Grafo) : Decidable (coordenadasUnicas g) :=
  inferInstanceAs (Decidable (coordenadas g).Nodup)

instance (g : Grafo) : Decidable (arestasUnicas g) :=
  inferInstanceAs (Decidable (∀ v ∈ g.vertices, v.arestas.Nodup))

/-- The vertex list after the first loop of `RemoverAresta` on the nodes at
positions `o` (origem) and `e` (destino): the first edge `o -> e` is unlinked. -/
def semIda (vs : List Vertice) (o e : Nat) : List Vertice :=
  porArestas vs o ((lerArestas vs o).erase (endereco vs e))

/-- The vertex list after both loops of `RemoverAresta`: the first edge
`e -> o` is unlinked as well. -/
def semLigacao (vs : List Vertice) (o e : Nat) : List Vertice :=
  porArestas (semIda vs o e) e ((lerArestas (semIda vs o e) e).erase (endereco vs o))

/-- The vertex list `vs` in which every adjacency list keeps, in their order,
the edges `a` for which `fica v a` holds (`v` is the node that owns the list);
nothing else changes. -/
def filtrarArestas (fica : Vertice → Nat → Bool) (vs : List Vertice) : List Vertice :=
  vs.map (fun v => { v with arestas := v.arestas.filter (fica v) })

/-- A node without its adjacency list: the fields that no edge function
writes. -/
def semArestas (v : Vertice) : Vertice := { v with arestas := [] }

/-- Number of edges of `g` that touch the vertex at `(x, y)` whose address is
`p`: the edges of its own adjacency list and the edges of any list whose
`destino` is `p`. -/
def arestasQueTocam (g : Grafo) (x y : Int) (p : Nat) : Nat :=
  (g.vertices.map (fun v =>
    (v.arestas.filter (fun a => decide ((v.x = x ∧ v.y = y) ∨ a = p))).length)).sum

/-- A property of graphs kept by each elementary step of the mutation
interface. -/
structure Conservada (P : Grafo → Prop) : Prop where
  adicionarVertice : ∀ g x y f n, P g → P (AdicionarVertice g x y f n).1
  removerAresta : ∀ g a b c d, P g → P (RemoverAresta g a b c d).1
  adicionarAresta : ∀ g a b c d n, P g → P (AdicionarAresta g a b c d n).1
  inserirAresta : ∀ g o d n, P g → P (inserirAresta g o d n).1
  desligar : ∀ g k, P g →
    P { g with vertices := g.vertices.eraseIdx k, num_vertices := g.num_vertices - 1 }

/-- A node without its visit order: the fields that no traversal writes. -/
def semVisita (v : Vertice) : Vertice := { v with visita := 0 }

/-- The node at position `p` carries a visit order other than 0. -/
def visitado (g : Grafo) (p : Nat) : Prop :=
  lerVisita g.vertices p ≠ 0

instance (g : Grafo) (p : Nat) : Decidable (visitado g p) :=
  inferInstanceAs (Decidable (lerVisita g.vertices p ≠ 0))

/-- There is an edge from the node at position `i` to the node at position
`j`: the adjacency list of `i` holds a pointer to `j`. -/
def ligado (vs : List Vertice) (i j : Nat) : Prop :=
  ∃ a ∈ lerArestas vs i, desref vs a = some j

/-- The node at position `p` is reachable from the node at position `s` by a
path of zero or more directed edges. -/
def alcanca (vs : List Vertice) (s p : Nat) : Prop :=
  Relation.ReflTransGen (ligado vs) s p

/-- The graph `g2` comes from `g1` by a sequence of statements
`v->visita = g->topo++`, each on a node of the list whose visit order was 0. -/
inductive Carimbado (g1 : Grafo) : Grafo → Prop where
  | nada : Carimbado g1 g1
  | mais (g2 : Grafo) (p : Nat) : Carimbado g1 g2 → p < g2.vertices.length →
      lerVisita g2.vertices p = 0 → Carimbado g1 (carimbar g2 p)

/-- Number of nodes whose visit order is 0. -/
def porVisitar (g : Grafo) : Nat :=
  (g.vertices.filter (fun v => decide (v.visita = 0))).length

/-- The visit orders other than 0, in list order. -/
def carimbos (g : Grafo) : List Int :=
  (g.vertices.map (fun v => v.visita)).filter (fun n => decide (n ≠ 0))

/-- A pointer given to `dfsRecursivo` is `NULL` or designates a node of the
list. -/
def apontaLista (g : Grafo) (v : Option Nat) : Prop :=
  ∀ p, v = some p → p < g.vertices.length

/-- Between two rounds of the outer loop of `bfs` started at `s` on the list
`vs`: queued nodes are stamped, stamped nodes are reachable from `s`, and every
successor of a stamped node that is not queued is stamped. -/
def bfsExterno (vs : List Vertice) (s : Nat) (st : EstadoBfs) : Prop :=
  st.g.vertices.map semVisita = vs.map semVisita ∧ 0 < st.g.topo ∧
  (∀ p ∈ st.fila, visitado st.g p) ∧
  (∀ p, visitado st.g p → alcanca vs s p) ∧
  (∀ p, visitado st.g p → p ∉ st.fila → ∀ q, ligado vs p q → visitado st.g q)

/-- Inside the inner loop of `bfs` for the node `atual`, which has left the
queue: as `bfsExterno`, but for the successors of `atual`. -/
def bfsInterno (vs : List Vertice) (s atual : Nat) (st : EstadoBfs) : Prop :=
  st.g.vertices.map semVisita = vs.map semVisita ∧ 0 < st.g.topo ∧
  (∀ p ∈ st.fila, visitado st.g p) ∧
  (∀ p, visitado st.g p → alcanca vs s p) ∧
  (∀ p, visitado st.g p → p ∉ st.fila → p ≠ atual → ∀ q, ligado vs p q → visitado st.g q) ∧
  visitado st.g atual

/-- The visit orders other than 0 are the integers `1 .. k`, each carried by
one node, and the clock is `k + 1`. -/
def classificado (g : Grafo) : Prop :=
  g.topo = (carimbos g).length + 1 ∧
  (carimbos g).Perm ((List.range (carimbos g).length).map (fun (i : Nat) => (i : Int) + 1))

/-- Every edge pointer is the address of a node of the vertex list. -/
def semPendentes (g : Grafo) : Prop :=
  ∀ v ∈ g.vertices, ∀ a ∈ v.arestas, ∃ w ∈ g.vertices, w.addr = a

instance (g : Grafo) : Decidable (semPendentes g) :=
  inferInstanceAs (Decidable (∀ v ∈ g.vertices, ∀ a ∈ v.arestas, ∃ w ∈ g.vertices, w.addr = a))

/-- An allocator of queue nodes that always fails. -/
def nunca (_ : Nat) : Bool := false

/-- A property of graphs kept by the three functions that the loops of
`deduzirNefasto`, `ligarVerticesComMesmaFrequencia` and `LerArestasBinario`
call, `inserirAresta` being given two nodes of the list. -/
structure ConservadaNosLacos (P : Grafo → Prop) : Prop where
  adicionarVertice : ∀ g x y f n, P g → P (AdicionarVertice g x y f n).1
  adicionarAresta : ∀ g a b c d n, P g → P (AdicionarAresta g a b c d n).1
  inserirAresta : ∀ g o d n, o < g.vertices.length → d < g.vertices.length → P g →
    P (inserirAresta g (some o) (some d) n).1

/-- The point `(x, y)` is the reflection of a node of `g0` across another node
of `g0` with the same label, the label not being `'#'`. -/
def reflexo (g0 : Grafo) (x y : Int) : Prop :=
  ∃ (i j : Nat) (v1 v2 : Vertice), i ≠ j ∧ g0.vertices[i]? = some v1 ∧ g0.vertices[j]? = some v2 ∧
    v1.freq = v2.freq ∧ v1.freq ≠ '#' ∧ x = 2 * v1.x - v2.x ∧ y = 2 * v1.y - v2.y

/-- The point `(x, y)` is what `deduzirNefasto` computes, in `int`s, for the
reflection of a node of `g0` across another node of `g0` with the same label,
the label not being `'#'`. -/
def reflexoInt (g0 : Grafo) (x y : Int) : Prop :=
  ∃ (i j : Nat) (v1 v2 : Vertice), i ≠ j ∧ g0.vertices[i]? = some v1 ∧ g0.vertices[j]? = some v2 ∧
    v1.freq = v2.freq ∧ v1.freq ≠ '#' ∧
    x = emInt (2 * v1.x - v2.x) ∧ y = emInt (2 * v1.y - v2.y)

/-- No integer overflow in `deduzirNefasto` on `g`: the coordinates of the
reflection of a node across a node with the same label, other than `'#'`, are
values of an `int`. -/
def semTransbordo (g : Grafo) : Prop :=
  ∀ v1 ∈ g.vertices, ∀ v2 ∈ g.vertices, v1.freq = v2.freq → v1.freq ≠ '#' →
    cabeEmInt (2 * v1.x - v2.x) ∧ cabeEmInt (2 * v1.y - v2.y)

instance (g : Grafo) : Decidable (semTransbordo g) :=
  inferInstanceAs (Decidable (∀ v1 ∈ g.vertices, ∀ v2 ∈ g.vertices, v1.freq = v2.freq →
    v1.freq ≠ '#' → cabeEmInt (2 * v1.x - v2.x) ∧ cabeEmInt (2 * v1.y - v2.y)))

/-- A node as `deduzirNefasto` creates them on `g0`: label `'#'`, no edge,
coordinates that are not negative, at a point computed as a reflection of
`g0`. -/
def marcador (g0 : Grafo) (v : Vertice) : Prop :=
  v.freq = '#' ∧ v.arestas = [] ∧ 0 ≤ v.x ∧ 0 ≤ v.y ∧ reflexoInt g0 v.x v.y

/-- State of the loops of `deduzirNefasto` called on `g0`: the vertex list is
that of `g0` with new nodes in front of it, the clock is untouched, and the flag
tells whether there is a new node. -/
def cresceu (g0 : Grafo) (st : Estado) : Prop :=
  ∃ novos, st.g.vertices = novos ++ g0.vertices ∧ (∀ v ∈ novos, marcador g0 v) ∧
    st.g.topo = g0.topo ∧ (st.modificou = true ↔ novos ≠ [])

/-- The nodes `v1` and `v2`, if the inner loop of `deduzirNefasto` pairs them,
are two different nodes of `g0`. -/
@[reducible]
def parDe (g0 : Grafo) (v1 v2 : Vertice) : Prop :=
  v1.freq = v2.freq ∧ v1.freq ≠ '#' →
    ∃ (i j : Nat), i ≠ j ∧ g0.vertices[i]? = some v1 ∧ g0.vertices[j]? = some v2

/-- An allocator of `Vertice` nodes that always fails. -/
def semBlocos (_ : Nat) : Option Bloco := none

/-- Facts kept by the loops of `ligarVerticesComMesmaFrequencia` called on `g`:
the nodes keep all their fields but the adjacency lists, which only grow, and
the flag tells whether the number of edges has grown. -/
def ligou (g : Grafo) (st : Estado) : Prop :=
  st.g.vertices.map semArestas = g.vertices.map semArestas ∧
  (∀ k a, a ∈ lerArestas g.vertices k → a ∈ lerArestas st.g.vertices k) ∧
  numArestas g ≤ numArestas st.g ∧
  (st.modificou = true ↔ numArestas g < numArestas st.g)

/-- The value `m` is the largest of the list `l`, or 0 when `l` is empty. -/
def maximoDe (l : List Int) (m : Int) : Prop :=
  (l = [] → m = 0) ∧ (l ≠ [] → m ∈ l ∧ ∀ a ∈ l, a ≤ m)

instance (l : List Int) (m : Int) : Decidable (maximoDe l m) :=
  inferInstanceAs (Decidable ((l = [] → m = 0) ∧ (l ≠ [] → m ∈ l ∧ ∀ a ∈ l, a ≤ m)))

/-- The label of the first node at `(x, y)`, or `'.'` when there is none. -/
def celula (g : Grafo) (x y : Int) : Char :=
  match g.vertices.find? (fun v => decide (v.x = x ∧ v.y = y)) with
  | some v => v.freq
  | none => '.'

/-- Rows `0 .. linhas - 1`, one after the other; row `y` is the characters
`f x y` for the columns `x = 0 .. colunas - 1`, then a line break. -/
def desenhar (f : Int → Int → Char) (colunas linhas : Nat) : List Char :=
  (List.range linhas).flatMap
    (fun (y : Nat) => (List.range colunas).map (fun (x : Nat) => f (x : Int) (y : Int)) ++ ['\n'])

/-- The drawing of the graph `g` on `maxY + 1` rows of `maxX + 1` columns. -/
def desenho (g : Grafo) (maxX maxY : Int) : List Char :=
  desenhar (celula g) (maxX + 1).toNat (maxY + 1).toNat

/-- All the coordinates of the graph are at least 0. -/
def naoNegativas (g : Grafo) : Prop :=
  ∀ v ∈ g.vertices, 0 ≤ v.x ∧ 0 ≤ v.y

instance (g : Grafo) : Decidable (naoNegativas g) :=
  inferInstanceAs (Decidable (∀ v ∈ g.vertices, 0 ≤ v.x ∧ 0 ≤ v.y))

/-- The function `f` with the value `c` at `(x, y)`. -/
def comRotulo (f : Int → Int → Char) (x y : Int) (c : Char) : Int → Int → Char :=
  fun a b => if a = x ∧ b = y then c else f a b

/-- The labels of the nodes written one after the other on `f`. -/
def rotular : List Vertice → (Int → Int → Char) → Int → Int → Char
  | [], f => f
  | v :: resto, f => rotular resto (comRotulo f v.x v.y v.freq)

/-- The lines of a text: the pieces that the line breaks delimit. -/
def linhasDe : List Char → List (List Char)
  | [] => [[]]
  | c :: resto =>
    if c = '\n' then [] :: linhasDe resto
    else (c :: (linhasDe resto).headD []) :: (linhasDe resto).tail

/-- The antennas of line number `y`, from left to right: column, line and
character of every character that is not `'.'`; the first character of `linha`
is at column `x0`. -/
def antenasDaLinha (y x0 : Nat) (linha : List Char) : List (Int × Int × Char) :=
  ((linha.enumFrom x0).filter (fun p => decide (p.2 ≠ '.'))).map
    (fun p => ((p.1 : Int), (y : Int), p.2))

/-- The antennas of the lines `ls`, the first of which is line number `y0`, in
reading order. -/
def antenasDasLinhas (y0 : Nat) (ls : List (List Char)) : List (Int × Int × Char) :=
  (ls.enumFrom y0).flatMap (fun p => antenasDaLinha p.1 0 p.2)

/-- The antennas of a text in reading order. -/
def antenasDoTexto (texto : List Char) : List (Int × Int × Char) :=
  antenasDasLinhas 0 (linhasDe texto)

/-- Column, line and label of a node. -/
def antena (v : Vertice) : Int × Int × Char := (v.x, v.y, v.freq)

/-- The antennas that the loop of `LerFicheiro` meets from column `x` of line
`y` on. -/
def antenasDesde : Nat → Nat → List Char → List (Int × Int × Char)
  | _, _, [] => []
  | x, y, c :: resto =>
    if c = '\n' then antenasDesde 0 (y + 1) resto
    else if c ≠ '.' then ((x : Int), (y : Int), c) :: antenasDesde (x + 1) y resto
    else antenasDesde (x + 1) y resto

/-- Every node of the graph is before column `x` of line `y` in reading
order. -/
def antes (g : Grafo) (x y : Nat) : Prop :=
  ∀ v ∈ g.vertices, v.y < y ∨ (v.y = y ∧ v.x < x)

/-- A record of the binary file of edges: the coordinates of the source and of
the destination of an edge. -/
@[reducible]
def Registo : Type := Int × Int × Int × Int

/-- What `GuardarArestasBinario` writes for the edge pointer `a` of the node
`v`: one record when the `id` of `v` is less than the `id` of the node that `a`
designates, nothing otherwise. -/
def registoDe (vs : List Vertice) (v : Vertice) (a : Nat) : List Registo :=
  match desref vs a with
  | none => []
  | some d =>
    match vs[d]? with
    | none => []
    | some destino => if v.id < destino.id then [(v.x, v.y, destino.x, destino.y)] else []

/-- The records of the graph, node after node and edge after edge. -/
def registos (g : Grafo) : List Registo :=
  g.vertices.flatMap (fun v => v.arestas.flatMap (registoDe g.vertices v))

/-- The `int`s of a sequence of records. -/
def emInts (rs : List Registo) : List Int :=
  rs.flatMap (fun r => [r.1, r.2.1, r.2.2.1, r.2.2.2])

/-- The graph after `LerArestasBinario` has handled the record `r`, the
allocation succeeding. -/
def lerRegisto (g : Grafo) (r : Registo) : Grafo :=
  (AdicionarAresta g r.1 r.2.1 r.2.2.1 r.2.2.2 true).1

/-- The graph has an edge from its node `u` to its node `v`: the adjacency list
of `u` holds a pointer that designates `v`. -/
def arestaDe (g : Grafo) (u v : Vertice) : Prop :=
  u ∈ g.vertices ∧ ∃ a ∈ u.arestas, ∃ d, desref g.vertices a = some d ∧ g.vertices[d]? = some v

/-- The record `r` makes `LerArestasBinario`, on a graph with the nodes of `g2`,
look for an edge from the node at position `i` to the node at address `a`. -/
def pede (g2 : Grafo) (r : Registo) (i : Nat) (a : Nat) : Prop :=
  ProcurarVertice g2 r.1 r.2.1 = some i ∧
    ∃ j, ProcurarVertice g2 r.2.2.1 r.2.2.2 = some j ∧ endereco g2.vertices j = a

/-- Every point that `deduzirNefasto` computes as a reflection and that has no
negative coordinate is occupied: `deduzirNefasto` has nothing to add. -/
def completo (G : Grafo) : Prop :=
  ∀ (i j : Nat) (v1 v2 : Vertice), i ≠ j → G.vertices[i]? = some v1 → G.vertices[j]? = some v2 →
    v1.freq = v2.freq → v1.freq ≠ '#' →
    emInt (2 * v1.x - v2.x) ≥ 0 → emInt (2 * v1.y - v2.y) ≥ 0 →
    (emInt (2 * v1.x - v2.x), emInt (2 * v1.y - v2.y)) ∈ coordenadas G

/-- State of the loops of `deduzirNefasto` called on `G` when no node has been
added so far. -/
def parado (G : Grafo) (st : Estado) : Prop :=
  st.g = G ∧ st.modificou = false

/-- What bounds the depth of `dfsRecursivo`: the number of nodes whose visit
order is 0, and one more while the clock has not passed 0 (the stamp 0 leaves
its node unstamped). -/
def medida (g : Grafo) : Nat :=
  porVisitar g + (if g.topo ≤ 0 then 1 else 0)

/-- A path of exactly `n` edges leads from the node at position `s` to the node
at position `p`. -/
inductive Passos (vs : List Vertice) (s : Nat) : Nat → Nat → Prop where
  | zero : Passos vs s 0 s
  | mais (n p q : Nat) : Passos vs s n p → ligado vs p q → Passos vs s (n + 1) q

/-- The shortest path from the node at position `s` to the node at position `p`
has `d` edges. -/
def distancia (vs : List Vertice) (s p d : Nat) : Prop :=
  Passos vs s d p ∧ ∀ m, Passos vs s m p → d ≤ m

/-- The positions of the nodes that the edges of the node at position `p`
designate. -/
def sucessores (vs : List Vertice) (p : Nat) : List Nat :=
  (lerArestas vs p).filterMap (desref vs)

/-- The positions of the nodes that a path of at most `n` edges reaches from
the node at position `s`. -/
def dentro (vs : List Vertice) (s : Nat) : Nat → List Nat
  | 0 => [s]
  | n + 1 => dentro vs s n ++ (dentro vs s n).flatMap (sucessores vs)

/-- Inside the inner loop of `bfs` for the node `atual`, when every allocation
succeeds: the start is stamped, the stamps are below the clock and grow with
the distance from the start, the queue is in the order of the stamps, after
that of `atual`, and no stamped node is more than one edge farther than
`atual`. -/
def bfsNivel (vs : List Vertice) (s atual : Nat) (st : EstadoBfs) : Prop :=
  visitado st.g s ∧
  (∀ p, visitado st.g p → lerVisita st.g.vertices p < st.g.topo) ∧
  (∀ p q dp dq, visitado st.g p → visitado st.g q → distancia vs s p dp →
    distancia vs s q dq → dp < dq → lerVisita st.g.vertices p < lerVisita st.g.vertices q) ∧
  st.fila.Pairwise (fun a b => lerVisita st.g.vertices a < lerVisita st.g.vertices b) ∧
  (∀ q ∈ st.fila, lerVisita st.g.vertices atual < lerVisita st.g.vertices q) ∧
  (∀ q dq da, visitado st.g q → distancia vs s q dq → distancia vs s atual da → dq ≤ da + 1)

/-- Between two rounds of the outer loop of `bfs`, when every allocation
succeeds: as `bfsNivel`, with the head of the queue for `atual`. -/
def bfsOrdem (vs : List Vertice) (s : Nat) (st : EstadoBfs) : Prop :=
  visitado st.g s ∧
  (∀ p, visitado st.g p → lerVisita st.g.vertices p < st.g.topo) ∧
  (∀ p q dp dq, visitado st.g p → visitado st.g q → distancia vs s p dp →
    distancia vs s q dq → dp < dq → lerVisita st.g.vertices p < lerVisita st.g.vertices q) ∧
  st.fila.Pairwise (fun a b => lerVisita st.g.vertices a < lerVisita st.g.vertices b) ∧
  (∀ h, st.fila.head? = some h → ∀ q dq dh, visitado st.g q → distancia vs s q dq →
    distancia vs s h dh → dq ≤ dh + 1)

/-! ## Example graphs -/

/-- An empty graph, as `CriarGrafo` returns it. -/
def vazio : Grafo := { vertices := [], num_vertices := 0, topo := 0 }

/-- An allocator that never fails and hands out the addresses 100, 101, ... -/
def blocos (n : Nat) : Option Bloco := some { addr := 100 + n, visita := 0 }

/-- An allocator of `Aresta` nodes that never fails. -/
def sempre (_ : Nat) : Bool := true

/-- Two antennas `A` at (0,0) and (2,0). -/
def doisA : Grafo :=
  executar (executar vazio (.adicionarVertice 0 0 'A' (some ⟨1, 0⟩)))
    (.adicionarVertice 2 0 'A' (some ⟨2, 0⟩))

/-- Three antennas `A` at (0,0), (1,0) and (2,0). -/
def tresA : Grafo :=
  executar (executar (executar vazio (.adicionarVertice 0 0 'A' (some ⟨1, 0⟩)))
    (.adicionarVertice 1 0 'A' (some ⟨2, 0⟩))) (.adicionarVertice 2 0 'A' (some ⟨3, 0⟩))

/-- One antenna `A` at (0,0) in a new graph. -/
def umA : Grafo :=
  executar vazio (.adicionarVertice 0 0 'A' (some ⟨1, 0⟩))

/-- Three antennas are added at (0,0), (1,0), (2,0), the first two are removed
and a fourth one is added at (3,0), in the block that the first one left. -/
def repetido : Grafo :=
  executar (executar (executar tresA (.removerVertice 0 0)) (.removerVertice 1 0))
    (.adicionarVertice 3 0 'B' (some ⟨1, 0⟩))

/-- The three antennas `A` linked by `ligarVerticesComMesmaFrequencia`, then the
edge file with the one record (0,0) -> (2,0) read. -/
def tresALigados : Grafo :=
  executar (executar tresA (.ligarVerticesComMesmaFrequencia sempre))
    (.lerArestasBinario (some [0, 0, 2, 0]) sempre)

/-- Three antennas `A` and the one directed edge (0,0) -> (2,0). -/
def umaIda : Grafo :=
  executar tresA (.adicionarAresta 0 0 2 0 true)

/-- Four antennas at (0,0), (1,0), (2,0), (3,0) and the two directed edges
(0,0) -> (1,0) and (1,0) -> (2,0). -/
def cadeia : Grafo :=
  executar (executar (executar tresA (.adicionarVertice 3 0 'B' (some ⟨4, 0⟩)))
    (.adicionarAresta 0 0 1 0 true)) (.adicionarAresta 1 0 2 0 true)

/-- The graph `cadeia` after a breadth-first traversal from (0,0) in which every
allocation succeeds. -/
def cadeiaVisitada : Grafo :=
  match bfs cadeia 0 0 sempre with
  | some r => r.1
  | none => cadeia

/-- An antenna `A` at (0,0) and an antenna `B` at (1,1). -/
def duasLinhas : Grafo :=
  executar (executar vazio (.adicionarVertice 0 0 'A' (some ⟨1, 0⟩)))
    (.adicionarVertice 1 1 'B' (some ⟨2, 0⟩))

/-- Two antennas `A` at (0,0) and (-1500000000,0): twice the second abscissa
is not the value of an `int`. -/
def doisAfastados : Grafo :=
  executar (executar vazio (.adicionarVertice 0 0 'A' (some ⟨1, 0⟩)))
    (.adicionarVertice (-1500000000) 0 'A' (some ⟨2, 0⟩))

/-- One antenna `A` at (65535, 65535). -/
def longe : Grafo :=
  executar vazio (.adicionarVertice 65535 65535 'A' (some ⟨1, 0⟩))

/-- A block of memory that holds the character `x` in every byte. -/
def blocoX : Option (Nat → Char) := some (fun _ => 'x')

/-- The text of two lines `A.` and `.A`. -/
def diagonal : List Char := ['A', '.', '\n', '.', 'A', '\n']

/-- The graph read from `diagonal` into the blocks `b0` and `b1`: `A` at (1,1),
then `A` at (0,0). -/
def diagonalLida (b0 b1 : Bloco) (topo : Int) : Grafo :=
  { vertices := [⟨b1.addr, 2, 1, 1, 'A', b1.visita, []⟩, ⟨b0.addr, 0, 0, 0, 'A', b0.visita, []⟩],
    num_vertices := 4, topo := topo }

/-- The graph `diagonalLida` with an edge from each node to the other. -/
def diagonalLigada (b0 b1 : Bloco) (topo : Int) : Grafo :=
  { vertices := [⟨b1.addr, 2, 1, 1, 'A', b1.visita, [b0.addr]⟩,
      ⟨b0.addr, 0, 0, 0, 'A', b0.visita, [b1.addr]⟩],
    num_vertices := 4, topo := topo }

/-- The graph `diagonalLigada` with a node `#` at (2,2), in the block `b2`, in
front of the list. -/
def diagonalNefasta (b0 b1 b2 : Bloco) (topo : Int) : Grafo :=
  { vertices := ⟨b2.addr, 4, 2, 2, '#', b2.visita, []⟩ :: (diagonalLigada b0 b1 topo).vertices,
    num_vertices := 6, topo := topo }

/-- The graph `repetido`, whose two nodes, `B` at (3,0) and `A` at (2,0), have
the same `id`, with an edge from each of them to the other. -/
def repetidoLigado : Grafo :=
  executar (executar repetido (.adicionarAresta 3 0 2 0 true)) (.adicionarAresta 2 0 3 0 true)

/-- A node labelled with the byte `c` at (0,0) and an antenna `A` at (1,0). -/
def comByte (c : Char) : Grafo :=
  executar (executar vazio (.adicionarVertice 0 0 c (some ⟨1, 0⟩)))
    (.adicionarVertice 1 0 'A' (some ⟨2, 0⟩))

/-- Two antennas with an edge from each to the other and an edge from the one
at (0,0) to itself; no node is stamped and the clock is 0. -/
def ciclo : Grafo :=
  executar (executar (executar doisA (.adicionarAresta 0 0 2 0 true))
    (.adicionarAresta 2 0 0 0 true)) (.adicionarAresta 0 0 0 0 true)

/-- Six antennas on one line, added from (0,0) to (5,0), so that the node at
(0,0) is at position 5 of the list and the node at (5,0) at position 0, with
the edges (0,0) -> (1,0), (0,0) -> (2,0), (1,0) -> (5,0), (2,0) -> (3,0),
(3,0) -> (4,0) and (3,0) -> (5,0), each adjacency list in this order. -/
def desvio : Grafo :=
  [Op.adicionarVertice 0 0 'A' (some ⟨1, 0⟩), Op.adicionarVertice 1 0 'A' (some ⟨2, 0⟩),
    Op.adicionarVertice 2 0 'A' (some ⟨3, 0⟩), Op.adicionarVertice 3 0 'A' (some ⟨4, 0⟩),
    Op.adicionarVertice 4 0 'A' (some ⟨5, 0⟩), Op.adicionarVertice 5 0 'A' (some ⟨6, 0⟩),
    Op.adicionarAresta 0 0 2 0 true, Op.adicionarAresta 0 0 1 0 true,
    Op.adicionarAresta 1 0 5 0 true, Op.adicionarAresta 2 0 3 0 true,
    Op.adicionarAresta 3 0 5 0 true, Op.adicionarAresta 3 0 4 0 true].foldl executar vazio

/-- An allocator of queue nodes that fails in its call number 1 only. -/
def falhaUma (n : Nat) : Bool := decide (n ≠ 1)

/-! ## Elementary facts about the list primitives -/

theorem length_porArestas (vs : List Vertice) (p : Nat) (l : List Nat) :
    (porArestas vs p l).length = vs.length := by
  unfold porArestas
  cases h : vs[p]? <;> simp

theorem getElem?_porArestas (vs : List Vertice) (p : Nat) (l : List Nat) (k : Nat) :
    (porArestas vs p l)[k]? =
      if k = p then (vs[p]?).map (fun v => { v with arestas := l }) else vs[k]? := by
  unfold porArestas
  cases h : vs[p]? with
  | none => by_cases hk : k = p <;> simp [hk, h]
  | some v =>
    by_cases hk : k = p
    · subst hk
      have hlt : k < vs.length := (List.getElem?_eq_some_iff.mp h).1
      simp [List.getElem?_set_self hlt]
    · have hk2 : p ≠ k := fun e => hk e.symm
      simp [hk, List.getElem?_set_ne hk2]

theorem map_porArestas {β : Type} (f : Vertice → β) (hf : ∀ v l, f { v with arestas := l } = f v)
    (vs : List Vertice) (p : Nat) (l : List Nat) :
    (porArestas vs p l).map f = vs.map f := by
  apply List.ext_getElem?
  intro k
  rw [List.getElem?_map, getElem?_porArestas, List.getElem?_map]
  by_cases hk : k = p
  · subst hk
    cases h : vs[k]? <;> simp [hf]
  · simp [hk]

theorem mem_porArestas {vs : List Vertice} {p : Nat} {l : List Nat} {v : Vertice}
    (h : v ∈ porArestas vs p l) : v ∈ vs ∨ ∃ w ∈ vs, v = { w with arestas := l } := by
  unfold porArestas at h
  cases hp : vs[p]? with
  | none => rw [hp] at h; exact Or.inl h
  | some w =>
    rw [hp] at h
    rcases List.mem_or_eq_of_mem_set h with h1 | h1
    · exact Or.inl h1
    · exact Or.inr ⟨w, List.mem_iff_getElem?.mpr ⟨p, hp⟩, h1⟩

theorem lerArestas_mem (vs : List Vertice) (p : Nat) :
    lerArestas vs p = [] ∨ ∃ v ∈ vs, lerArestas vs p = v.arestas := by
  unfold lerArestas
  cases hp : vs[p]? with
  | none => exact Or.inl rfl
  | some w => exact Or.inr ⟨w, List.mem_iff_getElem?.mpr ⟨p, hp⟩, rfl⟩

theorem temAresta_iff (p : Nat) (l : List Nat) : temAresta p l = true ↔ p ∈ l := by
  induction l with
  | nil => simp [temAresta]
  | cons a t ih =>
    unfold temAresta
    by_cases h : a = p
    · simp [h]
    · have h2 : ¬ p = a := fun e => h e.symm
      simp [h, h2, ih]

theorem removerPrimeira_fst (p : Nat) (l : List Nat) : (removerPrimeira p l).1 = l.erase p := by
  induction l with
  | nil => simp [removerPrimeira]
  | cons a t ih =>
    unfold removerPrimeira
    by_cases h : a = p
    · simp [h]
    · simp [h, ih, List.erase_cons_tail]

theorem removerPrimeira_snd (p : Nat) (l : List Nat) :
    (removerPrimeira p l).2 = true ↔ p ∈ l := by
  induction l with
  | nil => simp [removerPrimeira]
  | cons a t ih =>
    unfold removerPrimeira
    by_cases h : a = p
    · simp [h]
    · have h2 : ¬ p = a := fun e => h e.symm
      simp [h, h2, ih]

theorem laco_map_coord (x y : Int) (vs ws : List Vertice)
    (h : vs.map coord = ws.map coord) :
    ProcurarVertice.laco x y vs = ProcurarVertice.laco x y ws := by
  induction vs generalizing ws with
  | nil =>
    cases ws with
    | nil => rfl
    | cons w t => simp at h
  | cons v t ih =>
    cases ws with
    | nil => simp at h
    | cons w u =>
      simp only [List.map_cons, List.cons.injEq] at h
      have hc : v.x = w.x ∧ v.y = w.y := by
        have := h.1
        simp only [coord, Prod.mk.injEq] at this
        exact this
      simp only [ProcurarVertice.laco, hc.1, hc.2, ih u h.2]

theorem laco_eq_none (x y : Int) (vs : List Vertice) :
    ProcurarVertice.laco x y vs = none ↔ (x, y) ∉ vs.map coord := by
  induction vs with
  | nil => simp [ProcurarVertice.laco]
  | cons v t ih =>
    unfold ProcurarVertice.laco
    by_cases h : v.x = x ∧ v.y = y
    · simp [h, coord]
    · have h2 : ¬ (x = v.x ∧ y = v.y) := fun e => h ⟨e.1.symm, e.2.symm⟩
      simp only [h, if_false, Option.map_eq_none', ih, List.map_cons, List.mem_cons, coord,
        Prod.mk.injEq, h2, false_or]
      

theorem laco_eq_some (x y : Int) (vs : List Vertice) (k : Nat) :
    ProcurarVertice.laco x y vs = some k ↔
      (∃ v, vs[k]? = some v ∧ coord v = (x, y)) ∧ ∀ j < k, ∀ w, vs[j]? = some w → coord w ≠ (x, y) := by
  induction vs generalizing k with
  | nil => simp [ProcurarVertice.laco]
  | cons v t ih =>
    unfold ProcurarVertice.laco
    by_cases h : v.x = x ∧ v.y = y
    · simp only [h, and_self, if_true, Option.some.injEq]
      constructor
      · intro hk
        subst hk
        simp [coord, h]
      · rintro ⟨-, h2⟩
        cases k with
        | zero => rfl
        | succ k =>
          exfalso
          exact h2 0 (Nat.succ_pos k) v (by simp) (by simp [coord, h])
    · simp only [h, if_false, Option.map_eq_some']
      constructor
      · rintro ⟨j, hj, rfl⟩
        rw [ih] at hj
        refine ⟨by simpa using hj.1, ?_⟩
        intro i hi w hw
        cases i with
        | zero =>
          simp at hw
          subst hw
          simpa [coord] using h
        | succ i =>
          simp at hw
          exact hj.2 i (Nat.lt_of_succ_lt_succ hi) w hw
      · rintro ⟨⟨w, hw, hc⟩, h2⟩
        cases k with
        | zero =>
          simp at hw
          subst hw
          exfalso
          apply h
          simpa [coord] using hc
        | succ k =>
          refine ⟨k, ?_, rfl⟩
          rw [ih]
          refine ⟨⟨w, by simpa using hw, hc⟩, ?_⟩
          intro j hj u hu
          exact h2 (j + 1) (Nat.succ_lt_succ hj) u (by simpa using hu)

/-! ## Properties kept by every call -/

theorem foldl_conserva {α : Type} (P : Grafo → Prop) (f : Grafo → α → Grafo)
    (hf : ∀ g a, P g → P (f g a)) (l : List α) (g : Grafo) (h : P g) : P (l.foldl f g) := by
  induction l generalizing g with
  | nil => exact h
  | cons a t ih => exact ih (f g a) (hf g a h)

theorem foldl_conserva_estado {α : Type} (P : Grafo → Prop) (f : Estado → α → Estado)
    (hf : ∀ st a, P st.g → P (f st a).g) (l : List α) (st : Estado) (h : P st.g) :
    P (l.foldl f st).g := by
  induction l generalizing st with
  | nil => exact h
  | cons a t ih => exact ih (f st a) (hf st a h)

theorem limpar_conserva {P : Grafo → Prop} (hP : Conservada P) (x y : Int) (g : Grafo)
    (h : P g) : P (RemoverVertice.limpar x y g) := by
  unfold RemoverVertice.limpar
  apply foldl_conserva P _ _ _ _ h
  intro g1 v h1
  unfold RemoverVertice.passo
  cases hv : g1.vertices[v]? with
  | none => exact h1
  | some n => exact hP.removerAresta g1 n.x n.y x y h1

theorem RemoverVertice_laco_conserva {P : Grafo → Prop} (hP : Conservada P) (x y : Int)
    (g : Grafo) (h : P g) (l : List Vertice) (pos : Nat) :
    P (RemoverVertice.laco g x y l pos).1 := by
  induction l generalizing pos with
  | nil => exact h
  | cons atual resto ih =>
    unfold RemoverVertice.laco
    by_cases hc : atual.x = x ∧ atual.y = y
    · simp only [hc, and_self, if_true]
      exact hP.desligar _ pos (limpar_conserva hP x y g h)
    · simp only [hc, if_false]
      exact ih (pos + 1)

theorem tentar_conserva {P : Grafo → Prop} (hP : Conservada P) (malloc : Nat → Option Bloco)
    (x y : Int) (st : Estado) (h : P st.g) : P (deduzirNefasto.tentar malloc x y st).g := by
  unfold deduzirNefasto.tentar
  by_cases hc : x ≥ 0 ∧ y ≥ 0
  · simp only [hc, and_self, if_true]
    exact hP.adicionarVertice _ _ _ _ _ h
  · simp only [hc, if_false]
    exact h

theorem par_conserva {P : Grafo → Prop} (hP : Conservada P) (malloc : Nat → Option Bloco)
    (v1 v2 : Vertice) (st : Estado) (h : P st.g) : P (deduzirNefasto.par malloc v1 v2 st).g := by
  unfold deduzirNefasto.par
  by_cases hc : v1.freq = v2.freq ∧ v1.freq ≠ '#'
  · rw [if_pos hc]
    exact tentar_conserva hP _ _ _ _ (tentar_conserva hP _ _ _ _ h)
  · rw [if_neg hc]
    exact h

theorem interno_conserva {P : Grafo → Prop} (hP : Conservada P) (malloc : Nat → Option Bloco)
    (v1 : Vertice) (d : Nat) (l : List Vertice) (st : Estado) (h : P st.g) :
    P (deduzirNefasto.interno malloc v1 d l st).g := by
  induction l generalizing st with
  | nil => exact h
  | cons v2 resto ih =>
    unfold deduzirNefasto.interno
    by_cases hc : resto.length = d
    · simp only [hc, if_true]
      exact ih st h
    · simp only [hc, if_false]
      exact ih _ (par_conserva hP malloc v1 v2 st h)

theorem externo_conserva {P : Grafo → Prop} (hP : Conservada P) (malloc : Nat → Option Bloco)
    (l : List Vertice) (st : Estado) (h : P st.g) :
    P (deduzirNefasto.externo malloc l st).g := by
  induction l generalizing st with
  | nil => exact h
  | cons v1 resto ih =>
    unfold deduzirNefasto.externo
    exact ih _ (interno_conserva hP malloc v1 _ _ st h)

theorem ligar_par_conserva {P : Grafo → Prop} (hP : Conservada P) (malloc : Nat → Bool)
    (v1 v2 : Nat) (st : Estado) (h : P st.g) :
    P (ligarVerticesComMesmaFrequencia.par malloc v1 v2 st).g := by
  unfold ligarVerticesComMesmaFrequencia.par
  cases h1 : st.g.vertices[v1]? with
  | none => simpa using h
  | some n1 =>
    cases h2 : st.g.vertices[v2]? with
    | none => simpa using h
    | some n2 =>
      by_cases hc : n1.freq = n2.freq ∧ n1.freq ≠ '#' ∧ n1.freq ≠ '.'
      · simp only [if_pos hc]
        exact hP.inserirAresta _ _ _ _ (hP.inserirAresta _ _ _ _ h)
      · simp only [if_neg hc]
        exact h

theorem ligar_conserva {P : Grafo → Prop} (hP : Conservada P) (malloc : Nat → Bool)
    (g : Grafo) (h : P g) : P (ligarVerticesComMesmaFrequencia g malloc).1 := by
  unfold ligarVerticesComMesmaFrequencia
  apply foldl_conserva_estado P _ _ _ _ h
  intro st v1 hst
  apply foldl_conserva_estado P _ _ _ _ hst
  intro st2 v2 hst2
  exact ligar_par_conserva hP malloc v1 v2 st2 hst2

theorem LerArestasBinario_laco_conserva {P : Grafo → Prop} (hP : Conservada P)
    (malloc : Nat → Bool) (k : Nat) :
    ∀ (ints : List Int), ints.length ≤ k → ∀ (n : Nat) (g : Grafo), P g →
      P (LerArestasBinario.laco malloc ints n g) := by
  induction k with
  | zero =>
    intro ints hl n g h
    have : ints = [] := List.length_eq_zero.mp (Nat.le_zero.mp hl)
    subst this
    simpa [LerArestasBinario.laco] using h
  | succ k ih =>
    intro ints hl n g h
    match ints with
    | [] => simpa [LerArestasBinario.laco] using h
    | [_] => simpa [LerArestasBinario.laco] using h
    | [_, _] => simpa [LerArestasBinario.laco] using h
    | [_, _, _] => simpa [LerArestasBinario.laco] using h
    | x1 :: y1 :: x2 :: y2 :: resto =>
      have hr : resto.length ≤ k := by
        simp only [List.length_cons] at hl
        omega
      unfold LerArestasBinario.laco
      split
      · split
        · exact ih resto hr (n + 1) _ (hP.adicionarAresta g _ _ _ _ (malloc n) h)
        · exact ih resto hr (n + 1) g h
      · exact ih resto hr (n + 1) g h

theorem executar_conserva {P : Grafo → Prop} (hP : Conservada P) (g : Grafo) (op : Op)
    (h : P g) : P (executar g op) := by
  cases op with
  | adicionarVertice x y freq novo => exact hP.adicionarVertice g x y freq novo h
  | removerVertice x y => exact RemoverVertice_laco_conserva hP x y g h g.vertices 0
  | adicionarAresta a b c d n => exact hP.adicionarAresta g a b c d n h
  | removerAresta a b c d => exact hP.removerAresta g a b c d h
  | deduzirNefasto malloc => exact externo_conserva hP malloc g.vertices _ h
  | ligarVerticesComMesmaFrequencia malloc => exact ligar_conserva hP malloc g h
  | lerArestasBinario ficheiro malloc =>
    cases ficheiro with
    | none => exact h
    | some ints => exact LerArestasBinario_laco_conserva hP malloc ints.length ints (Nat.le_refl _) 0 g h

theorem alcancavel_conserva {P : Grafo → Prop} (hP : Conservada P)
    (h0 : ∀ t, P { vertices := [], num_vertices := 0, topo := t }) (g : Grafo)
    (h : Alcancavel g) : P g := by
  induction h with
  | criar bloco g hg =>
    cases bloco with
    | none => simp [CriarGrafo] at hg
    | some t =>
      simp only [CriarGrafo, Option.some.injEq] at hg
      subst hg
      exact h0 t
  | passo g op _ _ ih => exact executar_conserva hP g op ih

theorem coordenadas_porArestas (g : Grafo) (p : Nat) (l : List Nat) :
    coordenadas { g with vertices := porArestas g.vertices p l } = coordenadas g := by
  unfold coordenadas
  exact map_porArestas coord (fun _ _ => rfl) g.vertices p l

theorem coordenadas_RemoverAresta (g : Grafo) (a b c d : Int) :
    coordenadas (RemoverAresta g a b c d).1 = coordenadas g := by
  unfold RemoverAresta
  split
  · simp only [coordenadas]
    rw [map_porArestas coord (fun _ _ => rfl), map_porArestas coord (fun _ _ => rfl)]
  · rfl

theorem coordenadas_AdicionarAresta (g : Grafo) (a b c d : Int) (n : Bool) :
    coordenadas (AdicionarAresta g a b c d n).1 = coordenadas g := by
  unfold AdicionarAresta
  split
  · split
    · rfl
    · split
      · exact coordenadas_porArestas g _ _
      · rfl
  · rfl

theorem coordenadas_inserirAresta (g : Grafo) (o d : Option Nat) (n : Bool) :
    coordenadas (inserirAresta g o d n).1 = coordenadas g := by
  unfold inserirAresta
  split
  · split
    · rfl
    · split
      · exact coordenadas_porArestas g _ _
      · rfl
  · rfl

theorem ProcurarVertice_eq_none (g : Grafo) (x y : Int) :
    ProcurarVertice g x y = none ↔ (x, y) ∉ coordenadas g :=
  laco_eq_none x y g.vertices

theorem AdicionarVertice_ocupado (g : Grafo) (x y : Int) (freq : Char) (novo : Option Bloco)
    (h : ProcurarVertice g x y ≠ none) : AdicionarVertice g x y freq novo = (g, false) := by
  unfold AdicionarVertice
  cases hp : ProcurarVertice g x y with
  | none => exact absurd hp h
  | some k => rfl

theorem AdicionarVertice_sem_memoria (g : Grafo) (x y : Int) (freq : Char) :
    AdicionarVertice g x y freq none = (g, false) := by
  unfold AdicionarVertice
  cases ProcurarVertice g x y <;> rfl

theorem AdicionarVertice_livre (g : Grafo) (x y : Int) (freq : Char) (b : Bloco)
    (h : ProcurarVertice g x y = none) :
    AdicionarVertice g x y freq (some b) =
      ({ vertices :=
          { addr := b.addr, id := g.num_vertices, x := x, y := y, freq := freq,
            visita := b.visita, arestas := [] } :: g.vertices,
         num_vertices := g.num_vertices + 1 + 1, topo := g.topo }, true) := by
  unfold AdicionarVertice
  rw [h]

theorem conservada_coordenadasUnicas : Conservada coordenadasUnicas where
  adicionarVertice := by
    intro g x y f n h
    cases hp : ProcurarVertice g x y with
    | some k => rw [AdicionarVertice_ocupado g x y f n (by simp [hp])]; exact h
    | none =>
      cases n with
      | none => rw [AdicionarVertice_sem_memoria]; exact h
      | some b =>
        rw [AdicionarVertice_livre g x y f b hp]
        have hx := (ProcurarVertice_eq_none g x y).mp hp
        unfold coordenadasUnicas coordenadas at *
        simp only [List.map_cons, coord, List.nodup_cons]
        exact ⟨hx, h⟩
  removerAresta := by
    intro g a b c d h
    unfold coordenadasUnicas
    rw [coordenadas_RemoverAresta]
    exact h
  adicionarAresta := by
    intro g a b c d n h
    unfold coordenadasUnicas
    rw [coordenadas_AdicionarAresta]
    exact h
  inserirAresta := by
    intro g o d n h
    unfold coordenadasUnicas
    rw [coordenadas_inserirAresta]
    exact h
  desligar := by
    intro g k h
    unfold coordenadasUnicas coordenadas at *
    exact List.Nodup.sublist ((List.eraseIdx_sublist g.vertices k).map coord) h

theorem lerArestas_nodup (vs : List Vertice) (p : Nat) (h : ∀ v ∈ vs, v.arestas.Nodup) :
    (lerArestas vs p).Nodup := by
  rcases lerArestas_mem vs p with h1 | ⟨v, hv, h1⟩
  · rw [h1]; exact List.nodup_nil
  · rw [h1]; exact h v hv

theorem porArestas_nodup (vs : List Vertice) (p : Nat) (l : List Nat)
    (h : ∀ v ∈ vs, v.arestas.Nodup) (hl : l.Nodup) :
    ∀ v ∈ porArestas vs p l, v.arestas.Nodup := by
  intro v hv
  rcases mem_porArestas hv with h1 | ⟨w, _, h1⟩
  · exact h v h1
  · rw [h1]; exact hl

theorem inserir_nodup (vs : List Vertice) (o d : Nat) (h : ∀ v ∈ vs, v.arestas.Nodup)
    (ht : ¬ temAresta (endereco vs d) (lerArestas vs o) = true) :
    ∀ v ∈ porArestas vs o (endereco vs d :: lerArestas vs o), v.arestas.Nodup := by
  apply porArestas_nodup vs o _ h
  rw [temAresta_iff] at ht
  exact List.nodup_cons.mpr ⟨ht, lerArestas_nodup vs o h⟩

theorem conservada_arestasUnicas : Conservada arestasUnicas where
  adicionarVertice := by
    intro g x y f n h
    cases hp : ProcurarVertice g x y with
    | some k => rw [AdicionarVertice_ocupado g x y f n (by simp [hp])]; exact h
    | none =>
      cases n with
      | none => rw [AdicionarVertice_sem_memoria]; exact h
      | some b =>
        rw [AdicionarVertice_livre g x y f b hp]
        intro v hv
        simp only [List.mem_cons] at hv
        rcases hv with hv | hv
        · rw [hv]; exact List.nodup_nil
        · exact h v hv
  removerAresta := by
    intro g a b c d h
    unfold RemoverAresta
    split
    · rename_i origem destino _ _
      simp only [removerPrimeira_fst]
      have h1 := porArestas_nodup g.vertices origem
        ((lerArestas g.vertices origem).erase (endereco g.vertices destino)) h
        ((lerArestas_nodup g.vertices origem h).erase _)
      exact porArestas_nodup _ destino _ h1 ((lerArestas_nodup _ destino h1).erase _)
    · exact h
  adicionarAresta := by
    intro g a b c d n h
    unfold AdicionarAresta
    split
    · split
      · exact h
      · rename_i ht
        split
        · exact inserir_nodup g.vertices _ _ h ht
        · exact h
    · exact h
  inserirAresta := by
    intro g o d n h
    unfold inserirAresta
    split
    · split
      · exact h
      · rename_i ht
        split
        · exact inserir_nodup g.vertices _ _ h ht
        · exact h
    · exact h
  desligar := by
    intro g k h v hv
    exact h v (List.mem_of_mem_eraseIdx hv)

/-! ## The claims -/

theorem alcancavel_vazio : Alcancavel vazio :=
  Alcancavel.criar (some 0) vazio rfl

theorem doisA_eq : doisA =
    { vertices := [⟨2, 2, 2, 0, 'A', 0, []⟩, ⟨1, 0, 0, 0, 'A', 0, []⟩],
      num_vertices := 4, topo := 0 } := by
  decide

theorem alcancavel_doisA : Alcancavel doisA :=
  Alcancavel.passo _ _
    (Alcancavel.passo _ _ alcancavel_vazio (by show livre _ 1; decide))
    (by show livre _ 2; decide)

theorem valida_deduzir_doisA : (Op.deduzirNefasto blocos).valida doisA := by
  constructor
  · intro n b hb v hv
    simp only [blocos, Option.some.injEq] at hb
    subst hb
    rw [doisA_eq] at hv
    simp only [List.mem_cons, List.mem_singleton, List.not_mem_nil, or_false] at hv
    rcases hv with hv | hv <;> subst hv <;> simp <;> omega
  · intro m n b c hb hc hbc
    simp only [blocos, Option.some.injEq] at hb hc
    subst hb hc
    simp at hbc
    exact hbc

/-- C1: coordinate uniqueness is an invariant. In every graph reachable from
`CriarGrafo()` by a finite sequence of calls of `AdicionarVertice`,
`RemoverVertice`, `AdicionarAresta`, `RemoverAresta`, `deduzirNefasto` and
`ligarVerticesComMesmaFrequencia` (and of `LerArestasBinario`), with arbitrary
arguments, no two nodes of the vertex list have the same `(x, y)`. -/
theorem C1_coordenadas_unicas (g : Grafo) (h : Alcancavel g) :
    (g.vertices.map (fun v => (v.x, v.y))).Nodup :=
  alcancavel_conserva conservada_coordenadasUnicas (fun _ => List.nodup_nil) g h

theorem C1_coordenadas_unicas_witness :
    Alcancavel (executar doisA (.deduzirNefasto blocos)) ∧
      ((executar doisA (.deduzirNefasto blocos)).vertices.map (fun v => (v.x, v.y))).Nodup :=
  ⟨Alcancavel.passo _ _ alcancavel_doisA valida_deduzir_doisA,
   C1_coordenadas_unicas _ (Alcancavel.passo _ _ alcancavel_doisA valida_deduzir_doisA)⟩

theorem ProcurarVertice_ne_none_of_mem (g : Grafo) (x y : Int)
    (h : ∃ v ∈ g.vertices, v.x = x ∧ v.y = y) : ProcurarVertice g x y ≠ none := by
  intro hn
  rw [ProcurarVertice_eq_none] at hn
  obtain ⟨v, hv, hx, hy⟩ := h
  apply hn
  unfold coordenadas
  rw [List.mem_map]
  exact ⟨v, hv, by simp [coord, hx, hy]⟩

theorem ProcurarVertice_eq_none_of_forall (g : Grafo) (x y : Int)
    (h : ∀ v ∈ g.vertices, ¬ (v.x = x ∧ v.y = y)) : ProcurarVertice g x y = none := by
  rw [ProcurarVertice_eq_none]
  unfold coordenadas
  rw [List.mem_map]
  rintro ⟨v, hv, hc⟩
  simp only [coord, Prod.mk.injEq] at hc
  exact h v hv hc

/-- C2: for every graph `g` and every `(x, y, freq)`, if `g` already has a
vertex at `(x, y)` then `AdicionarVertice(g, x, y, freq)` sets `sucesso` to
false and leaves the graph unchanged: the same vertex list (labels, ids and
adjacency lists included) and the same `num_vertices`, whatever `malloc` would
have returned. -/
theorem C2_vertice_ocupado (g : Grafo) (x y : Int) (freq : Char) (novo : Option Bloco)
    (h : ∃ v ∈ g.vertices, v.x = x ∧ v.y = y) :
    AdicionarVertice g x y freq novo = (g, false) :=
  AdicionarVertice_ocupado g x y freq novo (ProcurarVertice_ne_none_of_mem g x y h)

theorem C2_vertice_ocupado_witness :
    (∃ v ∈ doisA.vertices, v.x = 2 ∧ v.y = 0) ∧
      AdicionarVertice doisA 2 0 'B' (some ⟨3, 7⟩) = (doisA, false) :=
  ⟨⟨⟨2, 2, 2, 0, 'A', 0, []⟩, by decide, rfl, rfl⟩,
   C2_vertice_ocupado doisA 2 0 'B' (some ⟨3, 7⟩)
     ⟨⟨2, 2, 2, 0, 'A', 0, []⟩, by decide, rfl, rfl⟩⟩

/-- C3: for every graph `g` with no vertex at `(x, y)`, when `malloc` succeeds,
`AdicionarVertice(g, x, y, freq)` sets `sucesso` to true and the vertex list
becomes a new node with coordinates `(x, y)`, label `freq` and an empty
adjacency list (in the block that `malloc` returned), followed by the old
vertex list, unchanged and in the same order; `ProcurarVertice(g, x, y)` then
returns the head of the list, which is that new node. -/
theorem C3_vertice_novo (g : Grafo) (x y : Int) (freq : Char) (b : Bloco)
    (h : ∀ v ∈ g.vertices, ¬ (v.x = x ∧ v.y = y)) :
    (AdicionarVertice g x y freq (some b)).2 = true ∧
    ∃ novo : Vertice,
      (AdicionarVertice g x y freq (some b)).1.vertices = novo :: g.vertices ∧
      novo.x = x ∧ novo.y = y ∧ novo.freq = freq ∧ novo.arestas = [] ∧
      novo.addr = b.addr ∧
      ProcurarVertice (AdicionarVertice g x y freq (some b)).1 x y = some 0 := by
  rw [AdicionarVertice_livre g x y freq b (ProcurarVertice_eq_none_of_forall g x y h)]
  refine ⟨rfl, _, rfl, rfl, rfl, rfl, rfl, rfl, ?_⟩
  simp [ProcurarVertice, ProcurarVertice.laco]

theorem C3_vertice_novo_witness :
    (∀ v ∈ doisA.vertices, ¬ (v.x = 4 ∧ v.y = 0)) ∧
    (AdicionarVertice doisA 4 0 'B' (some ⟨3, 7⟩)).2 = true ∧
    ∃ novo : Vertice,
      (AdicionarVertice doisA 4 0 'B' (some ⟨3, 7⟩)).1.vertices = novo :: doisA.vertices ∧
      novo.x = 4 ∧ novo.y = 0 ∧ novo.freq = 'B' ∧ novo.arestas = [] ∧
      novo.addr = 3 ∧
      ProcurarVertice (AdicionarVertice doisA 4 0 'B' (some ⟨3, 7⟩)).1 4 0 = some 0 :=
  ⟨by decide, C3_vertice_novo doisA 4 0 'B' ⟨3, 7⟩ (by decide)⟩

theorem alcancavel_tresA : Alcancavel tresA :=
  Alcancavel.passo _ _
    (Alcancavel.passo _ _
      (Alcancavel.passo _ _ alcancavel_vazio (by show livre _ 1; decide))
      (by show livre _ 2; decide))
    (by show livre _ 3; decide)

/-- C4 (the code at a failing input): after three insertions, two removals and
one more insertion, a reachable graph holds two live vertices with the same
`id` 4, the second of which was given the `id` of a vertex created before it;
`encontrarVerticePorID(g, 4)` returns the head of the list, so that the other
vertex with `id` 4 cannot be found by its identifier. -/
theorem C4_id_repetido :
    Alcancavel repetido ∧
    repetido.vertices.map (fun v => (v.x, v.y, v.id)) = [(3, 0, 4), (2, 0, 4)] ∧
    encontrarVerticePorID repetido 4 = some 0 :=
  ⟨Alcancavel.passo _ _
      (Alcancavel.passo _ _ (Alcancavel.passo _ _ alcancavel_tresA trivial) trivial)
      (by show livre _ 1; decide),
   by decide, by decide⟩

/-- C5 (the code at a failing input): after one successful `AdicionarVertice` on
a new graph the vertex list has one node and `num_vertices` is 2; and after
`RemoverVertice` of that node the list is empty and `num_vertices` is 1. -/
theorem C5_num_vertices_dois :
    Alcancavel umA ∧ vazio.num_vertices = 0 ∧
    umA.vertices.length = 1 ∧ umA.num_vertices = 2 ∧
    (RemoverVertice umA 0 0).2 = true ∧
    (RemoverVertice umA 0 0).1.vertices.length = 0 ∧
    (RemoverVertice umA 0 0).1.num_vertices = 1 :=
  ⟨Alcancavel.passo _ _ alcancavel_vazio (by show livre _ 1; decide),
   by decide, by decide, by decide, by decide, by decide, by decide⟩

/-- C7: edge uniqueness is an invariant. In every graph reachable from
`CriarGrafo()` by a finite sequence of calls of `AdicionarVertice`,
`RemoverVertice`, `AdicionarAresta`, `RemoverAresta`, `deduzirNefasto`,
`ligarVerticesComMesmaFrequencia` and `LerArestasBinario`, no adjacency list
holds two edges with the same destination. -/
theorem C7_arestas_unicas (g : Grafo) (h : Alcancavel g) :
    ∀ v ∈ g.vertices, v.arestas.Nodup :=
  alcancavel_conserva conservada_arestasUnicas
    (fun _ _ hv => absurd hv (List.not_mem_nil _)) g h

theorem C7_arestas_unicas_witness :
    Alcancavel tresALigados ∧ numArestas tresALigados = 6 ∧
      ∀ v ∈ tresALigados.vertices, v.arestas.Nodup :=
  ⟨Alcancavel.passo _ _ (Alcancavel.passo _ _ alcancavel_tresA trivial) trivial,
   by decide,
   C7_arestas_unicas tresALigados
     (Alcancavel.passo _ _ (Alcancavel.passo _ _ alcancavel_tresA trivial) trivial)⟩

theorem endereco_of_getElem {vs : List Vertice} {k : Nat} {v : Vertice} (h : vs[k]? = some v) :
    endereco vs k = v.addr := by
  simp [endereco, h]

theorem lerArestas_of_getElem {vs : List Vertice} {k : Nat} {v : Vertice} (h : vs[k]? = some v) :
    lerArestas vs k = v.arestas := by
  simp [lerArestas, h]

theorem endereco_porArestas (vs : List Vertice) (p : Nat) (l : List Nat) (k : Nat) :
    endereco (porArestas vs p l) k = endereco vs k := by
  unfold endereco
  rw [getElem?_porArestas]
  by_cases hk : k = p
  · subst hk
    cases h : vs[k]? <;> simp
  · simp [hk]

theorem lerArestas_porArestas (vs : List Vertice) (p : Nat) (l : List Nat) (k : Nat) :
    lerArestas (porArestas vs p l) k =
      if k = p ∧ p < vs.length then l else lerArestas vs k := by
  unfold lerArestas
  rw [getElem?_porArestas]
  by_cases hk : k = p
  · subst hk
    cases h : vs[k]? with
    | none =>
      have : ¬ k < vs.length := by
        intro hlt
        rw [List.getElem?_eq_getElem hlt] at h
        exact Option.noConfusion h
      simp [this]
    | some v =>
      have : k < vs.length := (List.getElem?_eq_some_iff.mp h).1
      simp [this]
  · simp [hk]

theorem ProcurarVertice_porArestas (g : Grafo) (p : Nat) (l : List Nat) (x y : Int) :
    ProcurarVertice { g with vertices := porArestas g.vertices p l } x y =
      ProcurarVertice g x y := by
  unfold ProcurarVertice
  exact laco_map_coord x y _ _ (map_porArestas coord (fun _ _ => rfl) g.vertices p l)

theorem ProcurarVertice_eq_some {g : Grafo} {x y : Int} {k : Nat}
    (h : ProcurarVertice g x y = some k) :
    ∃ v, g.vertices[k]? = some v ∧ v ∈ g.vertices ∧ v.x = x ∧ v.y = y := by
  obtain ⟨⟨v, hv, hc⟩, -⟩ := (laco_eq_some x y g.vertices k).mp h
  simp only [coord, Prod.mk.injEq] at hc
  exact ⟨v, hv, List.mem_iff_getElem?.mpr ⟨k, hv⟩, hc.1, hc.2⟩

theorem ProcurarVertice_unico {g : Grafo} (hu : coordenadasUnicas g) {v : Vertice}
    (hv : v ∈ g.vertices) :
    ∃ k, ProcurarVertice g v.x v.y = some k ∧ g.vertices[k]? = some v := by
  cases hp : ProcurarVertice g v.x v.y with
  | none => exact absurd hp (ProcurarVertice_ne_none_of_mem g v.x v.y ⟨v, hv, rfl, rfl⟩)
  | some k =>
    obtain ⟨w, hw, hwm, hx, hy⟩ := ProcurarVertice_eq_some hp
    have : w = v := by
      apply List.inj_on_of_nodup_map hu hwm hv
      simp [coord, hx, hy]
    subst this
    exact ⟨k, rfl, hw⟩

theorem soma_set (f : Vertice → Nat) (vs : List Vertice) (p : Nat) (v w : Vertice)
    (h : vs[p]? = some w) : ((vs.set p v).map f).sum + f w = (vs.map f).sum + f v := by
  induction vs generalizing p with
  | nil => simp at h
  | cons a t ih =>
    cases p with
    | zero =>
      simp only [List.getElem?_cons_zero, Option.some.injEq] at h
      subst h
      simp only [List.set_cons_zero, List.map_cons, List.sum_cons]
      omega
    | succ p =>
      simp only [List.getElem?_cons_succ] at h
      have := ih p h
      simp only [List.set_cons_succ, List.map_cons, List.sum_cons]
      omega

theorem numArestas_porArestas (g : Grafo) (p : Nat) (l : List Nat) (h : p < g.vertices.length) :
    numArestas { g with vertices := porArestas g.vertices p l } + (lerArestas g.vertices p).length =
      numArestas g + l.length := by
  unfold numArestas porArestas lerArestas
  rw [List.getElem?_eq_getElem h]
  exact soma_set (fun v => v.arestas.length) g.vertices p _ _ (List.getElem?_eq_getElem h)

theorem AdicionarAresta_eq (g : Grafo) (a b c d : Int) (nova : Bool) (o e : Nat)
    (ho : ProcurarVertice g a b = some o) (he : ProcurarVertice g c d = some e) :
    AdicionarAresta g a b c d nova =
      if temAresta (endereco g.vertices e) (lerArestas g.vertices o) = true then (g, false)
      else if nova = true then
        ({ g with vertices :=
            porArestas g.vertices o (endereco g.vertices e :: lerArestas g.vertices o) }, true)
      else (g, false) := by
  unfold AdicionarAresta
  rw [ho, he]

theorem AdicionarAresta_falhou (g : Grafo) (a b c d : Int) (nova : Bool)
    (h : (AdicionarAresta g a b c d nova).2 = false) : (AdicionarAresta g a b c d nova).1 = g := by
  unfold AdicionarAresta at h ⊢
  split
  · split
    · rfl
    · split
      · rename_i ho he ht hn
        simp [ho, he, ht, hn] at h
      · rfl
  · rfl

theorem AdicionarAresta_sucesso (g : Grafo) (a b c d : Int) (nova : Bool)
    (h : (AdicionarAresta g a b c d nova).2 = true) :
    ∃ o e vo ve, ProcurarVertice g a b = some o ∧ ProcurarVertice g c d = some e ∧
      g.vertices[o]? = some vo ∧ g.vertices[e]? = some ve ∧ ve.addr ∉ vo.arestas ∧
      (AdicionarAresta g a b c d nova).1 =
        { g with vertices := porArestas g.vertices o (ve.addr :: vo.arestas) } := by
  cases ho : ProcurarVertice g a b with
  | none => simp [AdicionarAresta, ho] at h
  | some o =>
    cases he : ProcurarVertice g c d with
    | none => simp [AdicionarAresta, ho, he] at h
    | some e =>
      obtain ⟨vo, hvo, -, -, -⟩ := ProcurarVertice_eq_some ho
      obtain ⟨ve, hve, -, -, -⟩ := ProcurarVertice_eq_some he
      rw [AdicionarAresta_eq g a b c d nova o e ho he] at h ⊢
      rw [endereco_of_getElem hve, lerArestas_of_getElem hvo] at h ⊢
      by_cases ht : temAresta ve.addr vo.arestas = true
      · simp [ht] at h
      · rw [if_neg ht] at h ⊢
        cases nova with
        | false => simp at h
        | true =>
          refine ⟨o, e, vo, ve, rfl, rfl, hvo, hve, ?_, by simp⟩
          rwa [temAresta_iff] at ht

/-- C6: for every graph `g` with unique coordinates, all arguments, and `malloc`
succeeding: `AdicionarAresta(g, xs, ys, xd, yd)` sets `sucesso` to true if and
only if there is a vertex at `(xs, ys)`, there is a vertex at `(xd, yd)`, and
the adjacency list of the source holds no edge to the destination; whenever it
sets `sucesso` to false (whatever `malloc` does) the graph is unchanged; and a
second call with the same arguments after a successful first one fails, so that
the two calls together add exactly one edge. -/
theorem C6_adicionar_aresta (g : Grafo) (xs ys xd yd : Int) (hu : coordenadasUnicas g) :
    ((AdicionarAresta g xs ys xd yd true).2 = true ↔
      ∃ o ∈ g.vertices, ∃ d ∈ g.vertices,
        o.x = xs ∧ o.y = ys ∧ d.x = xd ∧ d.y = yd ∧ d.addr ∉ o.arestas) ∧
    (∀ nova, (AdicionarAresta g xs ys xd yd nova).2 = false →
      (AdicionarAresta g xs ys xd yd nova).1 = g) ∧
    ((AdicionarAresta g xs ys xd yd true).2 = true →
      (AdicionarAresta (AdicionarAresta g xs ys xd yd true).1 xs ys xd yd true).2 = false ∧
      numArestas (AdicionarAresta (AdicionarAresta g xs ys xd yd true).1 xs ys xd yd true).1 =
        numArestas g + 1) := by
  refine ⟨⟨?_, ?_⟩, fun nova => AdicionarAresta_falhou g xs ys xd yd nova, ?_⟩
  · intro h
    obtain ⟨o, e, vo, ve, ho, he, hvo, hve, hn, -⟩ := AdicionarAresta_sucesso g xs ys xd yd true h
    obtain ⟨vo2, hvo2, hmo, hxo, hyo⟩ := ProcurarVertice_eq_some ho
    obtain ⟨ve2, hve2, hme, hxe, hye⟩ := ProcurarVertice_eq_some he
    rw [hvo] at hvo2
    rw [hve] at hve2
    cases hvo2
    cases hve2
    exact ⟨vo, hmo, ve, hme, hxo, hyo, hxe, hye, hn⟩
  · rintro ⟨vo, hmo, ve, hme, rfl, rfl, rfl, rfl, hn⟩
    obtain ⟨o, ho, hvo⟩ := ProcurarVertice_unico hu hmo
    obtain ⟨e, he, hve⟩ := ProcurarVertice_unico hu hme
    rw [AdicionarAresta_eq g _ _ _ _ true o e ho he, endereco_of_getElem hve,
      lerArestas_of_getElem hvo]
    have ht : ¬ temAresta ve.addr vo.arestas = true := by rwa [temAresta_iff]
    simp [ht]
  · intro h
    obtain ⟨o, e, vo, ve, ho, he, hvo, hve, hn, hg⟩ := AdicionarAresta_sucesso g xs ys xd yd true h
    have hlt : o < g.vertices.length := (List.getElem?_eq_some_iff.mp hvo).1
    rw [hg]
    have ho1 := (ProcurarVertice_porArestas g o (ve.addr :: vo.arestas) xs ys).trans ho
    have he1 := (ProcurarVertice_porArestas g o (ve.addr :: vo.arestas) xd yd).trans he
    rw [AdicionarAresta_eq _ xs ys xd yd true o e ho1 he1]
    simp only [endereco_porArestas, lerArestas_porArestas, hlt, and_self, if_true,
      endereco_of_getElem hve]
    have ht : temAresta ve.addr (ve.addr :: vo.arestas) = true := by
      rw [temAresta_iff]; exact List.mem_cons_self _ _
    rw [if_pos ht]
    refine ⟨rfl, ?_⟩
    show numArestas { g with vertices := porArestas g.vertices o (ve.addr :: vo.arestas) } =
      numArestas g + 1
    have := numArestas_porArestas g o (ve.addr :: vo.arestas) hlt
    rw [lerArestas_of_getElem hvo] at this
    simp only [List.length_cons] at this
    omega

theorem C6_adicionar_aresta_witness :
    coordenadasUnicas tresA ∧
    ((AdicionarAresta tresA 0 0 2 0 true).2 = true ↔
      ∃ o ∈ tresA.vertices, ∃ d ∈ tresA.vertices,
        o.x = 0 ∧ o.y = 0 ∧ d.x = 2 ∧ d.y = 0 ∧ d.addr ∉ o.arestas) ∧
    (∀ nova, (AdicionarAresta tresA 0 0 2 0 nova).2 = false →
      (AdicionarAresta tresA 0 0 2 0 nova).1 = tresA) ∧
    ((AdicionarAresta tresA 0 0 2 0 true).2 = true →
      (AdicionarAresta (AdicionarAresta tresA 0 0 2 0 true).1 0 0 2 0 true).2 = false ∧
      numArestas (AdicionarAresta (AdicionarAresta tresA 0 0 2 0 true).1 0 0 2 0 true).1 =
        numArestas tresA + 1) :=
  ⟨by decide, C6_adicionar_aresta tresA 0 0 2 0 (by decide)⟩

theorem RemoverAresta_eq (g : Grafo) (a b c d : Int) (o e : Nat)
    (ho : ProcurarVertice g a b = some o) (he : ProcurarVertice g c d = some e) :
    RemoverAresta g a b c d =
      ({ g with vertices := semLigacao g.vertices o e },
        decide (endereco g.vertices e ∈ lerArestas g.vertices o) ||
          decide (endereco g.vertices o ∈ lerArestas (semIda g.vertices o e) e)) := by
  unfold RemoverAresta semLigacao semIda
  rw [ho, he]
  simp only [removerPrimeira_fst, endereco_porArestas]
  congr 1
  congr 1
  · rw [Bool.eq_iff_iff, removerPrimeira_snd]; simp
  · rw [Bool.eq_iff_iff, removerPrimeira_snd]; simp

theorem RemoverAresta_nao_resolve (g : Grafo) (a b c d : Int)
    (h : ProcurarVertice g a b = none ∨ ProcurarVertice g c d = none) :
    RemoverAresta g a b c d = (g, false) := by
  unfold RemoverAresta
  rcases h with h | h
  · rw [h]
  · rw [h]
    cases ProcurarVertice g a b <;> rfl

/-- C8: for every graph `g` and all arguments, if `(xOrig, yOrig)` or
`(xDest, yDest)` does not resolve to a vertex, `RemoverAresta` sets `sucesso`
to false and leaves the graph unchanged; if both resolve, to the nodes `vo` and
`vd`, it sets `sucesso` to true if and only if, before the call, at least one of
the two directed edges `vo -> vd`, `vd -> vo` existed. -/
theorem C8_remover_aresta (g : Grafo) (xOrig yOrig xDest yDest : Int) :
    (ProcurarVertice g xOrig yOrig = none ∨ ProcurarVertice g xDest yDest = none →
      RemoverAresta g xOrig yOrig xDest yDest = (g, false)) ∧
    (∀ o d vo vd, ProcurarVertice g xOrig yOrig = some o →
      ProcurarVertice g xDest yDest = some d →
      g.vertices[o]? = some vo → g.vertices[d]? = some vd →
      ((RemoverAresta g xOrig yOrig xDest yDest).2 = true ↔
        vd.addr ∈ vo.arestas ∨ vo.addr ∈ vd.arestas)) := by
  refine ⟨RemoverAresta_nao_resolve g xOrig yOrig xDest yDest, ?_⟩
  intro o d vo vd ho hd hvo hvd
  have hlt : o < g.vertices.length := (List.getElem?_eq_some_iff.mp hvo).1
  rw [RemoverAresta_eq g _ _ _ _ o d ho hd]
  simp only [semIda, Bool.or_eq_true, decide_eq_true_eq, lerArestas_porArestas,
    endereco_of_getElem hvo, endereco_of_getElem hvd, lerArestas_of_getElem hvo,
    lerArestas_of_getElem hvd, hlt, and_true]
  by_cases hdo : d = o
  · subst hdo
    rw [hvo] at hvd
    cases hvd
    simp only [if_true]
    constructor
    · rintro (h | h)
      · exact Or.inl h
      · exact Or.inl (List.mem_of_mem_erase h)
    · rintro (h | h) <;> exact Or.inl h
  · simp only [hdo, if_false]

theorem C8_remover_aresta_witness :
    (RemoverAresta umaIda 2 0 5 5 = (umaIda, false)) ∧
    ((RemoverAresta umaIda 2 0 0 0).2 = true ↔ (1 : Nat) ∈ ([] : List Nat) ∨ 3 ∈ [3]) ∧
    (RemoverAresta umaIda 2 0 0 0).2 = true :=
  ⟨(C8_remover_aresta umaIda 2 0 5 5).1 (Or.inr (by decide)),
   (C8_remover_aresta umaIda 2 0 0 0).2 0 2 ⟨3, 4, 2, 0, 'A', 0, []⟩ ⟨1, 0, 0, 0, 'A', 0, [3]⟩
     (by decide) (by decide) (by decide) (by decide),
   by decide⟩

theorem posicao_unica {g : Grafo} (hu : coordenadasUnicas g) {k : Nat} {v : Vertice}
    (h : g.vertices[k]? = some v) : ProcurarVertice g v.x v.y = some k := by
  obtain ⟨j, hp, hj⟩ := ProcurarVertice_unico hu (List.mem_iff_getElem?.mpr ⟨k, h⟩)
  rw [hp]
  congr 1
  have hn := List.nodup_iff_getElem?_ne_getElem?.mp hu
  have hk : (coordenadas g)[k]? = some (coord v) := by simp [coordenadas, h]
  have hj2 : (coordenadas g)[j]? = some (coord v) := by simp [coordenadas, hj]
  have hjl : j < (coordenadas g).length := (List.getElem?_eq_some_iff.mp hj2).1
  have hkl : k < (coordenadas g).length := (List.getElem?_eq_some_iff.mp hk).1
  rcases Nat.lt_trichotomy j k with hlt | heq | hgt
  · exact absurd (hj2.trans hk.symm) (hn j k hlt hkl)
  · exact heq
  · exact absurd (hk.trans hj2.symm) (hn k j hgt hjl)

theorem filter_todas (l : List Nat) (p : Nat → Bool) (h : ∀ a ∈ l, p a = true) :
    l.filter p = l :=
  List.filter_eq_self.mpr h

theorem semLigacao_eq (g : Grafo) (hu : coordenadasUnicas g) (ha : arestasUnicas g)
    (o d : Nat) (vo vd : Vertice) (hvo : g.vertices[o]? = some vo)
    (hvd : g.vertices[d]? = some vd) :
    semLigacao g.vertices o d =
      filtrarArestas
        (fun v a => decide (¬ ((v.x = vo.x ∧ v.y = vo.y ∧ a = vd.addr) ∨
          (v.x = vd.x ∧ v.y = vd.y ∧ a = vo.addr))))
        g.vertices := by
  have hlt : o < g.vertices.length := (List.getElem?_eq_some_iff.mp hvo).1
  have hno := ha vo (List.mem_iff_getElem?.mpr ⟨o, hvo⟩)
  have hnd := ha vd (List.mem_iff_getElem?.mpr ⟨d, hvd⟩)
  apply List.ext_getElem?
  intro k
  unfold semLigacao semIda filtrarArestas
  simp only [getElem?_porArestas, lerArestas_porArestas, endereco_of_getElem hvo,
    endereco_of_getElem hvd, lerArestas_of_getElem hvo, lerArestas_of_getElem hvd, hlt,
    and_true, List.getElem?_map]
  cases hk : g.vertices[k]? with
  | none =>
    have hko : k ≠ o := by rintro rfl; rw [hvo] at hk; exact Option.noConfusion hk
    have hkd : k ≠ d := by rintro rfl; rw [hvd] at hk; exact Option.noConfusion hk
    simp [hko, hkd, hk]
  | some v =>
    have hpk := posicao_unica hu hk
    have hpo := posicao_unica hu hvo
    have hpd := posicao_unica hu hvd
    have hco : (v.x = vo.x ∧ v.y = vo.y) ↔ k = o := by
      constructor
      · rintro ⟨h1, h2⟩
        rw [h1, h2, hpo] at hpk
        exact (Option.some.inj hpk).symm
      · rintro rfl
        rw [hvo] at hk
        cases hk
        exact ⟨rfl, rfl⟩
    have hcd : (v.x = vd.x ∧ v.y = vd.y) ↔ k = d := by
      constructor
      · rintro ⟨h1, h2⟩
        rw [h1, h2, hpd] at hpk
        exact (Option.some.inj hpk).symm
      · rintro rfl
        rw [hvd] at hk
        cases hk
        exact ⟨rfl, rfl⟩
    have hfil : ∀ a : Nat,
        decide (¬ ((v.x = vo.x ∧ v.y = vo.y ∧ a = vd.addr) ∨
          (v.x = vd.x ∧ v.y = vd.y ∧ a = vo.addr))) =
        decide (¬ ((k = o ∧ a = vd.addr) ∨ (k = d ∧ a = vo.addr))) := by
      intro a
      congr 1
      rw [← and_assoc, ← and_assoc, hco, hcd]
    simp only [Option.map_some', hfil]
    by_cases hkd : k = d
    · subst hkd
      rw [hvd] at hk
      cases hk
      by_cases hko : k = o
      · subst hko
        rw [hvo] at hvd
        cases hvd
        simp only [if_true, hvo, Option.map_some', true_and, or_self]
        congr 2
        rw [List.erase_of_not_mem hno.not_mem_erase, hno.erase_eq_filter]
        apply List.filter_congr
        intro a _
        rw [Bool.eq_iff_iff]
        simp
      · simp only [hko, if_false, if_true, hvd, Option.map_some', false_and, false_or, true_and]
        congr 2
        rw [hnd.erase_eq_filter]
        apply List.filter_congr
        intro a _
        rw [Bool.eq_iff_iff]
        simp
    · by_cases hko : k = o
      · subst hko
        rw [hvo] at hk
        cases hk
        simp only [hkd, if_false, if_true, hvo, Option.map_some', false_and, or_false, true_and]
        congr 2
        rw [hno.erase_eq_filter]
        apply List.filter_congr
        intro a _
        rw [Bool.eq_iff_iff]
        simp
      · simp only [hkd, hko, if_false, hk, false_and, or_self, not_false_eq_true, decide_True]
        congr 1
        cases v
        simp

theorem mem_filtrarArestas {fica : Vertice → Nat → Bool} {vs : List Vertice} {v : Vertice}
    (h : v ∈ filtrarArestas fica vs) :
    ∃ w ∈ vs, v.x = w.x ∧ v.y = w.y ∧ v.addr = w.addr ∧ v.arestas = w.arestas.filter (fica w) := by
  unfold filtrarArestas at h
  rw [List.mem_map] at h
  obtain ⟨w, hw, rfl⟩ := h
  exact ⟨w, hw, rfl, rfl, rfl, rfl⟩

/-- C9: for every graph `g` with unique coordinates and unique edges in which
both endpoints exist (`vo` at `(xOrig, yOrig)`, `vd` at `(xDest, yDest)`), after
`RemoverAresta(g, xOrig, yOrig, xDest, yDest)` the vertex list holds the same
nodes in the same order, every adjacency list holds, in their original order,
exactly the edges it held before other than `vo -> vd` and `vd -> vo`; hence
neither of these two edges exists any more; `num_vertices` and `topo` are
unchanged. -/
theorem C9_remover_aresta_efeito (g : Grafo) (xOrig yOrig xDest yDest : Int)
    (hu : coordenadasUnicas g) (ha : arestasUnicas g) (vo vd : Vertice)
    (hvo : vo ∈ g.vertices) (hvd : vd ∈ g.vertices)
    (ho : vo.x = xOrig ∧ vo.y = yOrig) (hd : vd.x = xDest ∧ vd.y = yDest) :
    (RemoverAresta g xOrig yOrig xDest yDest).1.vertices =
      filtrarArestas
        (fun v a => decide (¬ ((v.x = xOrig ∧ v.y = yOrig ∧ a = vd.addr) ∨
          (v.x = xDest ∧ v.y = yDest ∧ a = vo.addr))))
        g.vertices ∧
    (∀ v ∈ (RemoverAresta g xOrig yOrig xDest yDest).1.vertices,
      (v.x = xOrig ∧ v.y = yOrig → vd.addr ∉ v.arestas) ∧
      (v.x = xDest ∧ v.y = yDest → vo.addr ∉ v.arestas)) ∧
    (RemoverAresta g xOrig yOrig xDest yDest).1.num_vertices = g.num_vertices ∧
    (RemoverAresta g xOrig yOrig xDest yDest).1.topo = g.topo := by
  obtain ⟨rfl, rfl⟩ := ho
  obtain ⟨rfl, rfl⟩ := hd
  obtain ⟨o, hpo, hgo⟩ := ProcurarVertice_unico hu hvo
  obtain ⟨d, hpd, hgd⟩ := ProcurarVertice_unico hu hvd
  have hv : (RemoverAresta g vo.x vo.y vd.x vd.y).1.vertices =
      filtrarArestas
        (fun v a => decide (¬ ((v.x = vo.x ∧ v.y = vo.y ∧ a = vd.addr) ∨
          (v.x = vd.x ∧ v.y = vd.y ∧ a = vo.addr))))
        g.vertices := by
    rw [RemoverAresta_eq g _ _ _ _ o d hpo hpd]
    exact semLigacao_eq g hu ha o d vo vd hgo hgd
  refine ⟨hv, ?_, ?_, ?_⟩
  · intro v hmem
    rw [hv] at hmem
    obtain ⟨w, -, hx, hy, -, hl⟩ := mem_filtrarArestas hmem
    constructor
    · intro hc hin
      rw [hl, List.mem_filter] at hin
      have := hin.2
      simp only [decide_eq_true_eq] at this
      exact this (Or.inl ⟨hx ▸ hc.1, hy ▸ hc.2, trivial⟩)
    · intro hc hin
      rw [hl, List.mem_filter] at hin
      have := hin.2
      simp only [decide_eq_true_eq] at this
      exact this (Or.inr ⟨hx ▸ hc.1, hy ▸ hc.2, trivial⟩)
  · rw [RemoverAresta_eq g _ _ _ _ o d hpo hpd]
  · rw [RemoverAresta_eq g _ _ _ _ o d hpo hpd]

theorem C9_remover_aresta_efeito_witness :
    coordenadasUnicas tresALigados ∧ arestasUnicas tresALigados ∧
    (RemoverAresta tresALigados 0 0 1 0).1.vertices =
      filtrarArestas
        (fun v a => decide (¬ ((v.x = 0 ∧ v.y = 0 ∧ a = 2) ∨ (v.x = 1 ∧ v.y = 0 ∧ a = 1))))
        tresALigados.vertices ∧
    (∀ v ∈ (RemoverAresta tresALigados 0 0 1 0).1.vertices,
      (v.x = 0 ∧ v.y = 0 → 2 ∉ v.arestas) ∧ (v.x = 1 ∧ v.y = 0 → 1 ∉ v.arestas)) ∧
    (RemoverAresta tresALigados 0 0 1 0).1.num_vertices = tresALigados.num_vertices ∧
    (RemoverAresta tresALigados 0 0 1 0).1.topo = tresALigados.topo :=
  ⟨by decide, by decide,
   C9_remover_aresta_efeito tresALigados 0 0 1 0 (by decide) (by decide)
     ⟨1, 0, 0, 0, 'A', 0, [2, 3]⟩ ⟨2, 2, 1, 0, 'A', 0, [1, 3]⟩ (by decide) (by decide)
     ⟨rfl, rfl⟩ ⟨rfl, rfl⟩⟩

theorem limpar_eq_foldl (x y : Int) (g : Grafo) :
    RemoverVertice.limpar x y g =
      (List.range g.vertices.length).foldl (RemoverVertice.passo x y) g := rfl

theorem getElem?_of_semArestas {cur vs : List Vertice}
    (h : cur.map semArestas = vs.map semArestas) (k : Nat) :
    cur[k]? = (vs[k]?).map (fun v => { v with arestas := lerArestas cur k }) := by
  have hk : (cur.map semArestas)[k]? = (vs.map semArestas)[k]? := by rw [h]
  rw [List.getElem?_map, List.getElem?_map] at hk
  unfold lerArestas
  cases hc : cur[k]? with
  | none =>
    rw [hc] at hk
    cases hv : vs[k]? with
    | none => rfl
    | some v => rw [hv] at hk; exact Option.noConfusion hk
  | some c =>
    rw [hc] at hk
    cases hv : vs[k]? with
    | none => rw [hv] at hk; exact Option.noConfusion hk
    | some v =>
      rw [hv] at hk
      simp only [Option.map_some', Option.some.injEq] at hk ⊢
      cases c
      cases v
      simp only [semArestas, Vertice.mk.injEq] at hk
      simp only [Vertice.mk.injEq]
      exact ⟨hk.1, hk.2.1, hk.2.2.1, hk.2.2.2.1, hk.2.2.2.2.1, hk.2.2.2.2.2.1, trivial⟩

theorem endereco_of_semArestas {cur vs : List Vertice}
    (h : cur.map semArestas = vs.map semArestas) (k : Nat) :
    endereco cur k = endereco vs k := by
  unfold endereco
  rw [getElem?_of_semArestas h k]
  cases vs[k]? <;> rfl

theorem coord_of_semArestas {cur vs : List Vertice}
    (h : cur.map semArestas = vs.map semArestas) : cur.map coord = vs.map coord := by
  have : ∀ l : List Vertice, l.map coord = (l.map semArestas).map coord := by
    intro l
    rw [List.map_map]
    rfl
  rw [this cur, this vs, h]

theorem length_of_semArestas {cur vs : List Vertice}
    (h : cur.map semArestas = vs.map semArestas) : cur.length = vs.length := by
  have := congrArg List.length h
  simpa using this

/-- State of the inner loop of `RemoverVertice` after the nodes at the
positions below `m` have been handled. -/
theorem limpar_parcial (g : Grafo) (x y : Int) (hu : coordenadasUnicas g) (i : Nat)
    (hi : ProcurarVertice g x y = some i) (m : Nat) (hm : m ≤ g.vertices.length) :
    let cur := (List.range m).foldl (RemoverVertice.passo x y) g
    cur.vertices.map semArestas = g.vertices.map semArestas ∧
    cur.num_vertices = g.num_vertices ∧ cur.topo = g.topo ∧
    ∀ k, k ≠ i → lerArestas cur.vertices k =
      if k < m then (lerArestas g.vertices k).erase (endereco g.vertices i)
      else lerArestas g.vertices k := by
  induction m with
  | zero =>
    simp
  | succ m ih =>
    have hmlt : m < g.vertices.length := hm
    obtain ⟨hA, hN, hT, hB⟩ := ih (Nat.le_of_lt hmlt)
    simp only [List.range_succ, List.foldl_append, List.foldl_cons, List.foldl_nil]
    generalize (List.range m).foldl (RemoverVertice.passo x y) g = cur at hA hN hT hB
    have hlen : cur.vertices.length = g.vertices.length := length_of_semArestas hA
    have hcoord : coordenadas cur = coordenadas g := coord_of_semArestas hA
    have hucur : coordenadasUnicas cur := by
      unfold coordenadasUnicas
      rw [hcoord]
      exact hu
    have hmc : m < cur.vertices.length := by rw [hlen]; exact hmlt
    have hn : cur.vertices[m]? = some (cur.vertices[m]) := List.getElem?_eq_getElem hmc
    have hpm := posicao_unica hucur hn
    have hpi : ProcurarVertice cur x y = some i := by
      rw [← hi]
      exact laco_map_coord x y _ _ hcoord
    have hstep : RemoverVertice.passo x y cur m =
        { cur with vertices := semLigacao cur.vertices m i } := by
      unfold RemoverVertice.passo
      rw [hn]
      simp only
      rw [RemoverAresta_eq cur _ _ _ _ m i hpm hpi]
    rw [hstep]
    refine ⟨?_, hN, hT, ?_⟩
    · simp only [semLigacao, semIda]
      rw [map_porArestas semArestas (fun _ _ => rfl), map_porArestas semArestas (fun _ _ => rfl)]
      exact hA
    · intro k hk
      simp only [semLigacao, semIda, lerArestas_porArestas, length_porArestas, hk, false_and,
        if_false, hmc, and_true]
      rw [endereco_of_semArestas hA i]
      by_cases hkm : k = m
      · subst hkm
        have := hB k hk
        simp only [Nat.lt_irrefl, if_false] at this
        simp [this]
      · have := hB k hk
        have hiff : k < m + 1 ↔ k < m := by omega
        simp only [hkm, if_false, this, hiff]


theorem RemoverVertice_laco_eq (g : Grafo) (x y : Int) (l : List Vertice) (pos : Nat) :
    RemoverVertice.laco g x y l pos =
      match ProcurarVertice.laco x y l with
      | none => (g, false)
      | some k =>
        ({ RemoverVertice.limpar x y g with
            vertices := (RemoverVertice.limpar x y g).vertices.eraseIdx (pos + k),
            num_vertices := (RemoverVertice.limpar x y g).num_vertices - 1 }, true) := by
  induction l generalizing pos with
  | nil => rfl
  | cons atual resto ih =>
    unfold RemoverVertice.laco ProcurarVertice.laco
    by_cases hc : atual.x = x ∧ atual.y = y
    · simp only [hc, and_self, if_true, Nat.add_zero]
    · simp only [hc, if_false]
      rw [ih (pos + 1)]
      cases ProcurarVertice.laco x y resto with
      | none => rfl
      | some k =>
        simp only [Option.map_some']
        have : pos + 1 + k = pos + (k + 1) := by omega
        rw [this]

theorem RemoverVertice_eq_some (g : Grafo) (x y : Int) (i : Nat)
    (hi : ProcurarVertice g x y = some i) :
    RemoverVertice g x y =
      ({ RemoverVertice.limpar x y g with
          vertices := (RemoverVertice.limpar x y g).vertices.eraseIdx i,
          num_vertices := (RemoverVertice.limpar x y g).num_vertices - 1 }, true) := by
  unfold RemoverVertice
  rw [RemoverVertice_laco_eq]
  unfold ProcurarVertice at hi
  rw [hi]
  simp

theorem RemoverVertice_eq_none (g : Grafo) (x y : Int) (hi : ProcurarVertice g x y = none) :
    RemoverVertice g x y = (g, false) := by
  unfold RemoverVertice
  rw [RemoverVertice_laco_eq]
  unfold ProcurarVertice at hi
  rw [hi]

theorem eraseIdx_filtrarArestas (fica : Vertice → Nat → Bool) (vs : List Vertice) (i : Nat) :
    (filtrarArestas fica vs).eraseIdx i = filtrarArestas fica (vs.eraseIdx i) := by
  induction vs generalizing i with
  | nil => rfl
  | cons v t ih =>
    cases i with
    | zero => rfl
    | succ i =>
      simp only [filtrarArestas, List.map_cons, List.eraseIdx_cons_succ] at ih ⊢
      rw [ih i]

theorem eraseIdx_eq_filter (x y : Int) (vs : List Vertice) (hu : (vs.map coord).Nodup) (i : Nat)
    (hi : ProcurarVertice.laco x y vs = some i) :
    vs.eraseIdx i = vs.filter (fun v => decide (¬ (v.x = x ∧ v.y = y))) := by
  induction vs generalizing i with
  | nil => simp [ProcurarVertice.laco] at hi
  | cons v t ih =>
    simp only [List.map_cons, List.nodup_cons] at hu
    unfold ProcurarVertice.laco at hi
    by_cases hc : v.x = x ∧ v.y = y
    · simp only [hc, and_self, if_true, Option.some.injEq] at hi
      subst hi
      simp only [List.eraseIdx_cons_zero]
      rw [List.filter_cons_of_neg (by simp [hc])]
      symm
      apply List.filter_eq_self.mpr
      intro w hw
      simp only [decide_eq_true_eq]
      intro hwc
      apply hu.1
      rw [List.mem_map]
      exact ⟨w, hw, by simp [coord, hwc.1, hwc.2, hc.1, hc.2]⟩
    · simp only [hc, if_false, Option.map_eq_some'] at hi
      obtain ⟨j, hj, rfl⟩ := hi
      simp only [List.eraseIdx_cons_succ]
      rw [List.filter_cons_of_pos (by simp [hc]), ih hu.2 j hj]

theorem limpar_final (g : Grafo) (x y : Int) (hu : coordenadasUnicas g) (ha : arestasUnicas g)
    (i : Nat) (t : Vertice) (hi : ProcurarVertice g x y = some i)
    (ht : g.vertices[i]? = some t) :
    (RemoverVertice.limpar x y g).vertices.eraseIdx i =
      filtrarArestas (fun _ a => decide (a ≠ t.addr))
        (g.vertices.filter (fun v => decide (¬ (v.x = x ∧ v.y = y)))) := by
  obtain ⟨hA, -, -, hB⟩ := limpar_parcial g x y hu i hi g.vertices.length (Nat.le_refl _)
  rw [← limpar_eq_foldl] at hA hB
  rw [← eraseIdx_eq_filter x y g.vertices hu i hi, ← eraseIdx_filtrarArestas]
  have key : ∀ k, k ≠ i → (RemoverVertice.limpar x y g).vertices[k]? =
      (filtrarArestas (fun _ a => decide (a ≠ t.addr)) g.vertices)[k]? := by
    intro k hk
    rw [getElem?_of_semArestas hA k, hB k hk, endereco_of_getElem ht]
    unfold filtrarArestas
    rw [List.getElem?_map]
    cases hv : g.vertices[k]? with
    | none => rfl
    | some v =>
      have hlt : k < g.vertices.length := (List.getElem?_eq_some_iff.mp hv).1
      have hnd := ha v (List.mem_iff_getElem?.mpr ⟨k, hv⟩)
      simp only [Option.map_some', hlt, if_true, lerArestas_of_getElem hv, Option.some.injEq]
      congr 1
      rw [hnd.erase_eq_filter]
      apply List.filter_congr
      intro a _
      rw [Bool.eq_iff_iff]
      simp
  apply List.ext_getElem?
  intro j
  rw [List.getElem?_eraseIdx, List.getElem?_eraseIdx]
  by_cases hj : j < i
  · simp only [hj, if_true]
    exact key j (Nat.ne_of_lt hj)
  · simp only [hj, if_false]
    exact key (j + 1) (by omega)

theorem limpar_campos (g : Grafo) (x y : Int) (hu : coordenadasUnicas g) (i : Nat)
    (hi : ProcurarVertice g x y = some i) :
    (RemoverVertice.limpar x y g).num_vertices = g.num_vertices ∧
    (RemoverVertice.limpar x y g).topo = g.topo := by
  obtain ⟨-, hN, hT, -⟩ := limpar_parcial g x y hu i hi g.vertices.length (Nat.le_refl _)
  exact ⟨hN, hT⟩

theorem numArestas_filtrar (x y : Int) (p : Nat) (vs : List Vertice) :
    ((filtrarArestas (fun _ a => decide (a ≠ p))
        (vs.filter (fun v => decide (¬ (v.x = x ∧ v.y = y))))).map
        (fun v => v.arestas.length)).sum +
      (vs.map (fun v =>
        (v.arestas.filter (fun a => decide ((v.x = x ∧ v.y = y) ∨ a = p))).length)).sum =
      (vs.map (fun v => v.arestas.length)).sum := by
  induction vs with
  | nil => rfl
  | cons v t ih =>
    by_cases hc : v.x = x ∧ v.y = y
    · rw [List.filter_cons_of_neg (by simp [hc])]
      simp only [List.map_cons, List.sum_cons, hc, and_self, true_or, decide_True,
        List.filter_true]
      omega
    · rw [List.filter_cons_of_pos (by simp [hc])]
      simp only [filtrarArestas, List.map_cons, List.sum_cons, hc, false_or] at ih ⊢
      have hl : (v.arestas.filter (fun a => decide (a ≠ p))).length +
          (v.arestas.filter (fun a => decide (a = p))).length = v.arestas.length := by
        induction v.arestas with
        | nil => rfl
        | cons a l ihl =>
          by_cases hap : a = p
          · rw [List.filter_cons_of_neg (by simp [hap]), List.filter_cons_of_pos (by simp [hap])]
            simp only [List.length_cons]
            omega
          · rw [List.filter_cons_of_pos (by simp [hap]), List.filter_cons_of_neg (by simp [hap])]
            simp only [List.length_cons]
            omega
      omega


/-- C10: removal cascade. If no vertex is at `(x, y)`, `RemoverVertice(g, x, y)`
sets `sucesso` to false and leaves the graph unchanged. For every graph `g` with
unique coordinates and unique edges and a vertex `t` at `(x, y)`, it sets
`sucesso` to true and afterwards (a) no vertex is found at `(x, y)`, (b) no
adjacency list holds an edge to `t`, (c) the total number of edges is lower by
exactly the number of edges that touched `t` (as source or as destination),
and (d) the vertex list holds the other vertices, in their order, each with the
edges it had that do not go to `t`, in their order. -/
theorem C10_remover_vertice (g : Grafo) (x y : Int) :
    ((∀ v ∈ g.vertices, ¬ (v.x = x ∧ v.y = y)) → RemoverVertice g x y = (g, false)) ∧
    (coordenadasUnicas g → arestasUnicas g → ∀ t ∈ g.vertices, t.x = x → t.y = y →
      (RemoverVertice g x y).2 = true ∧
      ProcurarVertice (RemoverVertice g x y).1 x y = none ∧
      (∀ v ∈ (RemoverVertice g x y).1.vertices, t.addr ∉ v.arestas) ∧
      numArestas (RemoverVertice g x y).1 + arestasQueTocam g x y t.addr = numArestas g ∧
      (RemoverVertice g x y).1.vertices =
        filtrarArestas (fun _ a => decide (a ≠ t.addr))
          (g.vertices.filter (fun v => decide (¬ (v.x = x ∧ v.y = y))))) := by
  constructor
  · intro h
    exact RemoverVertice_eq_none g x y (ProcurarVertice_eq_none_of_forall g x y h)
  · rintro hu ha t ht rfl rfl
    obtain ⟨i, hi, hti⟩ := ProcurarVertice_unico hu ht
    have hv : (RemoverVertice g t.x t.y).1.vertices =
        filtrarArestas (fun _ a => decide (a ≠ t.addr))
          (g.vertices.filter (fun v => decide (¬ (v.x = t.x ∧ v.y = t.y)))) := by
      rw [RemoverVertice_eq_some g _ _ i hi]
      exact limpar_final g _ _ hu ha i t hi hti
    refine ⟨?_, ?_, ?_, ?_, hv⟩
    · rw [RemoverVertice_eq_some g _ _ i hi]
    · apply ProcurarVertice_eq_none_of_forall
      intro v hvm hc
      rw [hv] at hvm
      obtain ⟨w, hw, hx, hy, -, -⟩ := mem_filtrarArestas hvm
      have := (List.mem_filter.mp hw).2
      simp only [decide_eq_true_eq] at this
      exact this ⟨hx ▸ hc.1, hy ▸ hc.2⟩
    · intro v hvm hin
      rw [hv] at hvm
      obtain ⟨w, -, -, -, -, hl⟩ := mem_filtrarArestas hvm
      rw [hl, List.mem_filter] at hin
      simpa using hin.2
    · unfold numArestas arestasQueTocam
      rw [hv]
      exact numArestas_filtrar t.x t.y t.addr g.vertices

theorem C10_remover_vertice_witness :
    RemoverVertice tresALigados 5 5 = (tresALigados, false) ∧
    ((RemoverVertice tresALigados 1 0).2 = true ∧
      ProcurarVertice (RemoverVertice tresALigados 1 0).1 1 0 = none ∧
      (∀ v ∈ (RemoverVertice tresALigados 1 0).1.vertices, 2 ∉ v.arestas) ∧
      numArestas (RemoverVertice tresALigados 1 0).1 + arestasQueTocam tresALigados 1 0 2 =
        numArestas tresALigados ∧
      (RemoverVertice tresALigados 1 0).1.vertices =
        filtrarArestas (fun _ a => decide (a ≠ 2))
          (tresALigados.vertices.filter (fun v => decide (¬ (v.x = 1 ∧ v.y = 0))))) ∧
    arestasQueTocam tresALigados 1 0 2 = 4 ∧ numArestas tresALigados = 6 :=
  ⟨(C10_remover_vertice tresALigados 5 5).1 (by decide),
   (C10_remover_vertice tresALigados 1 0).2 (by decide) (by decide)
     ⟨2, 2, 1, 0, 'A', 0, [1, 3]⟩ (by decide) rfl rfl,
   by decide, by decide⟩

/-! ## Traversals: stamps -/

theorem length_porVisita (vs : List Vertice) (p : Nat) (n : Int) :
    (porVisita vs p n).length = vs.length := by
  unfold porVisita
  cases h : vs[p]? <;> simp

theorem getElem?_porVisita (vs : List Vertice) (p : Nat) (n : Int) (k : Nat) :
    (porVisita vs p n)[k]? =
      if k = p then (vs[p]?).map (fun v => { v with visita := n }) else vs[k]? := by
  unfold porVisita
  cases h : vs[p]? with
  | none => by_cases hk : k = p <;> simp [hk, h]
  | some v =>
    by_cases hk : k = p
    · subst hk
      have hlt : k < vs.length := (List.getElem?_eq_some_iff.mp h).1
      simp [List.getElem?_set_self hlt]
    · have hk2 : p ≠ k := fun e => hk e.symm
      simp [hk, List.getElem?_set_ne hk2]

theorem map_porVisita {β : Type} (f : Vertice → β) (hf : ∀ v n, f { v with visita := n } = f v)
    (vs : List Vertice) (p : Nat) (n : Int) :
    (porVisita vs p n).map f = vs.map f := by
  apply List.ext_getElem?
  intro k
  rw [List.getElem?_map, getElem?_porVisita, List.getElem?_map]
  by_cases hk : k = p
  · subst hk
    cases h : vs[k]? <;> simp [hf]
  · simp [hk]

theorem lerVisita_porVisita (vs : List Vertice) (p : Nat) (n : Int) (k : Nat) :
    lerVisita (porVisita vs p n) k =
      if k = p ∧ p < vs.length then n else lerVisita vs k := by
  unfold lerVisita
  rw [getElem?_porVisita]
  by_cases hk : k = p
  · subst hk
    cases h : vs[k]? with
    | none =>
      have : ¬ k < vs.length := by
        intro hlt
        rw [List.getElem?_eq_getElem hlt] at h
        exact Option.noConfusion h
      simp [this]
    | some v =>
      have : k < vs.length := (List.getElem?_eq_some_iff.mp h).1
      simp [this]
  · simp [hk]

theorem lerVisita_eq_zero_of_ge (vs : List Vertice) (p : Nat) (h : vs.length ≤ p) :
    lerVisita vs p = 0 := by
  unfold lerVisita
  rw [List.getElem?_eq_none h]

theorem getElem?_of_semVisita {cur vs : List Vertice}
    (h : cur.map semVisita = vs.map semVisita) (k : Nat) :
    cur[k]? = (vs[k]?).map (fun v => { v with visita := lerVisita cur k }) := by
  have hk : (cur.map semVisita)[k]? = (vs.map semVisita)[k]? := by rw [h]
  rw [List.getElem?_map, List.getElem?_map] at hk
  unfold lerVisita
  cases hc : cur[k]? with
  | none =>
    rw [hc] at hk
    cases hv : vs[k]? with
    | none => rfl
    | some v => rw [hv] at hk; exact Option.noConfusion hk
  | some c =>
    rw [hc] at hk
    cases hv : vs[k]? with
    | none => rw [hv] at hk; exact Option.noConfusion hk
    | some v =>
      rw [hv] at hk
      simp only [Option.map_some', Option.some.injEq] at hk ⊢
      cases c
      cases v
      simp only [semVisita, Vertice.mk.injEq] at hk
      simp only [Vertice.mk.injEq]
      exact ⟨hk.1, hk.2.1, hk.2.2.1, hk.2.2.2.1, hk.2.2.2.2.1, trivial, hk.2.2.2.2.2.2⟩

theorem lerArestas_of_semVisita {cur vs : List Vertice}
    (h : cur.map semVisita = vs.map semVisita) (k : Nat) :
    lerArestas cur k = lerArestas vs k := by
  unfold lerArestas
  rw [getElem?_of_semVisita h k]
  cases vs[k]? <;> rfl

theorem desref_laco_map_addr (a : Nat) (vs ws : List Vertice)
    (h : vs.map (fun v => v.addr) = ws.map (fun v => v.addr)) :
    desref.laco a vs = desref.laco a ws := by
  induction vs generalizing ws with
  | nil =>
    cases ws with
    | nil => rfl
    | cons w t => simp at h
  | cons v t ih =>
    cases ws with
    | nil => simp at h
    | cons w u =>
      simp only [List.map_cons, List.cons.injEq] at h
      simp only [desref.laco, h.1, ih u h.2]

theorem addr_of_semVisita {cur vs : List Vertice}
    (h : cur.map semVisita = vs.map semVisita) :
    cur.map (fun v => v.addr) = vs.map (fun v => v.addr) := by
  have : ∀ l : List Vertice, l.map (fun v => v.addr) =
      (l.map semVisita).map (fun v => v.addr) := by
    intro l
    rw [List.map_map]
    rfl
  rw [this cur, this vs, h]

theorem desref_of_semVisita {cur vs : List Vertice}
    (h : cur.map semVisita = vs.map semVisita) (a : Nat) :
    desref cur a = desref vs a :=
  desref_laco_map_addr a _ _ (addr_of_semVisita h)

theorem coord_of_semVisita {cur vs : List Vertice}
    (h : cur.map semVisita = vs.map semVisita) : cur.map coord = vs.map coord := by
  have : ∀ l : List Vertice, l.map coord = (l.map semVisita).map coord := by
    intro l
    rw [List.map_map]
    rfl
  rw [this cur, this vs, h]

theorem length_of_semVisita {cur vs : List Vertice}
    (h : cur.map semVisita = vs.map semVisita) : cur.length = vs.length := by
  have := congrArg List.length h
  simpa using this

theorem ligado_of_semVisita {cur vs : List Vertice}
    (h : cur.map semVisita = vs.map semVisita) (i j : Nat) :
    ligado cur i j ↔ ligado vs i j := by
  unfold ligado
  rw [lerArestas_of_semVisita h i]
  simp only [desref_of_semVisita h]

theorem semVisita_carimbar (g : Grafo) (p : Nat) :
    (carimbar g p).vertices.map semVisita = g.vertices.map semVisita :=
  map_porVisita semVisita (fun _ _ => rfl) g.vertices p g.topo

theorem semVisita_limparVisitados (g : Grafo) :
    (limparVisitados g).1.vertices.map semVisita = g.vertices.map semVisita := by
  simp only [limparVisitados, List.map_map]
  rfl

theorem lerVisita_limparVisitados (g : Grafo) (p : Nat) :
    lerVisita (limparVisitados g).1.vertices p = 0 := by
  simp only [limparVisitados, lerVisita, List.getElem?_map]
  cases g.vertices[p]? <;> rfl

theorem ProcurarVertice_limparVisitados (g : Grafo) (x y : Int) :
    ProcurarVertice (limparVisitados g).1 x y = ProcurarVertice g x y :=
  laco_map_coord x y _ _ (coord_of_semVisita (semVisita_limparVisitados g))

theorem desref_lt {vs : List Vertice} {a p : Nat} (h : desref vs a = some p) :
    p < vs.length := by
  unfold desref at h
  induction vs generalizing p with
  | nil => simp [desref.laco] at h
  | cons v t ih =>
    unfold desref.laco at h
    by_cases hc : v.addr = a
    · simp only [hc, if_true, Option.some.injEq] at h
      subst h
      simp
    · simp only [hc, if_false, Option.map_eq_some'] at h
      obtain ⟨j, hj, rfl⟩ := h
      have := ih hj
      simp only [List.length_cons]
      omega

theorem ProcurarVertice_lt {g : Grafo} {x y : Int} {k : Nat} (h : ProcurarVertice g x y = some k) :
    k < g.vertices.length := by
  obtain ⟨v, hv, -⟩ := ProcurarVertice_eq_some h
  exact (List.getElem?_eq_some_iff.mp hv).1

/-- What a sequence of stamps keeps and what it changes. -/
theorem Carimbado.forma {g1 g2 : Grafo} (h : Carimbado g1 g2) :
    g2.vertices.map semVisita = g1.vertices.map semVisita ∧
    g2.num_vertices = g1.num_vertices ∧ g1.topo ≤ g2.topo := by
  induction h with
  | nada => exact ⟨rfl, rfl, le_refl _⟩
  | mais g p _ _ _ ih =>
    refine ⟨(semVisita_carimbar g p).trans ih.1, ih.2.1, ?_⟩
    have := ih.2.2
    simp only [carimbar]
    omega

theorem Carimbado.trans {g1 g2 g3 : Grafo} (h12 : Carimbado g1 g2) (h23 : Carimbado g2 g3) :
    Carimbado g1 g3 := by
  induction h23 with
  | nada => exact h12
  | mais g p _ hp hv ih => exact Carimbado.mais g p ih hp hv

theorem Carimbado.um (g : Grafo) (p : Nat) (hp : p < g.vertices.length)
    (hv : lerVisita g.vertices p = 0) : Carimbado g (carimbar g p) :=
  Carimbado.mais g p Carimbado.nada hp hv

theorem lerVisita_carimbar (g : Grafo) (p k : Nat) (hp : p < g.vertices.length) :
    lerVisita (carimbar g p).vertices k = if k = p then g.topo else lerVisita g.vertices k := by
  simp only [carimbar, lerVisita_porVisita, hp, and_true]

/-- Stamps are never overwritten. -/
theorem Carimbado.fica {g1 g2 : Grafo} (h : Carimbado g1 g2) (p : Nat)
    (hp : visitado g1 p) : lerVisita g2.vertices p = lerVisita g1.vertices p := by
  induction h with
  | nada => rfl
  | mais g q _ hq hv ih =>
    rw [lerVisita_carimbar g q p hq]
    by_cases hpq : p = q
    · subst hpq
      rw [ih] at hv
      exact absurd hv hp
    · simp only [hpq, if_false]
      exact ih

theorem Carimbado.mono {g1 g2 : Grafo} (h : Carimbado g1 g2) (p : Nat)
    (hp : visitado g1 p) : visitado g2 p := by
  unfold visitado
  rw [h.fica p hp]
  exact hp

theorem visitado_carimbar (g : Grafo) (p : Nat) (hp : p < g.vertices.length)
    (ht : 0 < g.topo) : visitado (carimbar g p) p := by
  unfold visitado
  rw [lerVisita_carimbar g p p hp]
  simp only [if_true]
  omega

/-! ## Depth-first traversal -/

theorem dfsRecursivo_succ (fundo : Nat) (v : Nat) (g : Grafo) :
    dfsRecursivo (fundo + 1) (some v) g =
      if lerVisita g.vertices v ≠ 0 then some (g, false)
      else (dfsArestas fundo (lerArestas (carimbar g v).vertices v) (carimbar g v)).map
        (fun g3 => (g3, true)) := by
  rfl

theorem dfsArestas_nil (fundo : Nat) (g : Grafo) : dfsArestas fundo [] g = some g := rfl

theorem dfsArestas_cons (fundo : Nat) (a : Nat) (l : List Nat) (g : Grafo) :
    dfsArestas fundo (a :: l) g =
      ((dfsRecursivo fundo (desref g.vertices a) g).map Prod.fst).bind (dfsArestas fundo l) := by
  simp only [dfsArestas, List.foldlM_cons]
  rfl

theorem apontaLista_desref (g : Grafo) (a : Nat) : apontaLista g (desref g.vertices a) :=
  fun _ h => desref_lt h

theorem dfsArestas_carimbado (fundo : Nat)
    (ih : ∀ v g r, apontaLista g v → dfsRecursivo fundo v g = some r → Carimbado g r.1)
    (l : List Nat) (g g3 : Grafo) (h : dfsArestas fundo l g = some g3) : Carimbado g g3 := by
  induction l generalizing g with
  | nil =>
    simp only [dfsArestas_nil, Option.some.injEq] at h
    subst h
    exact Carimbado.nada
  | cons a t iht =>
    rw [dfsArestas_cons] at h
    simp only [Option.bind_eq_some, Option.map_eq_some'] at h
    obtain ⟨g2, ⟨r, hr, rfl⟩, h2⟩ := h
    exact (ih _ g r (apontaLista_desref g a) hr).trans (iht r.1 h2)

theorem dfsRecursivo_carimbado (fundo : Nat) :
    ∀ v g r, apontaLista g v → dfsRecursivo fundo v g = some r → Carimbado g r.1 := by
  induction fundo with
  | zero =>
    intro v g r _ h
    simp [dfsRecursivo] at h
  | succ fundo ih =>
    intro v g r hv h
    cases v with
    | none =>
      simp only [dfsRecursivo, Option.some.injEq] at h
      subst h
      exact Carimbado.nada
    | some v =>
      rw [dfsRecursivo_succ] at h
      by_cases hvis : lerVisita g.vertices v ≠ 0
      · rw [if_pos hvis, Option.some.injEq] at h
        subst h
        exact Carimbado.nada
      · rw [if_neg hvis, Option.map_eq_some'] at h
        obtain ⟨g3, h3, rfl⟩ := h
        have hlt := hv v rfl
        have h0 : lerVisita g.vertices v = 0 := by simpa using hvis
        exact (Carimbado.um g v hlt h0).trans (dfsArestas_carimbado fundo ih _ _ g3 h3)

theorem filter_length_set (P : Vertice → Bool) (vs : List Vertice) (p : Nat) (v w : Vertice)
    (h : vs[p]? = some w) (hw : P w = true) (hv : P v = false) :
    ((vs.set p v).filter P).length + 1 = (vs.filter P).length := by
  induction vs generalizing p with
  | nil => simp at h
  | cons a t ih =>
    cases p with
    | zero =>
      simp only [List.getElem?_cons_zero, Option.some.injEq] at h
      subst h
      simp [List.filter_cons, hw, hv]
    | succ p =>
      simp only [List.getElem?_cons_succ] at h
      have := ih p h
      simp only [List.set_cons_succ, List.filter_cons]
      by_cases ha : P a = true
      · simp only [ha, if_true, List.length_cons]
        omega
      · simp only [ha]
        exact this

theorem porVisitar_carimbar (g : Grafo) (p : Nat) (hp : p < g.vertices.length)
    (hv : lerVisita g.vertices p = 0) (ht : 0 < g.topo) :
    porVisitar (carimbar g p) + 1 = porVisitar g := by
  unfold porVisitar carimbar porVisita
  have hg : g.vertices[p]? = some (g.vertices[p]) := List.getElem?_eq_getElem hp
  rw [hg]
  apply filter_length_set _ _ _ _ _ hg
  · simp only [lerVisita, hg] at hv
    simp [hv]
  · simp only [decide_eq_false_iff_not]
    omega

theorem Carimbado.porVisitar {g1 g2 : Grafo} (h : Carimbado g1 g2) (ht : 0 < g1.topo) :
    Antenas.porVisitar g2 ≤ Antenas.porVisitar g1 := by
  induction h with
  | nada => exact le_refl _
  | mais g p hc hp hv ih =>
    have := porVisitar_carimbar g p hp hv (lt_of_lt_of_le ht hc.forma.2.2)
    omega

theorem Carimbado.length {g1 g2 : Grafo} (h : Carimbado g1 g2) :
    g2.vertices.length = g1.vertices.length :=
  length_of_semVisita h.forma.1

theorem dfsArestas_termina (fundo : Nat)
    (ih : ∀ v g, apontaLista g v → 0 < g.topo → porVisitar g < fundo →
      ∃ r, dfsRecursivo fundo v g = some r)
    (l : List Nat) (g : Grafo) (ht : 0 < g.topo) (hf : porVisitar g < fundo) :
    ∃ g3, dfsArestas fundo l g = some g3 := by
  induction l generalizing g with
  | nil => exact ⟨g, rfl⟩
  | cons a t iht =>
    obtain ⟨r, hr⟩ := ih (desref g.vertices a) g (apontaLista_desref g a) ht hf
    have hc := dfsRecursivo_carimbado fundo _ g r (apontaLista_desref g a) hr
    obtain ⟨g3, h3⟩ := iht r.1 (lt_of_lt_of_le ht hc.forma.2.2)
      (lt_of_le_of_lt (hc.porVisitar ht) hf)
    refine ⟨g3, ?_⟩
    rw [dfsArestas_cons, hr]
    exact h3

/-- The recursion of `dfsRecursivo` ends: a depth above the number of nodes
not yet stamped is enough. -/
theorem dfsRecursivo_termina (fundo : Nat) :
    ∀ v g, apontaLista g v → 0 < g.topo → porVisitar g < fundo →
      ∃ r, dfsRecursivo fundo v g = some r := by
  induction fundo with
  | zero =>
    intro v g _ _ hf
    exact absurd hf (Nat.not_lt_zero _)
  | succ fundo ih =>
    intro v g hv ht hf
    cases v with
    | none => exact ⟨(g, false), rfl⟩
    | some v =>
      rw [dfsRecursivo_succ]
      by_cases hvis : lerVisita g.vertices v ≠ 0
      · rw [if_pos hvis]
        exact ⟨_, rfl⟩
      · rw [if_neg hvis]
        have h0 : lerVisita g.vertices v = 0 := by simpa using hvis
        have hlt := hv v rfl
        have hpv := porVisitar_carimbar g v hlt h0 ht
        have ht1 : 0 < (carimbar g v).topo := by
          simp only [carimbar]
          omega
        obtain ⟨g3, h3⟩ := dfsArestas_termina fundo ih
          (lerArestas (carimbar g v).vertices v) (carimbar g v) ht1 (by omega)
        rw [h3]
        exact ⟨_, rfl⟩

theorem ligado_eq_of_semVisita {cur vs : List Vertice}
    (h : cur.map semVisita = vs.map semVisita) : ligado cur = ligado vs := by
  funext i j
  exact propext (ligado_of_semVisita h i j)

theorem alcanca_of_semVisita {cur vs : List Vertice}
    (h : cur.map semVisita = vs.map semVisita) (s p : Nat) :
    alcanca cur s p ↔ alcanca vs s p := by
  unfold alcanca
  rw [ligado_eq_of_semVisita h]

theorem visitado_carimbar_iff (g : Grafo) (v p : Nat) (hv : v < g.vertices.length)
    (ht : 0 < g.topo) : visitado (carimbar g v) p ↔ p = v ∨ visitado g p := by
  unfold visitado
  rw [lerVisita_carimbar g v p hv]
  by_cases hp : p = v
  · simp only [hp, if_true, true_or, iff_true]
    omega
  · simp only [hp, if_false, false_or]

theorem dfsRecursivo_none_arg (fundo : Nat) (g : Grafo) (r : Grafo × Bool)
    (h : dfsRecursivo fundo none g = some r) : r = (g, false) := by
  cases fundo with
  | zero => simp [dfsRecursivo] at h
  | succ n =>
    simp only [dfsRecursivo, Option.some.injEq] at h
    exact h.symm

theorem dfsArestas_correcto (fundo : Nat)
    (ih : ∀ v g r, v < g.vertices.length → 0 < g.topo →
      dfsRecursivo fundo (some v) g = some r →
      visitado r.1 v ∧
      (∀ p, visitado r.1 p → ¬ visitado g p → alcanca g.vertices v p) ∧
      (∀ p, visitado r.1 p → ¬ visitado g p → ∀ q, ligado g.vertices p q → visitado r.1 q))
    (l : List Nat) (g g3 : Grafo) (ht : 0 < g.topo) (h : dfsArestas fundo l g = some g3) :
    (∀ a ∈ l, ∀ q, desref g.vertices a = some q → visitado g3 q) ∧
    (∀ p, visitado g3 p → ¬ visitado g p →
      ∃ a ∈ l, ∃ w, desref g.vertices a = some w ∧ alcanca g.vertices w p) ∧
    (∀ p, visitado g3 p → ¬ visitado g p → ∀ q, ligado g.vertices p q → visitado g3 q) := by
  induction l generalizing g with
  | nil =>
    simp only [dfsArestas_nil, Option.some.injEq] at h
    subst h
    refine ⟨fun a ha => absurd ha (List.not_mem_nil a), fun p hp hn => absurd hp hn,
      fun p hp hn => absurd hp hn⟩
  | cons a t iht =>
    rw [dfsArestas_cons] at h
    simp only [Option.bind_eq_some, Option.map_eq_some'] at h
    obtain ⟨g2, ⟨r, hr, rfl⟩, h2⟩ := h
    have hc1 := dfsRecursivo_carimbado fundo _ g r (apontaLista_desref g a) hr
    have hc2 := dfsArestas_carimbado fundo (dfsRecursivo_carimbado fundo) t r.1 g3 h2
    have hf := hc1.forma.1
    obtain ⟨t1, t2, t3⟩ := iht r.1 (lt_of_lt_of_le ht hc1.forma.2.2) h2
    have first : (∀ q, desref g.vertices a = some q → visitado r.1 q) ∧
        (∀ p, visitado r.1 p → ¬ visitado g p →
          ∃ w, desref g.vertices a = some w ∧ alcanca g.vertices w p) ∧
        (∀ p, visitado r.1 p → ¬ visitado g p → ∀ q, ligado g.vertices p q →
          visitado r.1 q) := by
      cases hd : desref g.vertices a with
      | none =>
        rw [hd] at hr
        have := dfsRecursivo_none_arg fundo g r hr
        subst this
        exact ⟨fun q hq => Option.noConfusion hq, fun p hp hn => absurd hp hn,
          fun p hp hn => absurd hp hn⟩
      | some w =>
        rw [hd] at hr
        obtain ⟨i1, i2, i3⟩ := ih w g r (desref_lt hd) ht hr
        refine ⟨?_, ?_, i3⟩
        · intro q hq
          cases hq
          exact i1
        · intro p hp hn
          exact ⟨w, rfl, i2 p hp hn⟩
    obtain ⟨f1, f2, f3⟩ := first
    refine ⟨?_, ?_, ?_⟩
    · intro b hb q hq
      rcases List.mem_cons.mp hb with rfl | hbt
      · exact hc2.mono q (f1 q hq)
      · exact t1 b hbt q (by rw [desref_of_semVisita hf]; exact hq)
    · intro p hp hn
      by_cases hr1 : visitado r.1 p
      · obtain ⟨w, hw, hw2⟩ := f2 p hr1 hn
        exact ⟨a, List.mem_cons_self _ _, w, hw, hw2⟩
      · obtain ⟨b, hb, w, hw, hw2⟩ := t2 p hp hr1
        refine ⟨b, List.mem_cons_of_mem _ hb, w, ?_, ?_⟩
        · rw [← desref_of_semVisita hf]; exact hw
        · exact (alcanca_of_semVisita hf w p).mp hw2
    · intro p hp hn q hq
      by_cases hr1 : visitado r.1 p
      · exact hc2.mono q (f3 p hr1 hn q hq)
      · exact t3 p hp hr1 q ((ligado_of_semVisita hf p q).mpr hq)

/-- What one call of `dfsRecursivo` on an unstamped or stamped node does: the
node is stamped afterwards, every node stamped by the call is reachable from
it, and every successor of a node stamped by the call is stamped. -/
theorem dfsRecursivo_correcto (fundo : Nat) :
    ∀ v g r, v < g.vertices.length → 0 < g.topo →
      dfsRecursivo fundo (some v) g = some r →
      visitado r.1 v ∧
      (∀ p, visitado r.1 p → ¬ visitado g p → alcanca g.vertices v p) ∧
      (∀ p, visitado r.1 p → ¬ visitado g p → ∀ q, ligado g.vertices p q → visitado r.1 q) := by
  induction fundo with
  | zero =>
    intro v g r _ _ h
    simp [dfsRecursivo] at h
  | succ fundo ih =>
    intro v g r hv ht h
    rw [dfsRecursivo_succ] at h
    by_cases hvis : lerVisita g.vertices v ≠ 0
    · rw [if_pos hvis, Option.some.injEq] at h
      subst h
      exact ⟨hvis, fun p hp hn => absurd hp hn, fun p hp hn => absurd hp hn⟩
    · rw [if_neg hvis, Option.map_eq_some'] at h
      obtain ⟨g3, h3, rfl⟩ := h
      have ht1 : 0 < (carimbar g v).topo := by
        simp only [carimbar]
        omega
      have hf := semVisita_carimbar g v
      have hc := dfsArestas_carimbado fundo (dfsRecursivo_carimbado fundo) _ _ g3 h3
      obtain ⟨l1, l2, l3⟩ := dfsArestas_correcto fundo ih _ (carimbar g v) g3 ht1 h3
      have hiff := visitado_carimbar_iff g v
      refine ⟨hc.mono v ((hiff v hv ht).mpr (Or.inl rfl)), ?_, ?_⟩
      · intro p hp hn
        by_cases hpv : p = v
        · rw [hpv]
          exact Relation.ReflTransGen.refl
        · have hn1 : ¬ visitado (carimbar g v) p := by
            rw [hiff p hv ht]
            rintro (h1 | h1)
            · exact hpv h1
            · exact hn h1
          obtain ⟨a, ha, w, hw, hw2⟩ := l2 p hp hn1
          rw [lerArestas_of_semVisita hf] at ha
          rw [desref_of_semVisita hf] at hw
          rw [alcanca_of_semVisita hf] at hw2
          exact Relation.ReflTransGen.head ⟨a, ha, hw⟩ hw2
      · intro p hp hn q hq
        by_cases hpv : p = v
        · subst hpv
          obtain ⟨a, ha, hw⟩ := hq
          apply l1 a
          · rw [lerArestas_of_semVisita hf]; exact ha
          · rw [desref_of_semVisita hf]; exact hw
        · have hn1 : ¬ visitado (carimbar g v) p := by
            rw [hiff p hv ht]
            rintro (h1 | h1)
            · exact hpv h1
            · exact hn h1
          exact l3 p hp hn1 q ((ligado_of_semVisita hf p q).mpr hq)

theorem porVisitar_le_length (g : Grafo) : porVisitar g ≤ g.vertices.length :=
  List.length_filter_le _ _

/-- The result of `dfs` when the start resolves: the recursion ends, the graph
comes from the reset graph by a sequence of stamps, and the stamped nodes are
the nodes reachable from the start. -/
theorem dfs_resolve (g : Grafo) (x y : Int) (s : Nat) (hs : ProcurarVertice g x y = some s) :
    ∃ g2, dfs g x y = some (g2, true) ∧ Carimbado (carimbar (limparVisitados g).1 s) g2 ∧
      ∀ p, visitado g2 p ↔ alcanca g.vertices s p := by
  have hs0 : ProcurarVertice (limparVisitados g).1 x y = some s :=
    (ProcurarVertice_limparVisitados g x y).trans hs
  have hlt : s < (limparVisitados g).1.vertices.length := ProcurarVertice_lt hs0
  have ht : 0 < (limparVisitados g).1.topo := by simp [limparVisitados]
  obtain ⟨r, hr⟩ := dfsRecursivo_termina ((limparVisitados g).1.vertices.length + 1) (some s)
    (limparVisitados g).1 (fun p hp => by cases hp; exact hlt) ht
    (Nat.lt_succ_of_le (porVisitar_le_length _))
  have hf := semVisita_limparVisitados g
  obtain ⟨c1, c2, c3⟩ := dfsRecursivo_correcto _ s _ r hlt ht hr
  have hnone : ∀ p, ¬ visitado (limparVisitados g).1 p :=
    fun p hp => hp (lerVisita_limparVisitados g p)
  have hcar : Carimbado (carimbar (limparVisitados g).1 s) r.1 := by
    rw [dfsRecursivo_succ, if_neg (by simpa using lerVisita_limparVisitados g s),
      Option.map_eq_some'] at hr
    obtain ⟨g3, h3, rfl⟩ := hr
    exact dfsArestas_carimbado _ (dfsRecursivo_carimbado _) _ _ g3 h3
  refine ⟨r.1, ?_, hcar, ?_⟩
  · unfold dfs
    simp only [hs0, hr, Option.map_some']
    simp [limparVisitados]
  · intro p
    constructor
    · intro hp
      exact (alcanca_of_semVisita hf s p).mp (c2 p hp (hnone p))
    · intro hp
      induction hp with
      | refl => exact c1
      | tail _ hbc ihp =>
        exact c3 _ ihp (hnone _) _ ((ligado_of_semVisita hf _ _).mpr hbc)

/-! ## Breadth-first traversal -/

theorem bfs_aresta_eq (malloc : Nat → Bool) (st : EstadoBfs) (a : Nat) :
    (bfs.aresta malloc st a = st ∧ ∀ w, desref st.g.vertices a = some w → visitado st.g w) ∨
    ∃ w, desref st.g.vertices a = some w ∧ lerVisita st.g.vertices w = 0 ∧
      bfs.aresta malloc st a =
        { g := carimbar st.g w,
          fila := if malloc st.chamadas = true then st.fila ++ [w] else st.fila,
          chamadas := st.chamadas + 1 } := by
  unfold bfs.aresta
  cases hd : desref st.g.vertices a with
  | none => exact Or.inl ⟨rfl, fun w hw => Option.noConfusion hw⟩
  | some w =>
    by_cases hv : lerVisita st.g.vertices w = 0
    · right
      refine ⟨w, rfl, hv, ?_⟩
      simp only [hv, if_true, adicionarAFila]
      cases malloc st.chamadas <;> rfl
    · left
      simp only [hv, if_false]
      refine ⟨trivial, ?_⟩
      intro q hq
      cases hq
      exact hv

/-- One round of the inner loop of `bfs`: the graph comes from a stamp at most,
the clock stays positive, and the queue grows by one node at most per stamp. -/
theorem bfs_aresta_passo (malloc : Nat → Bool) (st : EstadoBfs) (a : Nat) (ht : 0 < st.g.topo) :
    Carimbado st.g (bfs.aresta malloc st a).g ∧ 0 < (bfs.aresta malloc st a).g.topo ∧
    (bfs.aresta malloc st a).fila.length + porVisitar (bfs.aresta malloc st a).g ≤
      st.fila.length + porVisitar st.g := by
  rcases bfs_aresta_eq malloc st a with ⟨h, -⟩ | ⟨w, hw, hv, h⟩
  · rw [h]
    exact ⟨Carimbado.nada, ht, le_refl _⟩
  · rw [h]
    have hlt := desref_lt hw
    have hp := porVisitar_carimbar st.g w hlt hv ht
    refine ⟨Carimbado.um st.g w hlt hv, ?_, ?_⟩
    · simp only [carimbar]
      omega
    · simp only
      split
      · simp only [List.length_append, List.length_singleton]
        omega
      · omega

theorem bfs_vizinhos_passo (malloc : Nat → Bool) (l : List Nat) (st : EstadoBfs)
    (ht : 0 < st.g.topo) :
    Carimbado st.g (l.foldl (bfs.aresta malloc) st).g ∧
    0 < (l.foldl (bfs.aresta malloc) st).g.topo ∧
    (l.foldl (bfs.aresta malloc) st).fila.length + porVisitar (l.foldl (bfs.aresta malloc) st).g ≤
      st.fila.length + porVisitar st.g := by
  induction l generalizing st with
  | nil => exact ⟨Carimbado.nada, ht, le_refl _⟩
  | cons a t ih =>
    obtain ⟨h1, h2, h3⟩ := bfs_aresta_passo malloc st a ht
    obtain ⟨i1, i2, i3⟩ := ih (bfs.aresta malloc st a) h2
    simp only [List.foldl_cons]
    exact ⟨h1.trans i1, i2, le_trans i3 h3⟩

theorem bfs_laco_succ (malloc : Nat → Bool) (rondas : Nat) (st : EstadoBfs) (atual : Nat)
    (resto : List Nat) (h : st.fila = atual :: resto) :
    bfs.laco malloc (rondas + 1) st =
      bfs.laco malloc rondas
        ((lerArestas st.g.vertices atual).foldl (bfs.aresta malloc) { st with fila := resto }) := by
  simp only [bfs.laco, h, removerDaFila]

theorem bfs_laco_vazia (malloc : Nat → Bool) (rondas : Nat) (st : EstadoBfs)
    (h : st.fila = []) : bfs.laco malloc rondas st = some st := by
  cases rondas with
  | zero => simp [bfs.laco, h]
  | succ n => simp only [bfs.laco, h, removerDaFila]

/-- The outer loop of `bfs` ends: as many rounds as there are queued nodes and
nodes not yet stamped are enough. -/
theorem bfs_laco_termina (malloc : Nat → Bool) (rondas : Nat) :
    ∀ st : EstadoBfs, 0 < st.g.topo → st.fila.length + porVisitar st.g ≤ rondas →
      ∃ st2, bfs.laco malloc rondas st = some st2 ∧ Carimbado st.g st2.g ∧ st2.fila = [] := by
  induction rondas with
  | zero =>
    intro st _ hf
    have : st.fila = [] := List.length_eq_zero.mp (by omega)
    exact ⟨st, bfs_laco_vazia malloc 0 st this, Carimbado.nada, this⟩
  | succ rondas ih =>
    intro st ht hf
    cases hq : st.fila with
    | nil => exact ⟨st, bfs_laco_vazia malloc _ st hq, Carimbado.nada, hq⟩
    | cons atual resto =>
      rw [bfs_laco_succ malloc rondas st atual resto hq]
      obtain ⟨v1, v2, v3⟩ := bfs_vizinhos_passo malloc (lerArestas st.g.vertices atual)
        { st with fila := resto } ht
      have hlen : resto.length + 1 = st.fila.length := by rw [hq]; rfl
      obtain ⟨st2, h2, c2, e2⟩ := ih _ v2 (by simp only at v3; omega)
      exact ⟨st2, h2, v1.trans c2, e2⟩

theorem bfs_aresta_interno (malloc : Nat → Bool) (hm : ∀ n, malloc n = true)
    (vs : List Vertice) (s atual : Nat) (st : EstadoBfs) (a : Nat)
    (ha : a ∈ lerArestas vs atual) (h : bfsInterno vs s atual st) :
    bfsInterno vs s atual (bfs.aresta malloc st a) ∧
    ∀ q, desref vs a = some q → visitado (bfs.aresta malloc st a).g q := by
  obtain ⟨hf, ht, h1, h2, h3, h4⟩ := h
  rcases bfs_aresta_eq malloc st a with ⟨he, hv⟩ | ⟨w, hw, hv, he⟩
  · rw [he]
    refine ⟨⟨hf, ht, h1, h2, h3, h4⟩, ?_⟩
    intro q hq
    exact hv q (by rw [desref_of_semVisita hf]; exact hq)
  · rw [he]
    have hlt := desref_lt hw
    have hiff := fun p => visitado_carimbar_iff st.g w p hlt ht
    have hw2 : desref vs a = some w := by rw [← desref_of_semVisita hf]; exact hw
    simp only [hm, if_true]
    refine ⟨⟨(semVisita_carimbar st.g w).trans hf, ?_, ?_, ?_, ?_, ?_⟩, ?_⟩
    · simp only [carimbar]
      omega
    · intro p hp
      rw [hiff]
      rcases List.mem_append.mp hp with hp | hp
      · exact Or.inr (h1 p hp)
      · exact Or.inl (List.mem_singleton.mp hp)
    · intro p hp
      rcases (hiff p).mp hp with rfl | hp
      · exact Relation.ReflTransGen.tail (h2 atual h4) ⟨a, ha, hw2⟩
      · exact h2 p hp
    · intro p hp hnf hna q hq
      rw [hiff]
      right
      rcases (hiff p).mp hp with rfl | hp
      · exact absurd (List.mem_append_right _ (List.mem_singleton_self _)) hnf
      · exact h3 p hp (fun hin => hnf (List.mem_append_left _ hin)) hna q hq
    · exact (hiff atual).mpr (Or.inr h4)
    · intro q hq
      rw [hw2] at hq
      cases hq
      exact (hiff _).mpr (Or.inl rfl)

theorem bfs_vizinhos_interno (malloc : Nat → Bool) (hm : ∀ n, malloc n = true)
    (vs : List Vertice) (s atual : Nat) (l : List Nat) (st : EstadoBfs)
    (hl : ∀ a ∈ l, a ∈ lerArestas vs atual) (h : bfsInterno vs s atual st) :
    bfsInterno vs s atual (l.foldl (bfs.aresta malloc) st) ∧
    ∀ a ∈ l, ∀ q, desref vs a = some q → visitado (l.foldl (bfs.aresta malloc) st).g q := by
  induction l generalizing st with
  | nil => exact ⟨h, fun a ha => absurd ha (List.not_mem_nil a)⟩
  | cons a t ih =>
    obtain ⟨s1, s2⟩ := bfs_aresta_interno malloc hm vs s atual st a
      (hl a (List.mem_cons_self _ _)) h
    obtain ⟨i1, i2⟩ := ih (bfs.aresta malloc st a)
      (fun b hb => hl b (List.mem_cons_of_mem _ hb)) s1
    simp only [List.foldl_cons]
    refine ⟨i1, ?_⟩
    intro b hb q hq
    rcases List.mem_cons.mp hb with rfl | hbt
    · exact (bfs_vizinhos_passo malloc t _ s1.2.1).1.mono q (s2 q hq)
    · exact i2 b hbt q hq

theorem bfs_laco_correcto (malloc : Nat → Bool) (hm : ∀ n, malloc n = true)
    (vs : List Vertice) (s : Nat) (rondas : Nat) :
    ∀ st st2 : EstadoBfs, bfsExterno vs s st → bfs.laco malloc rondas st = some st2 →
      bfsExterno vs s st2 ∧ st2.fila = [] := by
  induction rondas with
  | zero =>
    intro st st2 h hl
    by_cases hq : st.fila = []
    · rw [bfs_laco_vazia malloc 0 st hq, Option.some.injEq] at hl
      subst hl
      exact ⟨h, hq⟩
    · simp [bfs.laco, hq] at hl
  | succ rondas ih =>
    intro st st2 h hl
    cases hq : st.fila with
    | nil =>
      rw [bfs_laco_vazia malloc _ st hq, Option.some.injEq] at hl
      subst hl
      exact ⟨h, hq⟩
    | cons atual resto =>
      rw [bfs_laco_succ malloc rondas st atual resto hq] at hl
      obtain ⟨hf, ht, h1, h2, h3⟩ := h
      have hatual : visitado st.g atual := h1 atual (by rw [hq]; exact List.mem_cons_self _ _)
      have hint : bfsInterno vs s atual { st with fila := resto } := by
        refine ⟨hf, ht, ?_, h2, ?_, hatual⟩
        · intro p hp
          exact h1 p (by rw [hq]; exact List.mem_cons_of_mem _ hp)
        · intro p hp hnf hna q hqq
          apply h3 p hp _ q hqq
          rw [hq]
          intro hin
          rcases List.mem_cons.mp hin with h5 | h5
          · exact hna h5
          · exact hnf h5
      obtain ⟨⟨f1, f2, f3, f4, f5, f6⟩, v2⟩ := bfs_vizinhos_interno malloc hm vs s atual
        (lerArestas st.g.vertices atual) { st with fila := resto }
        (fun a ha => by rw [← lerArestas_of_semVisita hf]; exact ha) hint
      apply ih _ st2 _ hl
      refine ⟨f1, f2, f3, f4, ?_⟩
      intro p hp hnf q hqq
      by_cases hpa : p = atual
      · subst hpa
        obtain ⟨a, ha, hd⟩ := hqq
        exact v2 a (by rw [lerArestas_of_semVisita hf]; exact ha) q hd
      · exact f5 p hp hnf hpa q hqq

/-- The result of `bfs` when the start resolves: the loop ends and the graph
comes from the reset graph by a stamp of the start followed by other stamps. -/
theorem bfs_resolve (g : Grafo) (x y : Int) (malloc : Nat → Bool) (s : Nat)
    (hs : ProcurarVertice g x y = some s) :
    ∃ st2, bfs.laco malloc (limparVisitados g).1.vertices.length
        { g := carimbar (limparVisitados g).1 s,
          fila := (adicionarAFila [] s (malloc 0)).1, chamadas := 1 } = some st2 ∧
      bfs g x y malloc = some (st2.g, true) ∧
      Carimbado (carimbar (limparVisitados g).1 s) st2.g := by
  have hs0 : ProcurarVertice (limparVisitados g).1 x y = some s :=
    (ProcurarVertice_limparVisitados g x y).trans hs
  have hlt : s < (limparVisitados g).1.vertices.length := ProcurarVertice_lt hs0
  have ht : 0 < (limparVisitados g).1.topo := by simp [limparVisitados]
  have hp := porVisitar_carimbar _ s hlt (lerVisita_limparVisitados g s) ht
  have hle := porVisitar_le_length (limparVisitados g).1
  have hfl : (adicionarAFila [] s (malloc 0)).1.length ≤ 1 := by
    unfold adicionarAFila
    cases malloc 0 <;> simp
  have ht1 : 0 < (carimbar (limparVisitados g).1 s).topo := by
    simp only [carimbar]
    omega
  have hfuel : (adicionarAFila [] s (malloc 0)).1.length +
      porVisitar (carimbar (limparVisitados g).1 s) ≤ (limparVisitados g).1.vertices.length := by
    omega
  obtain ⟨st2, h2, c2, -⟩ := bfs_laco_termina malloc (limparVisitados g).1.vertices.length
    { g := carimbar (limparVisitados g).1 s,
      fila := (adicionarAFila [] s (malloc 0)).1, chamadas := 1 } ht1 hfuel
  refine ⟨st2, h2, ?_, c2⟩
  unfold bfs
  simp only [hs0, h2, Option.map_some']

/-- When every allocation of a queue node succeeds, the nodes stamped by `bfs`
are the nodes reachable from the start. -/
theorem bfs_alcanca (g : Grafo) (x y : Int) (malloc : Nat → Bool) (hm : ∀ n, malloc n = true)
    (s : Nat) (hs : ProcurarVertice g x y = some s) (g2 : Grafo) (b : Bool)
    (h : bfs g x y malloc = some (g2, b)) :
    ∀ p, visitado g2 p ↔ alcanca g.vertices s p := by
  obtain ⟨st2, h2, hb, c2⟩ := bfs_resolve g x y malloc s hs
  rw [hb, Option.some.injEq, Prod.mk.injEq] at h
  obtain ⟨rfl, -⟩ := h
  have hs0 : ProcurarVertice (limparVisitados g).1 x y = some s :=
    (ProcurarVertice_limparVisitados g x y).trans hs
  have hlt : s < (limparVisitados g).1.vertices.length := ProcurarVertice_lt hs0
  have ht : 0 < (limparVisitados g).1.topo := by simp [limparVisitados]
  have hf0 := semVisita_limparVisitados g
  have hiff := fun p => visitado_carimbar_iff (limparVisitados g).1 s p hlt ht
  have hnone : ∀ p, ¬ visitado (limparVisitados g).1 p :=
    fun p hp => hp (lerVisita_limparVisitados g p)
  have hini : bfsExterno g.vertices s
      { g := carimbar (limparVisitados g).1 s,
        fila := (adicionarAFila [] s (malloc 0)).1, chamadas := 1 } := by
    refine ⟨(semVisita_carimbar _ s).trans hf0, ?_, ?_, ?_, ?_⟩
    · simp only [carimbar]
      omega
    · intro p hp
      simp only [adicionarAFila, hm, if_true, List.nil_append, List.mem_singleton] at hp
      exact (hiff p).mpr (Or.inl hp)
    · intro p hp
      rcases (hiff p).mp hp with rfl | hp
      · exact Relation.ReflTransGen.refl
      · exact absurd hp (hnone p)
    · intro p hp hnf
      rcases (hiff p).mp hp with rfl | hp
      · exfalso
        apply hnf
        simp [adicionarAFila, hm]
      · exact absurd hp (hnone p)
  obtain ⟨⟨-, -, -, e4, e5⟩, e6⟩ := bfs_laco_correcto malloc hm g.vertices s _ _ st2 hini h2
  have hs2 : visitado st2.g s := c2.mono s ((hiff s).mpr (Or.inl rfl))
  intro p
  constructor
  · exact e4 p
  · intro hp
    induction hp with
    | refl => exact hs2
    | tail _ hbc ihp => exact e5 _ ihp (by rw [e6]; exact List.not_mem_nil _) _ hbc

/-! ## Traversals: the ranking -/

theorem carimbos_set (vs : List Vertice) (p : Nat) (w : Vertice) (t : Int)
    (h : vs[p]? = some w) (hw : w.visita = 0) (ht : t ≠ 0) :
    (((vs.set p { w with visita := t }).map (fun v => v.visita)).filter
        (fun n => decide (n ≠ 0))).Perm
      (t :: ((vs.map (fun v => v.visita)).filter (fun n => decide (n ≠ 0)))) := by
  induction vs generalizing p with
  | nil => simp at h
  | cons a l ih =>
    cases p with
    | zero =>
      simp only [List.getElem?_cons_zero, Option.some.injEq] at h
      subst h
      simp [List.filter_cons, hw, ht]
    | succ p =>
      simp only [List.getElem?_cons_succ] at h
      have := ih p h
      simp only [List.set_cons_succ, List.map_cons, List.filter_cons]
      by_cases ha : a.visita = 0
      · simp only [ha, ne_eq, not_true_eq_false, decide_False]
        exact this
      · simp only [ne_eq, ha, not_false_eq_true, decide_True, if_true]
        exact (List.Perm.cons _ this).trans (List.Perm.swap _ _ _)

theorem carimbos_carimbar (g : Grafo) (p : Nat) (hp : p < g.vertices.length)
    (hv : lerVisita g.vertices p = 0) (ht : g.topo ≠ 0) :
    (carimbos (carimbar g p)).Perm (g.topo :: carimbos g) := by
  unfold carimbos carimbar porVisita
  have hg : g.vertices[p]? = some (g.vertices[p]) := List.getElem?_eq_getElem hp
  rw [hg]
  apply carimbos_set _ _ _ _ hg _ ht
  simpa [lerVisita, hg] using hv

theorem classificado_carimbar (g : Grafo) (p : Nat) (hp : p < g.vertices.length)
    (hv : lerVisita g.vertices p = 0) (h : classificado g) : classificado (carimbar g p) := by
  obtain ⟨h1, h2⟩ := h
  have ht : g.topo ≠ 0 := by omega
  have hperm := carimbos_carimbar g p hp hv ht
  have hlen : (carimbos (carimbar g p)).length = (carimbos g).length + 1 := by
    rw [hperm.length_eq]
    rfl
  refine ⟨?_, ?_⟩
  · rw [hlen]
    simp only [carimbar]
    push_cast
    omega
  · rw [hlen, List.range_succ, List.map_append]
    refine hperm.trans ?_
    refine (List.Perm.cons _ h2).trans ?_
    rw [h1]
    simp only [List.map_cons, List.map_nil]
    exact (List.perm_append_singleton _ _).symm

theorem carimbos_limparVisitados (g : Grafo) : carimbos (limparVisitados g).1 = [] := by
  unfold carimbos limparVisitados
  simp only [List.map_map]
  apply List.filter_eq_nil_iff.mpr
  intro n hn
  rw [List.mem_map] at hn
  obtain ⟨v, -, rfl⟩ := hn
  simp

theorem classificado_limparVisitados (g : Grafo) : classificado (limparVisitados g).1 := by
  unfold classificado
  rw [carimbos_limparVisitados]
  exact ⟨rfl, List.Perm.refl _⟩

theorem Carimbado.classificado {g1 g2 : Grafo} (h : Carimbado g1 g2)
    (h1 : Antenas.classificado g1) : Antenas.classificado g2 := by
  induction h with
  | nada => exact h1
  | mais g p _ hp hv ih => exact classificado_carimbar g p hp hv ih

/-- After a sequence of stamps that starts with the start node on the reset
graph: the ranking holds and the start node carries 1. -/
theorem ranking_apos_inicio (g : Grafo) (s : Nat) (g2 : Grafo)
    (hlt : s < (limparVisitados g).1.vertices.length)
    (h : Carimbado (carimbar (limparVisitados g).1 s) g2) :
    classificado g2 ∧ lerVisita g2.vertices s = 1 := by
  have h0 := lerVisita_limparVisitados g s
  have hc := classificado_carimbar _ s hlt h0 (classificado_limparVisitados g)
  have hs : lerVisita (carimbar (limparVisitados g).1 s).vertices s = 1 := by
    rw [lerVisita_carimbar _ s s hlt]
    simp [limparVisitados]
  refine ⟨h.classificado hc, ?_⟩
  rw [h.fica s (by unfold visitado; rw [hs]; decide), hs]

/-! ## The claims on traversals -/

theorem limparVisitados_eq (g : Grafo) :
    limparVisitados g =
      ({ vertices := g.vertices.map semVisita, num_vertices := g.num_vertices, topo := 1 },
        true) := rfl

theorem dfs_ausente (g : Grafo) (x y : Int) (h : ProcurarVertice g x y = none) :
    dfs g x y = some ((limparVisitados g).1, false) := by
  have h0 := (ProcurarVertice_limparVisitados g x y).trans h
  unfold dfs
  simp only [h0]
  simp [limparVisitados]

theorem bfs_ausente (g : Grafo) (x y : Int) (malloc : Nat → Bool)
    (h : ProcurarVertice g x y = none) :
    bfs g x y malloc = some ((limparVisitados g).1, false) := by
  have h0 := (ProcurarVertice_limparVisitados g x y).trans h
  unfold bfs
  simp only [h0]

/-- C15 as stated fails: in the graph `cadeiaVisitada`, whose vertices carry the
visit orders 0, 3, 2, 1 and whose clock is 4, no vertex is at (5,5), and yet
`dfs(g, 5, 5)` and `bfs(g, 5, 5)` do not leave the graph unchanged: they return
false with every visit order at 0 and the clock at 1. -/
theorem C15_contra :
    (∀ v ∈ cadeiaVisitada.vertices, ¬ (v.x = 5 ∧ v.y = 5)) ∧
    cadeiaVisitada.vertices.map (fun v => v.visita) = [0, 3, 2, 1] ∧
    cadeiaVisitada.topo = 4 ∧
    dfs cadeiaVisitada 5 5 ≠ some (cadeiaVisitada, false) ∧
    bfs cadeiaVisitada 5 5 sempre ≠ some (cadeiaVisitada, false) ∧
    (dfs cadeiaVisitada 5 5).map (fun r => (r.1.vertices.map (fun v => v.visita), r.1.topo, r.2)) =
      some ([0, 0, 0, 0], 1, false) ∧
    (bfs cadeiaVisitada 5 5 sempre).map
        (fun r => (r.1.vertices.map (fun v => v.visita), r.1.topo, r.2)) =
      some ([0, 0, 0, 0], 1, false) := by
  decide

/-- C15 (amended): for every graph `g` and `(x, y)` with no vertex at `(x, y)`,
`dfs(g, x, y)` and `bfs(g, x, y)` return false and leave the graph as
`limparVisitados` makes it: every visit order is 0 and the clock is 1; the
vertex list keeps its nodes, in order, with all their other fields (coordinates,
labels, ids, edges), and `num_vertices` is unchanged. -/
theorem C15_inicio_ausente (g : Grafo) (x y : Int) (malloc : Nat → Bool)
    (h : ∀ v ∈ g.vertices, ¬ (v.x = x ∧ v.y = y)) :
    dfs g x y = some ((limparVisitados g).1, false) ∧
    bfs g x y malloc = some ((limparVisitados g).1, false) ∧
    (limparVisitados g).1.vertices = g.vertices.map (fun v => { v with visita := 0 }) ∧
    (limparVisitados g).1.topo = 1 ∧
    (limparVisitados g).1.num_vertices = g.num_vertices :=
  ⟨dfs_ausente g x y (ProcurarVertice_eq_none_of_forall g x y h),
   bfs_ausente g x y malloc (ProcurarVertice_eq_none_of_forall g x y h), rfl, rfl, rfl⟩

theorem C15_inicio_ausente_witness :
    (∀ v ∈ cadeiaVisitada.vertices, ¬ (v.x = 5 ∧ v.y = 5)) ∧
    dfs cadeiaVisitada 5 5 = some ((limparVisitados cadeiaVisitada).1, false) ∧
    bfs cadeiaVisitada 5 5 sempre = some ((limparVisitados cadeiaVisitada).1, false) ∧
    (limparVisitados cadeiaVisitada).1.vertices =
      cadeiaVisitada.vertices.map (fun v => { v with visita := 0 }) ∧
    (limparVisitados cadeiaVisitada).1.topo = 1 ∧
    (limparVisitados cadeiaVisitada).1.num_vertices = cadeiaVisitada.num_vertices :=
  ⟨by decide, C15_inicio_ausente cadeiaVisitada 5 5 sempre (by decide)⟩

/-- C16 as stated fails for `bfs`: in the graph `cadeia`, which has no dangling
edge, the start (0,0) resolves to the node at position 3 and the node at
position 2 is reachable from it, but when the allocation of the queue nodes
fails `bfs(g, 0, 0)` returns true and leaves the visit order of that node at
0. -/
theorem C16_contra :
    semPendentes cadeia ∧ ProcurarVertice cadeia 0 0 = some 3 ∧
    alcanca cadeia.vertices 3 2 ∧
    ∃ g2, bfs cadeia 0 0 nunca = some (g2, true) ∧ ¬ visitado g2 2 :=
  ⟨by decide, by decide,
   Relation.ReflTransGen.single ⟨2, by decide, by decide⟩,
   carimbar (limparVisitados cadeia).1 3, by decide, by decide⟩

/-- C16 (amended): for every graph `g` with no dangling edges and every start
`(x, y)` that resolves to a node `s`, `dfs(g, x, y)` returns true and, when
every allocation of a queue node succeeds, so does `bfs(g, x, y)`; after either
call a node has a visit order other than 0 if and only if it is reachable from
`s` by a path of zero or more directed edges; hence the two calls stamp the same
set of nodes. -/
theorem C16_alcancaveis (g : Grafo) (x y : Int) (malloc : Nat → Bool) (s : Nat)
    (_hd : semPendentes g) (hs : ProcurarVertice g x y = some s)
    (hm : ∀ n, malloc n = true) :
    ∃ gd gb, dfs g x y = some (gd, true) ∧ bfs g x y malloc = some (gb, true) ∧
      (∀ p, visitado gd p ↔ alcanca g.vertices s p) ∧
      (∀ p, visitado gb p ↔ alcanca g.vertices s p) ∧
      (∀ p, visitado gd p ↔ visitado gb p) := by
  obtain ⟨gd, hd1, -, hd2⟩ := dfs_resolve g x y s hs
  obtain ⟨st, -, hb1, -⟩ := bfs_resolve g x y malloc s hs
  have hb2 := bfs_alcanca g x y malloc hm s hs st.g true hb1
  exact ⟨gd, st.g, hd1, hb1, hd2, hb2, fun p => (hd2 p).trans (hb2 p).symm⟩

theorem C16_alcancaveis_witness :
    semPendentes cadeia ∧ ProcurarVertice cadeia 0 0 = some 3 ∧ (∀ n, sempre n = true) ∧
    ∃ gd gb, dfs cadeia 0 0 = some (gd, true) ∧ bfs cadeia 0 0 sempre = some (gb, true) ∧
      (∀ p, visitado gd p ↔ alcanca cadeia.vertices 3 p) ∧
      (∀ p, visitado gb p ↔ alcanca cadeia.vertices 3 p) ∧
      (∀ p, visitado gd p ↔ visitado gb p) :=
  ⟨by decide, by decide, fun _ => rfl,
   C16_alcancaveis cadeia 0 0 sempre 3 (by decide) (by decide) (fun _ => rfl)⟩

/-- C17: for every graph `g` and every start that resolves to a node `s`, `dfs`
and `bfs` (whatever the allocations of queue nodes do) return true, and after
either call, `k` being the number of nodes whose visit order is not 0, these
visit orders are the integers `1 .. k`, each carried by exactly one node, the
start node carries 1, and the clock `topo` is `k + 1`. -/
theorem C17_ranking (g : Grafo) (x y : Int) (malloc : Nat → Bool) (s : Nat)
    (hs : ProcurarVertice g x y = some s) :
    ∃ gd gb, dfs g x y = some (gd, true) ∧ bfs g x y malloc = some (gb, true) ∧
      (carimbos gd).Perm ((List.range (carimbos gd).length).map (fun (i : Nat) => (i : Int) + 1)) ∧
      lerVisita gd.vertices s = 1 ∧ gd.topo = (carimbos gd).length + 1 ∧
      (carimbos gb).Perm ((List.range (carimbos gb).length).map (fun (i : Nat) => (i : Int) + 1)) ∧
      lerVisita gb.vertices s = 1 ∧ gb.topo = (carimbos gb).length + 1 := by
  have hs0 : ProcurarVertice (limparVisitados g).1 x y = some s :=
    (ProcurarVertice_limparVisitados g x y).trans hs
  have hlt : s < (limparVisitados g).1.vertices.length := ProcurarVertice_lt hs0
  obtain ⟨gd, hd1, hd2, -⟩ := dfs_resolve g x y s hs
  obtain ⟨st, -, hb1, hb2⟩ := bfs_resolve g x y malloc s hs
  obtain ⟨⟨d1, d2⟩, d3⟩ := ranking_apos_inicio g s gd hlt hd2
  obtain ⟨⟨b1, b2⟩, b3⟩ := ranking_apos_inicio g s st.g hlt hb2
  exact ⟨gd, st.g, hd1, hb1, d2, d3, d1, b2, b3, b1⟩

theorem C17_ranking_witness :
    ProcurarVertice cadeia 0 0 = some 3 ∧
    ∃ gd gb, dfs cadeia 0 0 = some (gd, true) ∧ bfs cadeia 0 0 nunca = some (gb, true) ∧
      (carimbos gd).Perm ((List.range (carimbos gd).length).map (fun (i : Nat) => (i : Int) + 1)) ∧
      lerVisita gd.vertices 3 = 1 ∧ gd.topo = (carimbos gd).length + 1 ∧
      (carimbos gb).Perm ((List.range (carimbos gb).length).map (fun (i : Nat) => (i : Int) + 1)) ∧
      lerVisita gb.vertices 3 = 1 ∧ gb.topo = (carimbos gb).length + 1 :=
  ⟨by decide, C17_ranking cadeia 0 0 nunca 3 (by decide)⟩

theorem limparVisitados_congr (g1 g2 : Grafo)
    (hv : g1.vertices.map semVisita = g2.vertices.map semVisita)
    (hn : g1.num_vertices = g2.num_vertices) : limparVisitados g1 = limparVisitados g2 := by
  rw [limparVisitados_eq, limparVisitados_eq, hv, hn]

theorem dfs_forma (g : Grafo) (x y : Int) (r : Grafo × Bool) (h : dfs g x y = some r) :
    r.1.vertices.map semVisita = g.vertices.map semVisita ∧ r.1.num_vertices = g.num_vertices := by
  cases hp : ProcurarVertice g x y with
  | none =>
    rw [dfs_ausente g x y hp, Option.some.injEq] at h
    subst h
    exact ⟨semVisita_limparVisitados g, rfl⟩
  | some s =>
    obtain ⟨g2, h2, hc, -⟩ := dfs_resolve g x y s hp
    rw [h2, Option.some.injEq] at h
    subst h
    have hf := hc.forma
    exact ⟨hf.1.trans ((semVisita_carimbar _ s).trans (semVisita_limparVisitados g)), hf.2.1⟩

theorem bfs_forma (g : Grafo) (x y : Int) (malloc : Nat → Bool) (r : Grafo × Bool)
    (h : bfs g x y malloc = some r) :
    r.1.vertices.map semVisita = g.vertices.map semVisita ∧ r.1.num_vertices = g.num_vertices := by
  cases hp : ProcurarVertice g x y with
  | none =>
    rw [bfs_ausente g x y malloc hp, Option.some.injEq] at h
    subst h
    exact ⟨semVisita_limparVisitados g, rfl⟩
  | some s =>
    obtain ⟨st, -, h2, hc⟩ := bfs_resolve g x y malloc s hp
    rw [h2, Option.some.injEq] at h
    subst h
    have hf := hc.forma
    exact ⟨hf.1.trans ((semVisita_carimbar _ s).trans (semVisita_limparVisitados g)), hf.2.1⟩

theorem dfs_congr (g1 g2 : Grafo) (x y : Int) (h : limparVisitados g1 = limparVisitados g2) :
    dfs g1 x y = dfs g2 x y := by
  unfold dfs
  rw [h]

theorem bfs_congr (g1 g2 : Grafo) (x y : Int) (malloc : Nat → Bool)
    (h : limparVisitados g1 = limparVisitados g2) : bfs g1 x y malloc = bfs g2 x y malloc := by
  unfold bfs
  rw [h]

/-- The call `dfs(g, x, y)` returns, whatever the graph. -/
theorem dfs_retorna (g : Grafo) (x y : Int) : ∃ r, dfs g x y = some r := by
  cases hp : ProcurarVertice g x y with
  | none => exact ⟨_, dfs_ausente g x y hp⟩
  | some s =>
    obtain ⟨g2, h2, -, -⟩ := dfs_resolve g x y s hp
    exact ⟨_, h2⟩

/-- The call `bfs(g, x, y)` returns, whatever the graph and the allocations. -/
theorem bfs_retorna (g : Grafo) (x y : Int) (malloc : Nat → Bool) :
    ∃ r, bfs g x y malloc = some r := by
  cases hp : ProcurarVertice g x y with
  | none => exact ⟨_, bfs_ausente g x y malloc hp⟩
  | some s =>
    obtain ⟨st, -, h2, -⟩ := bfs_resolve g x y malloc s hp
    exact ⟨_, h2⟩

/-- C18 as stated fails for `bfs`: on the graph `cadeia`, a first `bfs(g, 0, 0)`
in which the allocations of queue nodes succeed leaves the visit orders
0, 3, 2, 1, and a second one right after it in which they fail leaves
0, 0, 0, 1. -/
theorem C18_contra :
    bfs cadeia 0 0 sempre = some (cadeiaVisitada, true) ∧
    cadeiaVisitada.vertices.map (fun v => v.visita) = [0, 3, 2, 1] ∧
    (bfs cadeiaVisitada 0 0 nunca).map (fun r => (r.1.vertices.map (fun v => v.visita), r.2)) =
      some ([0, 0, 0, 1], true) := by
  decide

/-- C18 (amended): the result of `dfs` depends only on the vertices, the edges
and the start, and the result of `bfs` only on these and on which allocations
of queue nodes succeed, not on the visit orders or on the clock present before
the call: two graphs that differ in these only give the same result. In
particular each call returns, and a second run right after it, with the
allocations succeeding or failing alike, leaves the stamps of the first. -/
theorem C18_determinismo (g1 g2 : Grafo) (x y : Int) (malloc : Nat → Bool)
    (hv : g1.vertices.map (fun v => { v with visita := 0 }) =
      g2.vertices.map (fun v => { v with visita := 0 }))
    (hn : g1.num_vertices = g2.num_vertices) :
    dfs g1 x y = dfs g2 x y ∧ bfs g1 x y malloc = bfs g2 x y malloc ∧
    (∃ r, dfs g1 x y = some r ∧ dfs r.1 x y = some r) ∧
    (∃ r, bfs g1 x y malloc = some r ∧ bfs r.1 x y malloc = some r) := by
  have hl := limparVisitados_congr g1 g2 hv hn
  refine ⟨dfs_congr g1 g2 x y hl, bfs_congr g1 g2 x y malloc hl, ?_, ?_⟩
  · obtain ⟨r, hr⟩ := dfs_retorna g1 x y
    obtain ⟨f1, f2⟩ := dfs_forma g1 x y r hr
    refine ⟨r, hr, ?_⟩
    rw [dfs_congr r.1 g1 x y (limparVisitados_congr r.1 g1 f1 f2)]
    exact hr
  · obtain ⟨r, hr⟩ := bfs_retorna g1 x y malloc
    obtain ⟨f1, f2⟩ := bfs_forma g1 x y malloc r hr
    refine ⟨r, hr, ?_⟩
    rw [bfs_congr r.1 g1 x y malloc (limparVisitados_congr r.1 g1 f1 f2)]
    exact hr

theorem C18_determinismo_witness :
    cadeia.vertices.map (fun v => { v with visita := 0 }) =
      cadeiaVisitada.vertices.map (fun v => { v with visita := 0 }) ∧
    cadeia.num_vertices = cadeiaVisitada.num_vertices ∧
    dfs cadeia 0 0 = dfs cadeiaVisitada 0 0 ∧
    bfs cadeia 0 0 sempre = bfs cadeiaVisitada 0 0 sempre ∧
    (∃ r, dfs cadeia 0 0 = some r ∧ dfs r.1 0 0 = some r) ∧
    (∃ r, bfs cadeia 0 0 sempre = some r ∧ bfs r.1 0 0 sempre = some r) :=
  ⟨by decide, by decide, C18_determinismo cadeia cadeiaVisitada 0 0 sempre (by decide) (by decide)⟩

/-! ## No dangling edge -/

theorem tentar_nosLacos {P : Grafo → Prop} (hP : ConservadaNosLacos P)
    (malloc : Nat → Option Bloco) (x y : Int) (st : Estado) (h : P st.g) :
    P (deduzirNefasto.tentar malloc x y st).g := by
  unfold deduzirNefasto.tentar
  by_cases hc : x ≥ 0 ∧ y ≥ 0
  · rw [if_pos hc]
    exact hP.adicionarVertice _ _ _ _ _ h
  · rw [if_neg hc]
    exact h

theorem par_nosLacos {P : Grafo → Prop} (hP : ConservadaNosLacos P)
    (malloc : Nat → Option Bloco) (v1 v2 : Vertice) (st : Estado) (h : P st.g) :
    P (deduzirNefasto.par malloc v1 v2 st).g := by
  unfold deduzirNefasto.par
  by_cases hc : v1.freq = v2.freq ∧ v1.freq ≠ '#'
  · rw [if_pos hc]
    exact tentar_nosLacos hP _ _ _ _ (tentar_nosLacos hP _ _ _ _ h)
  · rw [if_neg hc]
    exact h

theorem interno_nosLacos {P : Grafo → Prop} (hP : ConservadaNosLacos P)
    (malloc : Nat → Option Bloco) (v1 : Vertice) (d : Nat) (l : List Vertice) (st : Estado)
    (h : P st.g) : P (deduzirNefasto.interno malloc v1 d l st).g := by
  induction l generalizing st with
  | nil => exact h
  | cons v2 resto ih =>
    unfold deduzirNefasto.interno
    by_cases hc : resto.length = d
    · rw [if_pos hc]
      exact ih st h
    · rw [if_neg hc]
      exact ih _ (par_nosLacos hP malloc v1 v2 st h)

theorem externo_nosLacos {P : Grafo → Prop} (hP : ConservadaNosLacos P)
    (malloc : Nat → Option Bloco) (l : List Vertice) (st : Estado) (h : P st.g) :
    P (deduzirNefasto.externo malloc l st).g := by
  induction l generalizing st with
  | nil => exact h
  | cons v1 resto ih =>
    unfold deduzirNefasto.externo
    exact ih _ (interno_nosLacos hP malloc v1 _ _ st h)

theorem ligar_par_nosLacos {P : Grafo → Prop} (hP : ConservadaNosLacos P)
    (hlen : ∀ g o d n, (inserirAresta g o d n).1.vertices.length = g.vertices.length)
    (malloc : Nat → Bool) (v1 v2 : Nat) (st : Estado) (h : P st.g) :
    P (ligarVerticesComMesmaFrequencia.par malloc v1 v2 st).g := by
  unfold ligarVerticesComMesmaFrequencia.par
  cases h1 : st.g.vertices[v1]? with
  | none => exact h
  | some n1 =>
    cases h2 : st.g.vertices[v2]? with
    | none => exact h
    | some n2 =>
      have l1 : v1 < st.g.vertices.length := (List.getElem?_eq_some_iff.mp h1).1
      have l2 : v2 < st.g.vertices.length := (List.getElem?_eq_some_iff.mp h2).1
      by_cases hc : n1.freq = n2.freq ∧ n1.freq ≠ '#' ∧ n1.freq ≠ '.'
      · simp only [if_pos hc]
        apply hP.inserirAresta
        · rw [hlen]; exact l2
        · rw [hlen]; exact l1
        · exact hP.inserirAresta _ _ _ _ l1 l2 h
      · simp only [if_neg hc]
        exact h

theorem length_inserirAresta (g : Grafo) (o d : Option Nat) (n : Bool) :
    (inserirAresta g o d n).1.vertices.length = g.vertices.length := by
  unfold inserirAresta
  split
  · split
    · rfl
    · split
      · exact length_porArestas _ _ _
      · rfl
  · rfl

theorem ligar_nosLacos {P : Grafo → Prop} (hP : ConservadaNosLacos P) (malloc : Nat → Bool)
    (g : Grafo) (h : P g) : P (ligarVerticesComMesmaFrequencia g malloc).1 := by
  unfold ligarVerticesComMesmaFrequencia
  apply foldl_conserva_estado P _ _ _ _ h
  intro st v1 hst
  apply foldl_conserva_estado P _ _ _ _ hst
  intro st2 v2 hst2
  exact ligar_par_nosLacos hP length_inserirAresta malloc v1 v2 st2 hst2

theorem LerArestasBinario_laco_nosLacos {P : Grafo → Prop} (hP : ConservadaNosLacos P)
    (malloc : Nat → Bool) (k : Nat) :
    ∀ (ints : List Int), ints.length ≤ k → ∀ (n : Nat) (g : Grafo), P g →
      P (LerArestasBinario.laco malloc ints n g) := by
  induction k with
  | zero =>
    intro ints hl n g h
    have : ints = [] := List.length_eq_zero.mp (Nat.le_zero.mp hl)
    subst this
    simpa [LerArestasBinario.laco] using h
  | succ k ih =>
    intro ints hl n g h
    match ints with
    | [] => simpa [LerArestasBinario.laco] using h
    | [_] => simpa [LerArestasBinario.laco] using h
    | [_, _] => simpa [LerArestasBinario.laco] using h
    | [_, _, _] => simpa [LerArestasBinario.laco] using h
    | x1 :: y1 :: x2 :: y2 :: resto =>
      have hr : resto.length ≤ k := by
        simp only [List.length_cons] at hl
        omega
      unfold LerArestasBinario.laco
      split
      · split
        · exact ih resto hr (n + 1) _ (hP.adicionarAresta g _ _ _ _ (malloc n) h)
        · exact ih resto hr (n + 1) g h
      · exact ih resto hr (n + 1) g h

theorem semPendentes_iff (g : Grafo) :
    semPendentes g ↔ ∀ v ∈ g.vertices, ∀ a ∈ v.arestas, a ∈ g.vertices.map (fun w => w.addr) := by
  unfold semPendentes
  simp only [List.mem_map]

theorem semPendentes_porArestas (g : Grafo) (p : Nat) (l : List Nat) (hd : semPendentes g)
    (hl : ∀ a ∈ l, a ∈ g.vertices.map (fun w => w.addr)) :
    semPendentes { g with vertices := porArestas g.vertices p l } := by
  rw [semPendentes_iff] at hd ⊢
  intro v hv a ha
  simp only [map_porArestas (fun w => w.addr) (fun _ _ => rfl)]
  simp only at hv
  rcases mem_porArestas hv with h1 | ⟨w, _, h1⟩
  · exact hd v h1 a ha
  · rw [h1] at ha
    exact hl a ha

theorem lerArestas_vivas (g : Grafo) (hd : semPendentes g) (p : Nat) :
    ∀ a ∈ lerArestas g.vertices p, a ∈ g.vertices.map (fun w => w.addr) := by
  rw [semPendentes_iff] at hd
  intro a ha
  rcases lerArestas_mem g.vertices p with h1 | ⟨v, hv, h1⟩
  · rw [h1] at ha
    exact absurd ha (List.not_mem_nil a)
  · rw [h1] at ha
    exact hd v hv a ha

theorem endereco_vivo (vs : List Vertice) (p : Nat) (h : p < vs.length) :
    endereco vs p ∈ vs.map (fun w => w.addr) := by
  have hg : vs[p]? = some (vs[p]) := List.getElem?_eq_getElem h
  rw [endereco_of_getElem hg, List.mem_map]
  exact ⟨vs[p], List.mem_iff_getElem?.mpr ⟨p, hg⟩, rfl⟩

theorem semPendentes_inserir (g : Grafo) (o d : Nat) (hd : semPendentes g)
    (hlt : d < g.vertices.length) :
    semPendentes
      { g with vertices :=
          porArestas g.vertices o (endereco g.vertices d :: lerArestas g.vertices o) } := by
  apply semPendentes_porArestas g o _ hd
  intro a ha
  rcases List.mem_cons.mp ha with rfl | h
  · exact endereco_vivo g.vertices d hlt
  · exact lerArestas_vivas g hd o a h

theorem semPendentes_AdicionarVertice (g : Grafo) (x y : Int) (f : Char) (n : Option Bloco)
    (hd : semPendentes g) : semPendentes (AdicionarVertice g x y f n).1 := by
  cases hp : ProcurarVertice g x y with
  | some k => rw [AdicionarVertice_ocupado g x y f n (by simp [hp])]; exact hd
  | none =>
    cases n with
    | none => rw [AdicionarVertice_sem_memoria]; exact hd
    | some b =>
      rw [AdicionarVertice_livre g x y f b hp]
      intro v hv a ha
      simp only [List.mem_cons] at hv
      rcases hv with hv | hv
      · rw [hv] at ha
        exact absurd ha (List.not_mem_nil a)
      · obtain ⟨w, hw, hwa⟩ := hd v hv a ha
        exact ⟨w, List.mem_cons_of_mem _ hw, hwa⟩

theorem semPendentes_AdicionarAresta (g : Grafo) (a b c d : Int) (n : Bool)
    (hd : semPendentes g) : semPendentes (AdicionarAresta g a b c d n).1 := by
  unfold AdicionarAresta
  split
  · rename_i o e _ he
    split
    · exact hd
    · split
      · exact semPendentes_inserir g o e hd (ProcurarVertice_lt he)
      · exact hd
  · exact hd

theorem semPendentes_inserirAresta (g : Grafo) (o d : Nat) (n : Bool)
    (_ho : o < g.vertices.length) (hlt : d < g.vertices.length) (hd : semPendentes g) :
    semPendentes (inserirAresta g (some o) (some d) n).1 := by
  unfold inserirAresta
  simp only
  split
  · exact hd
  · split
    · exact semPendentes_inserir g o d hd hlt
    · exact hd

theorem nosLacos_semPendentes : ConservadaNosLacos semPendentes where
  adicionarVertice := semPendentes_AdicionarVertice
  adicionarAresta := semPendentes_AdicionarAresta
  inserirAresta := semPendentes_inserirAresta

theorem semPendentes_RemoverAresta (g : Grafo) (a b c d : Int) (hd : semPendentes g) :
    semPendentes (RemoverAresta g a b c d).1 := by
  unfold RemoverAresta
  split
  · rename_i o e _ _
    simp only [removerPrimeira_fst]
    have h1 : semPendentes
        { g with vertices :=
            porArestas g.vertices o ((lerArestas g.vertices o).erase (endereco g.vertices e)) } :=
      semPendentes_porArestas g o _ hd
        (fun x hx => lerArestas_vivas g hd o x (List.mem_of_mem_erase hx))
    apply semPendentes_porArestas _ e _ h1
    intro x hx
    exact lerArestas_vivas _ h1 e x (List.mem_of_mem_erase hx)
  · exact hd

theorem semPendentes_RemoverVertice (g : Grafo) (x y : Int) (hu : coordenadasUnicas g)
    (ha : arestasUnicas g) (hd : semPendentes g) : semPendentes (RemoverVertice g x y).1 := by
  cases hp : ProcurarVertice g x y with
  | none => rw [RemoverVertice_eq_none g x y hp]; exact hd
  | some i =>
    obtain ⟨t, hti, htm, rfl, rfl⟩ := ProcurarVertice_eq_some hp
    have hv : (RemoverVertice g t.x t.y).1.vertices =
        filtrarArestas (fun _ a => decide (a ≠ t.addr))
          (g.vertices.filter (fun v => decide (¬ (v.x = t.x ∧ v.y = t.y)))) := by
      rw [RemoverVertice_eq_some g _ _ i hp]
      exact limpar_final g _ _ hu ha i t hp hti
    intro v hvm a hav
    rw [hv] at hvm ⊢
    obtain ⟨w, hw, -, -, -, hl⟩ := mem_filtrarArestas hvm
    rw [hl, List.mem_filter] at hav
    have hne : a ≠ t.addr := by simpa using hav.2
    obtain ⟨u, hum, hua⟩ := hd w (List.mem_of_mem_filter hw) a hav.1
    have hut : ¬ (u.x = t.x ∧ u.y = t.y) := by
      intro hc
      have : u = t := by
        apply List.inj_on_of_nodup_map hu hum htm
        simp [coord, hc.1, hc.2]
      rw [this] at hua
      exact hne hua.symm
    refine ⟨{ u with arestas := u.arestas.filter (fun b => decide (b ≠ t.addr)) }, ?_, hua⟩
    unfold filtrarArestas
    rw [List.mem_map]
    exact ⟨u, List.mem_filter.mpr ⟨hum, decide_eq_true hut⟩, rfl⟩

theorem executar_semPendentes (g : Grafo) (op : Op) (hu : coordenadasUnicas g)
    (ha : arestasUnicas g) (hd : semPendentes g) : semPendentes (executar g op) := by
  cases op with
  | adicionarVertice x y freq novo => exact semPendentes_AdicionarVertice g x y freq novo hd
  | removerVertice x y => exact semPendentes_RemoverVertice g x y hu ha hd
  | adicionarAresta a b c d n => exact semPendentes_AdicionarAresta g a b c d n hd
  | removerAresta a b c d => exact semPendentes_RemoverAresta g a b c d hd
  | deduzirNefasto malloc => exact externo_nosLacos nosLacos_semPendentes malloc g.vertices _ hd
  | ligarVerticesComMesmaFrequencia malloc =>
    exact ligar_nosLacos nosLacos_semPendentes malloc g hd
  | lerArestasBinario ficheiro malloc =>
    cases ficheiro with
    | none => exact hd
    | some ints =>
      exact LerArestasBinario_laco_nosLacos nosLacos_semPendentes malloc ints.length ints
        (Nat.le_refl _) 0 g hd

theorem alcancavel_semPendentes (g : Grafo) (h : Alcancavel g) : semPendentes g := by
  induction h with
  | criar bloco g hg =>
    cases bloco with
    | none => simp [CriarGrafo] at hg
    | some t =>
      simp only [CriarGrafo, Option.some.injEq] at hg
      subst hg
      intro v hv
      exact absurd hv (List.not_mem_nil v)
  | passo g op hg _ ih =>
    exact executar_semPendentes g op
      (alcancavel_conserva conservada_coordenadasUnicas (fun _ => List.nodup_nil) g hg)
      (alcancavel_conserva conservada_arestasUnicas
        (fun _ _ hv => absurd hv (List.not_mem_nil _)) g hg) ih

/-- C11: no dangling edge is an invariant. In every graph reachable from
`CriarGrafo()` by a finite sequence of calls of `AdicionarVertice`,
`RemoverVertice`, `AdicionarAresta`, `RemoverAresta`, `deduzirNefasto` and
`ligarVerticesComMesmaFrequencia` (and of `LerArestasBinario`), the destination
of every edge of every adjacency list is a node of the vertex list. -/
theorem C11_sem_pendentes (g : Grafo) (h : Alcancavel g) :
    ∀ v ∈ g.vertices, ∀ a ∈ v.arestas, ∃ w ∈ g.vertices, w.addr = a :=
  alcancavel_semPendentes g h

theorem C11_sem_pendentes_witness :
    Alcancavel (executar tresALigados (.removerVertice 1 0)) ∧
    ∀ v ∈ (executar tresALigados (.removerVertice 1 0)).vertices,
      ∀ a ∈ v.arestas, ∃ w ∈ (executar tresALigados (.removerVertice 1 0)).vertices, w.addr = a :=
  ⟨Alcancavel.passo _ _
      (Alcancavel.passo _ _ (Alcancavel.passo _ _ alcancavel_tresA trivial) trivial) trivial,
   C11_sem_pendentes _
     (Alcancavel.passo _ _
       (Alcancavel.passo _ _ (Alcancavel.passo _ _ alcancavel_tresA trivial) trivial) trivial)⟩

/-! ## `deduzirNefasto` -/

theorem getElem?_meio {α : Type} (a : List α) (v : α) (r : List α) :
    (a ++ v :: r)[a.length]? = some v := by
  induction a with
  | nil => simp
  | cons x t ih => simpa using ih

/-- An exact value that fits in an `int` is the value the machine computes. -/
theorem emInt_eq (n : Int) (h : cabeEmInt n) : emInt n = n := by
  unfold cabeEmInt INT_MAX at h
  unfold emInt
  omega

/-- What the machine computes is the value of an `int`. -/
theorem cabeEmInt_emInt (n : Int) : cabeEmInt (emInt n) := by
  unfold cabeEmInt INT_MAX emInt
  omega

/-- Without integer overflow, a point computed as a reflection is the
reflection. -/
theorem reflexo_of_reflexoInt (g0 : Grafo) (x y : Int) (hs : semTransbordo g0)
    (h : reflexoInt g0 x y) : reflexo g0 x y := by
  obtain ⟨i, j, v1, v2, hij, hi, hj, hf, hn, hx, hy⟩ := h
  have hc := hs v1 (List.mem_iff_getElem?.mpr ⟨i, hi⟩) v2 (List.mem_iff_getElem?.mpr ⟨j, hj⟩) hf hn
  rw [emInt_eq _ hc.1] at hx
  rw [emInt_eq _ hc.2] at hy
  exact ⟨i, j, v1, v2, hij, hi, hj, hf, hn, hx, hy⟩

theorem tentar_cresceu (g0 : Grafo) (malloc : Nat → Option Bloco) (x y : Int) (st : Estado)
    (h : cresceu g0 st) (hr : reflexoInt g0 x y) :
    cresceu g0 (deduzirNefasto.tentar malloc x y st) := by
  unfold deduzirNefasto.tentar
  by_cases hc : x ≥ 0 ∧ y ≥ 0
  · rw [if_pos hc]
    obtain ⟨novos, h1, h2, h3, h4⟩ := h
    cases hp : ProcurarVertice st.g x y with
    | some k =>
      rw [AdicionarVertice_ocupado st.g x y '#' _ (by simp [hp])]
      exact ⟨novos, h1, h2, h3, by simpa using h4⟩
    | none =>
      cases hm : malloc st.chamadas with
      | none =>
        rw [AdicionarVertice_sem_memoria]
        exact ⟨novos, h1, h2, h3, by simpa using h4⟩
      | some b =>
        rw [AdicionarVertice_livre st.g x y '#' b hp]
        refine ⟨⟨b.addr, st.g.num_vertices, x, y, '#', b.visita, []⟩ :: novos, by simp [h1], ?_,
          h3, by simp⟩
        intro v hv
        rcases List.mem_cons.mp hv with rfl | hv
        · exact ⟨rfl, rfl, hc.1, hc.2, hr⟩
        · exact h2 v hv
  · rw [if_neg hc]
    exact h

theorem par_cresceu (g0 : Grafo) (malloc : Nat → Option Bloco) (v1 v2 : Vertice) (st : Estado)
    (h : cresceu g0 st) (hp : parDe g0 v1 v2) :
    cresceu g0 (deduzirNefasto.par malloc v1 v2 st) := by
  unfold deduzirNefasto.par
  by_cases hc : v1.freq = v2.freq ∧ v1.freq ≠ '#'
  · rw [if_pos hc]
    obtain ⟨i, j, hij, hi, hj⟩ := hp hc
    apply tentar_cresceu
    · apply tentar_cresceu _ _ _ _ _ h
      exact ⟨i, j, v1, v2, hij, hi, hj, hc.1, hc.2, rfl, rfl⟩
    · exact ⟨j, i, v2, v1, fun e => hij e.symm, hj, hi, hc.1.symm, hc.1 ▸ hc.2, rfl, rfl⟩
  · rw [if_neg hc]
    exact h

theorem interno_cresceu (g0 : Grafo) (malloc : Nat → Option Bloco) (v1 : Vertice) (d : Nat)
    (l : List Vertice) (st : Estado) (h : cresceu g0 st)
    (hl : ∀ pre v2 r, l = pre ++ v2 :: r → r.length ≠ d → parDe g0 v1 v2) :
    cresceu g0 (deduzirNefasto.interno malloc v1 d l st) := by
  induction l generalizing st with
  | nil => exact h
  | cons v2 resto ih =>
    have hl2 : ∀ pre w r, resto = pre ++ w :: r → r.length ≠ d → parDe g0 v1 w := by
      intro pre w r he hr
      exact hl (v2 :: pre) w r (by rw [he]; rfl) hr
    unfold deduzirNefasto.interno
    by_cases hc : resto.length = d
    · rw [if_pos hc]
      exact ih st h hl2
    · rw [if_neg hc]
      exact ih _ (par_cresceu g0 malloc v1 v2 st h (hl [] v2 resto rfl hc)) hl2

/-- In the list of `g0` with new marker nodes in front of it, a node that the
inner loop pairs with the node `v1` at position `pre1.length` of `g0` is
another node of `g0`. -/
theorem par_no_instantaneo (g0 : Grafo) (novos pre1 resto1 : List Vertice) (v1 : Vertice)
    (hn : ∀ v ∈ novos, marcador g0 v) (hg : g0.vertices = pre1 ++ v1 :: resto1) :
    ∀ pre v2 r, novos ++ g0.vertices = pre ++ v2 :: r → r.length ≠ resto1.length →
      parDe g0 v1 v2 := by
  intro pre v2 r he hr hc
  have h1 : g0.vertices[pre1.length]? = some v1 := by
    rw [hg]
    exact getElem?_meio pre1 v1 resto1
  rcases List.append_eq_append_iff.mp he with ⟨a, ha, hb⟩ | ⟨c, hc1, hc2⟩
  · refine ⟨pre1.length, a.length, ?_, h1, ?_⟩
    · intro hij
      apply hr
      have hlen := congrArg List.length hg
      rw [hb] at hlen
      simp only [List.length_append, List.length_cons] at hlen
      omega
    · rw [hb]
      exact getElem?_meio a v2 r
  · cases c with
    | nil =>
      simp only [List.nil_append] at hc2
      refine ⟨pre1.length, 0, ?_, h1, ?_⟩
      · intro hij
        apply hr
        have hlen := congrArg List.length hg
        rw [← hc2] at hlen
        simp only [List.length_append, List.length_cons] at hlen
        omega
      · rw [← hc2]
        simp
    | cons w c2 =>
      simp only [List.cons_append, List.cons.injEq] at hc2
      exfalso
      have hw : v2 ∈ novos := by
        rw [hc1, hc2.1]
        simp
      have := (hn v2 hw).1
      exact hc.2 (hc.1.trans this)

theorem externo_cresceu (g0 : Grafo) (malloc : Nat → Option Bloco) (l : List Vertice) :
    ∀ (pre : List Vertice) (st : Estado), g0.vertices = pre ++ l → cresceu g0 st →
      cresceu g0 (deduzirNefasto.externo malloc l st) := by
  induction l with
  | nil => intro pre st _ h; exact h
  | cons v1 resto ih =>
    intro pre st hg h
    unfold deduzirNefasto.externo
    apply ih (pre ++ [v1]) _ (by rw [hg]; simp)
    have hh := h
    obtain ⟨novos, h1, h2, -, -⟩ := hh
    apply interno_cresceu g0 malloc v1 resto.length _ st h
    rw [h1]
    exact par_no_instantaneo g0 novos pre resto v1 h2 hg

/-- The effect of `deduzirNefasto` on the vertex list: new marker nodes are put
in front of it, nothing else changes, and the call returns true exactly when
there is a new node. -/
theorem deduzirNefasto_cresceu (g : Grafo) (malloc : Nat → Option Bloco) :
    ∃ novos, (deduzirNefasto g malloc).1.vertices = novos ++ g.vertices ∧
      (∀ v ∈ novos, marcador g v) ∧ (deduzirNefasto g malloc).1.topo = g.topo ∧
      ((deduzirNefasto g malloc).2 = true ↔ novos ≠ []) := by
  have h0 : cresceu g { g := g, modificou := false, chamadas := 0 } :=
    ⟨[], rfl, fun v hv => absurd hv (List.not_mem_nil v), rfl, by simp⟩
  exact externo_cresceu g malloc g.vertices [] _ rfl h0

theorem mem_coordenadas_AdicionarVertice (c : Int × Int) (g : Grafo) (x y : Int) (f : Char)
    (n : Option Bloco) (h : c ∈ coordenadas g) : c ∈ coordenadas (AdicionarVertice g x y f n).1 := by
  cases hp : ProcurarVertice g x y with
  | some k => rw [AdicionarVertice_ocupado g x y f n (by simp [hp])]; exact h
  | none =>
    cases n with
    | none => rw [AdicionarVertice_sem_memoria]; exact h
    | some b =>
      rw [AdicionarVertice_livre g x y f b hp]
      unfold coordenadas at h ⊢
      exact List.mem_cons_of_mem _ h

theorem nosLacos_tem (c : Int × Int) : ConservadaNosLacos (fun g => c ∈ coordenadas g) where
  adicionarVertice := fun g x y f n h => mem_coordenadas_AdicionarVertice c g x y f n h
  adicionarAresta := fun g a b c2 d n h => by
    show c ∈ coordenadas (AdicionarAresta g a b c2 d n).1
    rw [coordenadas_AdicionarAresta]
    exact h
  inserirAresta := fun g o d n _ _ h => by
    show c ∈ coordenadas (inserirAresta g (some o) (some d) n).1
    rw [coordenadas_inserirAresta]
    exact h

theorem tentar_tem (malloc : Nat → Option Bloco) (hm : ∀ n, malloc n ≠ none) (x y : Int)
    (st : Estado) (hx : x ≥ 0) (hy : y ≥ 0) :
    (x, y) ∈ coordenadas (deduzirNefasto.tentar malloc x y st).g := by
  unfold deduzirNefasto.tentar
  rw [if_pos ⟨hx, hy⟩]
  cases hp : ProcurarVertice st.g x y with
  | some k =>
    rw [AdicionarVertice_ocupado st.g x y '#' _ (by simp [hp])]
    by_contra hc
    rw [← ProcurarVertice_eq_none] at hc
    rw [hc] at hp
    exact Option.noConfusion hp
  | none =>
    cases hb : malloc st.chamadas with
    | none => exact absurd hb (hm _)
    | some b =>
      rw [AdicionarVertice_livre st.g x y '#' b hp]
      unfold coordenadas
      exact List.mem_cons_self _ _

theorem par_tem (malloc : Nat → Option Bloco) (hm : ∀ n, malloc n ≠ none) (v1 v2 : Vertice)
    (st : Estado) (hc : v1.freq = v2.freq ∧ v1.freq ≠ '#')
    (hx : emInt (2 * v1.x - v2.x) ≥ 0) (hy : emInt (2 * v1.y - v2.y) ≥ 0) :
    (emInt (2 * v1.x - v2.x), emInt (2 * v1.y - v2.y)) ∈
      coordenadas (deduzirNefasto.par malloc v1 v2 st).g := by
  unfold deduzirNefasto.par
  rw [if_pos hc]
  exact tentar_nosLacos (nosLacos_tem _) malloc _ _ _ (tentar_tem malloc hm _ _ st hx hy)

theorem interno_tem (malloc : Nat → Option Bloco) (hm : ∀ n, malloc n ≠ none) (v1 v2 : Vertice)
    (d : Nat) (hc : v1.freq = v2.freq ∧ v1.freq ≠ '#')
    (hx : emInt (2 * v1.x - v2.x) ≥ 0) (hy : emInt (2 * v1.y - v2.y) ≥ 0) (pre r : List Vertice)
    (hr : r.length ≠ d) (st : Estado) :
    (emInt (2 * v1.x - v2.x), emInt (2 * v1.y - v2.y)) ∈
      coordenadas (deduzirNefasto.interno malloc v1 d (pre ++ v2 :: r) st).g := by
  induction pre generalizing st with
  | nil =>
    simp only [List.nil_append]
    unfold deduzirNefasto.interno
    rw [if_neg hr]
    exact interno_nosLacos (nosLacos_tem _) malloc v1 d r _ (par_tem malloc hm v1 v2 st hc hx hy)
  | cons w t ih =>
    simp only [List.cons_append]
    unfold deduzirNefasto.interno
    split
    · exact ih st
    · exact ih _

theorem split_of_getElem? {α : Type} (vs : List α) (j : Nat) (v : α) (h : vs[j]? = some v) :
    ∃ a r, vs = a ++ v :: r ∧ a.length = j := by
  induction vs generalizing j with
  | nil => simp at h
  | cons x t ih =>
    cases j with
    | zero =>
      simp only [List.getElem?_cons_zero, Option.some.injEq] at h
      exact ⟨[], t, by simp [h], rfl⟩
    | succ j =>
      simp only [List.getElem?_cons_succ] at h
      obtain ⟨a, r, h1, h2⟩ := ih j h
      exact ⟨x :: a, r, by simp [h1], by simp [h2]⟩

theorem externo_tem (g0 : Grafo) (malloc : Nat → Option Bloco) (hm : ∀ n, malloc n ≠ none)
    (v1 v2 : Vertice) (j : Nat) (h2 : g0.vertices[j]? = some v2)
    (hc : v1.freq = v2.freq ∧ v1.freq ≠ '#')
    (hx : emInt (2 * v1.x - v2.x) ≥ 0) (hy : emInt (2 * v1.y - v2.y) ≥ 0) (l : List Vertice) :
    ∀ (pre : List Vertice) (st : Estado), g0.vertices = pre ++ l → cresceu g0 st →
      ∀ p2 r1, l = p2 ++ v1 :: r1 → (pre ++ p2).length ≠ j →
        (emInt (2 * v1.x - v2.x), emInt (2 * v1.y - v2.y)) ∈
          coordenadas (deduzirNefasto.externo malloc l st).g := by
  induction l with
  | nil =>
    intro pre st _ _ p2 r1 hl
    simp at hl
  | cons w resto ih =>
    intro pre st hg h p2 r1 hl hij
    unfold deduzirNefasto.externo
    have hh := h
    obtain ⟨novos, n1, n2, -, -⟩ := hh
    have hnext : cresceu g0 (deduzirNefasto.interno malloc w resto.length st.g.vertices st) := by
      apply interno_cresceu g0 malloc w resto.length _ st h
      rw [n1]
      exact par_no_instantaneo g0 novos pre resto w n2 hg
    cases p2 with
    | nil =>
      simp only [List.nil_append, List.cons.injEq] at hl
      obtain ⟨rfl, rfl⟩ := hl
      apply externo_nosLacos (nosLacos_tem _)
      obtain ⟨a, r, ha, hal⟩ := split_of_getElem? g0.vertices j v2 h2
      have hsnap : st.g.vertices = (novos ++ a) ++ v2 :: r := by
        rw [n1, ha]
        simp
      rw [hsnap]
      apply interno_tem malloc hm w v2 _ hc hx hy
      intro hlen
      apply hij
      have e1 := congrArg List.length hg
      have e2 := congrArg List.length ha
      simp only [List.length_append, List.length_cons, List.append_nil] at e1 e2 ⊢
      omega
    | cons q p3 =>
      simp only [List.cons_append, List.cons.injEq] at hl
      obtain ⟨rfl, rfl⟩ := hl
      apply ih (pre ++ [w]) _ (by rw [hg]; simp) hnext p3 r1 rfl
      simpa using hij

/-- When every allocation succeeds, `deduzirNefasto` leaves a vertex at the
point it computes as the reflection of `v2` across `v1` for every two different
nodes `v1`, `v2` of the list with the same label other than `'#'`, if that
point has no negative coordinate. -/
theorem deduzirNefasto_tem (g : Grafo) (malloc : Nat → Option Bloco) (hm : ∀ n, malloc n ≠ none)
    (i j : Nat) (v1 v2 : Vertice) (hij : i ≠ j) (h1 : g.vertices[i]? = some v1)
    (h2 : g.vertices[j]? = some v2) (hc : v1.freq = v2.freq ∧ v1.freq ≠ '#')
    (hx : emInt (2 * v1.x - v2.x) ≥ 0) (hy : emInt (2 * v1.y - v2.y) ≥ 0) :
    (emInt (2 * v1.x - v2.x), emInt (2 * v1.y - v2.y)) ∈
      coordenadas (deduzirNefasto g malloc).1 := by
  obtain ⟨a, r, ha, hal⟩ := split_of_getElem? g.vertices i v1 h1
  have h0 : cresceu g { g := g, modificou := false, chamadas := 0 } :=
    ⟨[], rfl, fun v hv => absurd hv (List.not_mem_nil v), rfl, by simp⟩
  exact externo_tem g malloc hm v1 v2 j h2 hc hx hy g.vertices [] _ rfl h0 a r ha
    (by simpa [hal] using hij)

/-- C12 as stated fails: the graph `doisA` has unique coordinates and two
vertices labelled `'A'`, at (2,0) and (0,0); the reflection of the second
across the first is (4,0), which has no negative coordinate; but when the
allocation of the new vertex fails no vertex is at (4,0) after
`deduzirNefasto`. -/
theorem C12_contra :
    coordenadasUnicas doisA ∧
    (⟨2, 2, 2, 0, 'A', 0, []⟩ : Vertice) ∈ doisA.vertices ∧
    (⟨1, 0, 0, 0, 'A', 0, []⟩ : Vertice) ∈ doisA.vertices ∧
    (2 * 2 - 0 : Int) ≥ 0 ∧ (2 * 0 - 0 : Int) ≥ 0 ∧
    ¬ ∃ v ∈ (deduzirNefasto doisA semBlocos).1.vertices, v.x = 2 * 2 - 0 ∧ v.y = 2 * 0 - 0 := by
  decide

/-- C12 (amended): for every graph `g`, when every allocation of a vertex
succeeds, and for every ordered pair of distinct vertices `v1`, `v2` of `g`
with the same label other than `'#'`: if `2*x1 - x2 >= 0` and `2*y1 - y2 >= 0`,
without integer overflow (the two values are at most `INT_MAX`), then after
`deduzirNefasto(g)` there is a vertex at `(2*x1 - x2, 2*y1 - y2)`, and a vertex
at that point has label `'#'` unless the point was already occupied before the
call. -/
theorem C12_completude (g : Grafo) (malloc : Nat → Option Bloco) (hm : ∀ n, malloc n ≠ none)
    (v1 v2 : Vertice) (h1 : v1 ∈ g.vertices) (h2 : v2 ∈ g.vertices) (hd : v1 ≠ v2)
    (hf : v1.freq = v2.freq) (hn : v1.freq ≠ '#')
    (hx : 2 * v1.x - v2.x ≥ 0) (hy : 2 * v1.y - v2.y ≥ 0)
    (hox : 2 * v1.x - v2.x ≤ INT_MAX) (hoy : 2 * v1.y - v2.y ≤ INT_MAX) :
    (∃ v ∈ (deduzirNefasto g malloc).1.vertices,
      v.x = 2 * v1.x - v2.x ∧ v.y = 2 * v1.y - v2.y) ∧
    (∀ v ∈ (deduzirNefasto g malloc).1.vertices,
      v.x = 2 * v1.x - v2.x → v.y = 2 * v1.y - v2.y →
        v.freq = '#' ∨ ∃ w ∈ g.vertices, w.x = 2 * v1.x - v2.x ∧ w.y = 2 * v1.y - v2.y) := by
  obtain ⟨i, hi⟩ := List.mem_iff_getElem?.mp h1
  obtain ⟨j, hj⟩ := List.mem_iff_getElem?.mp h2
  have hij : i ≠ j := by
    rintro rfl
    rw [hi] at hj
    exact hd (Option.some.inj hj)
  have ex : emInt (2 * v1.x - v2.x) = 2 * v1.x - v2.x :=
    emInt_eq _ ⟨by unfold INT_MAX; omega, hox⟩
  have ey : emInt (2 * v1.y - v2.y) = 2 * v1.y - v2.y :=
    emInt_eq _ ⟨by unfold INT_MAX; omega, hoy⟩
  constructor
  · have := deduzirNefasto_tem g malloc hm i j v1 v2 hij hi hj ⟨hf, hn⟩
      (by rw [ex]; exact hx) (by rw [ey]; exact hy)
    rw [ex, ey] at this
    unfold coordenadas at this
    rw [List.mem_map] at this
    obtain ⟨v, hv, hc⟩ := this
    simp only [coord, Prod.mk.injEq] at hc
    exact ⟨v, hv, hc.1, hc.2⟩
  · intro v hv hvx hvy
    obtain ⟨novos, hn1, hn2, -, -⟩ := deduzirNefasto_cresceu g malloc
    rw [hn1] at hv
    rcases List.mem_append.mp hv with h | h
    · exact Or.inl (hn2 v h).1
    · exact Or.inr ⟨v, h, hvx, hvy⟩

theorem C12_completude_witness :
    (∀ n, blocos n ≠ none) ∧ (2 * 2 - 0 : Int) ≥ 0 ∧ (2 * 0 - 0 : Int) ≥ 0 ∧
    (2 * 2 - 0 : Int) ≤ INT_MAX ∧ (2 * 0 - 0 : Int) ≤ INT_MAX ∧
    (∃ v ∈ (deduzirNefasto doisA blocos).1.vertices, v.x = 2 * 2 - 0 ∧ v.y = 2 * 0 - 0) ∧
    (∀ v ∈ (deduzirNefasto doisA blocos).1.vertices, v.x = 2 * 2 - 0 → v.y = 2 * 0 - 0 →
      v.freq = '#' ∨ ∃ w ∈ doisA.vertices, w.x = 2 * 2 - 0 ∧ w.y = 2 * 0 - 0) :=
  ⟨fun _ h => Option.noConfusion h, by decide, by decide, by decide, by decide,
   C12_completude doisA blocos (fun _ h => Option.noConfusion h)
     ⟨2, 2, 2, 0, 'A', 0, []⟩ ⟨1, 0, 0, 0, 'A', 0, []⟩ (by decide) (by decide) (by decide)
     rfl (by decide) (by decide) (by decide) (by decide) (by decide)⟩

/-- C13 as stated fails, in two ways.  On the graph `doisA`, whose two vertices
are labelled `'A'` and stand at (2,0) and (0,0), when the allocation of the new
vertex fails `deduzirNefasto` creates no vertex and returns false.  On the graph
`doisAfastados`, whose two vertices are labelled `'A'` and stand at
(-1500000000,0) and (0,0), the reflection `2 * (-1500000000) - 0` overflows an
`int`: the call, with allocations that succeed, creates a `'#'` at
(1294967296,0), and no vertex of the graph has its reflection across another
one there. -/
theorem C13_contra :
    (doisA.vertices.map (fun v => (v.x, v.y, v.freq)) = [(2, 0, 'A'), (0, 0, 'A')] ∧
      deduzirNefasto doisA semBlocos = (doisA, false)) ∧
    (doisAfastados.vertices.map (fun v => (v.x, v.y, v.freq)) =
        [(-1500000000, 0, 'A'), (0, 0, 'A')] ∧
      (deduzirNefasto doisAfastados blocos).1.vertices.map (fun v => (v.x, v.y, v.freq)) =
        [(1500000000, 0, '#'), (1294967296, 0, '#'), (-1500000000, 0, 'A'), (0, 0, 'A')] ∧
      ∀ v1 ∈ doisAfastados.vertices, ∀ v2 ∈ doisAfastados.vertices,
        ¬ ((1294967296 : Int) = 2 * v1.x - v2.x ∧ (0 : Int) = 2 * v1.y - v2.y)) := by
  decide

/-- C13 (amended): for every graph `g`, the vertex list after
`deduzirNefasto(g)` is the list of `g`, unchanged, with new vertices in front of
it; each new vertex has label `'#'`, no edge, no negative coordinate, and, when
no reflection of a vertex of `g` across another with the same label other than
`'#'` overflows an `int`, it lies at the reflection of a vertex of `g` across
another vertex of `g` with the same label other than `'#'`. In particular, for a
graph with exactly two vertices, labelled `'A'`, at (0,0) and (2,0), when the
allocation of the new vertex succeeds, the call creates exactly one vertex, a
`'#'` at (4,0), and returns true. -/
theorem C13_correcao (g : Grafo) (malloc : Nat → Option Bloco) :
    (∃ novos, (deduzirNefasto g malloc).1.vertices = novos ++ g.vertices ∧
      ∀ v ∈ novos, v.freq = '#' ∧ v.arestas = [] ∧ 0 ≤ v.x ∧ 0 ≤ v.y ∧
        (semTransbordo g →
          ∃ (i j : Nat) (v1 v2 : Vertice), i ≠ j ∧ g.vertices[i]? = some v1 ∧
            g.vertices[j]? = some v2 ∧ v1.freq = v2.freq ∧ v1.freq ≠ '#' ∧
            v.x = 2 * v1.x - v2.x ∧ v.y = 2 * v1.y - v2.y)) ∧
    (∀ a b : Vertice, g.vertices = [a, b] → a.freq = 'A' → b.freq = 'A' →
      (a.x = 0 ∧ a.y = 0 ∧ b.x = 2 ∧ b.y = 0) ∨ (a.x = 2 ∧ a.y = 0 ∧ b.x = 0 ∧ b.y = 0) →
      malloc 0 ≠ none →
      (deduzirNefasto g malloc).2 = true ∧
      ∃ novo : Vertice, (deduzirNefasto g malloc).1.vertices = [novo, a, b] ∧
        novo.freq = '#' ∧ novo.x = 4 ∧ novo.y = 0) := by
  constructor
  · obtain ⟨novos, h1, h2, -, -⟩ := deduzirNefasto_cresceu g malloc
    refine ⟨novos, h1, fun v hv => ?_⟩
    obtain ⟨m1, m2, m3, m4, m5⟩ := h2 v hv
    exact ⟨m1, m2, m3, m4, fun hs => reflexo_of_reflexoInt g v.x v.y hs m5⟩
  · intro a b hg ha hb hpos hm
    cases hb0 : malloc 0 with
    | none => exact absurd hb0 hm
    | some blk =>
      obtain ⟨aa, ai, ax, ay, af, av, ae⟩ := a
      obtain ⟨ba, bi, bx, b_y, bf, bv, be⟩ := b
      simp only at ha hb hpos
      subst ha hb
      rcases hpos with ⟨rfl, rfl, rfl, rfl⟩ | ⟨rfl, rfl, rfl, rfl⟩
      · simp [deduzirNefasto, deduzirNefasto.externo, deduzirNefasto.interno,
          deduzirNefasto.par, deduzirNefasto.tentar, AdicionarVertice, ProcurarVertice,
          ProcurarVertice.laco, emInt, hg, hb0]
      · simp [deduzirNefasto, deduzirNefasto.externo, deduzirNefasto.interno,
          deduzirNefasto.par, deduzirNefasto.tentar, AdicionarVertice, ProcurarVertice,
          ProcurarVertice.laco, emInt, hg, hb0]

theorem C13_correcao_witness :
    semTransbordo doisA ∧
    doisA.vertices = [⟨2, 2, 2, 0, 'A', 0, []⟩, ⟨1, 0, 0, 0, 'A', 0, []⟩] ∧ blocos 0 ≠ none ∧
    (∃ novos, (deduzirNefasto doisA blocos).1.vertices = novos ++ doisA.vertices ∧
      ∀ v ∈ novos, v.freq = '#' ∧ v.arestas = [] ∧ 0 ≤ v.x ∧ 0 ≤ v.y ∧
        ∃ (i j : Nat) (v1 v2 : Vertice), i ≠ j ∧ doisA.vertices[i]? = some v1 ∧
          doisA.vertices[j]? = some v2 ∧ v1.freq = v2.freq ∧ v1.freq ≠ '#' ∧
          v.x = 2 * v1.x - v2.x ∧ v.y = 2 * v1.y - v2.y) ∧
    ((deduzirNefasto doisA blocos).2 = true ∧
      ∃ novo : Vertice, (deduzirNefasto doisA blocos).1.vertices =
          [novo, ⟨2, 2, 2, 0, 'A', 0, []⟩, ⟨1, 0, 0, 0, 'A', 0, []⟩] ∧
        novo.freq = '#' ∧ novo.x = 4 ∧ novo.y = 0) := by
  have hs : semTransbordo doisA := by decide
  obtain ⟨⟨novos, h1, h2⟩, h3⟩ := C13_correcao doisA blocos
  refine ⟨hs, by decide, by decide, ⟨novos, h1, fun v hv => ?_⟩, ?_⟩
  · obtain ⟨m1, m2, m3, m4, m5⟩ := h2 v hv
    exact ⟨m1, m2, m3, m4, m5 hs⟩
  · exact h3 ⟨2, 2, 2, 0, 'A', 0, []⟩ ⟨1, 0, 0, 0, 'A', 0, []⟩
      (by decide) rfl rfl (Or.inr ⟨rfl, rfl, rfl, rfl⟩) (by decide)

/-! ## `ligarVerticesComMesmaFrequencia` -/

theorem foldl_estabelece {α σ : Type} (f : σ → α → σ) (Q I : σ → Prop) (x : α)
    (hI : ∀ s a, I s → I (f s a)) (hQ : ∀ s a, I s → Q s → Q (f s a))
    (hx : ∀ s, I s → Q (f s x)) :
    ∀ (l : List α) (s : σ), x ∈ l → I s → Q (l.foldl f s) := by
  have keep : ∀ (l : List α) (s : σ), I s → Q s → Q (l.foldl f s) := by
    intro l
    induction l with
    | nil => intro s _ h; exact h
    | cons a t ih => intro s hi h; exact ih (f s a) (hI s a hi) (hQ s a hi h)
  intro l
  induction l with
  | nil => intro s hm; exact absurd hm (List.not_mem_nil x)
  | cons a t ih =>
    intro s hm hi
    rcases List.mem_cons.mp hm with rfl | hm
    · exact keep t (f s x) (hI s x hi) (hx s hi)
    · exact ih (f s a) hm (hI s a hi)

theorem foldl_invariante {α σ : Type} (f : σ → α → σ) (I : σ → Prop)
    (hI : ∀ s a, I s → I (f s a)) : ∀ (l : List α) (s : σ), I s → I (l.foldl f s) := by
  intro l
  induction l with
  | nil => intro s h; exact h
  | cons a t ih => intro s h; exact ih (f s a) (hI s a h)

/-- What `inserirAresta` does to two nodes of the list at positions `o` and
`d`. -/
theorem inserirAresta_eq (g : Grafo) (o d : Nat) (nova : Bool) :
    inserirAresta g (some o) (some d) nova =
      if endereco g.vertices d ∈ lerArestas g.vertices o then (g, false)
      else if nova = true then
        ({ g with vertices :=
            porArestas g.vertices o (endereco g.vertices d :: lerArestas g.vertices o) }, true)
      else (g, false) := by
  unfold inserirAresta
  simp only [temAresta_iff]

theorem semArestas_inserirAresta (g : Grafo) (o d : Option Nat) (nova : Bool) :
    (inserirAresta g o d nova).1.vertices.map semArestas = g.vertices.map semArestas := by
  unfold inserirAresta
  split
  · split
    · rfl
    · split
      · exact map_porArestas semArestas (fun _ _ => rfl) _ _ _
      · rfl
  · rfl

theorem lerArestas_inserirAresta_mono (g : Grafo) (o d : Option Nat) (nova : Bool) (k a : Nat)
    (h : a ∈ lerArestas g.vertices k) : a ∈ lerArestas (inserirAresta g o d nova).1.vertices k := by
  unfold inserirAresta
  split
  · split
    · exact h
    · split
      · simp only [lerArestas_porArestas]
        split
        · rename_i hk
          rw [hk.1] at h
          exact List.mem_cons_of_mem _ h
        · exact h
      · exact h
  · exact h

theorem inserirAresta_liga (g : Grafo) (o d : Nat) (ho : o < g.vertices.length) :
    endereco g.vertices d ∈ lerArestas (inserirAresta g (some o) (some d) true).1.vertices o := by
  rw [inserirAresta_eq]
  by_cases h : endereco g.vertices d ∈ lerArestas g.vertices o
  · rw [if_pos h]
    exact h
  · rw [if_neg h]
    simp only [if_true, lerArestas_porArestas, ho, and_self]
    exact List.mem_cons_self _ _

theorem inserirAresta_num (g : Grafo) (o d : Nat) (nova : Bool) (ho : o < g.vertices.length) :
    numArestas (inserirAresta g (some o) (some d) nova).1 =
      numArestas g + (if (inserirAresta g (some o) (some d) nova).2 = true then 1 else 0) := by
  rw [inserirAresta_eq]
  by_cases h : endereco g.vertices d ∈ lerArestas g.vertices o
  · simp [if_pos h]
  · rw [if_neg h]
    cases nova with
    | false => simp
    | true =>
      simp only [if_true]
      have := numArestas_porArestas g o (endereco g.vertices d :: lerArestas g.vertices o) ho
      simp only [List.length_cons] at this
      omega

theorem ligar_par_ligou (g : Grafo) (malloc : Nat → Bool) (v1 v2 : Nat) (st : Estado)
    (h : ligou g st) : ligou g (ligarVerticesComMesmaFrequencia.par malloc v1 v2 st) := by
  unfold ligarVerticesComMesmaFrequencia.par
  cases h1 : st.g.vertices[v1]? with
  | none => exact h
  | some n1 =>
    cases h2 : st.g.vertices[v2]? with
    | none => exact h
    | some n2 =>
      have l1 : v1 < st.g.vertices.length := (List.getElem?_eq_some_iff.mp h1).1
      have l2 : v2 < st.g.vertices.length := (List.getElem?_eq_some_iff.mp h2).1
      by_cases hc : n1.freq = n2.freq ∧ n1.freq ≠ '#' ∧ n1.freq ≠ '.'
      · simp only [if_pos hc]
        obtain ⟨f1, f2, f3, f4⟩ := h
        have e1 := inserirAresta_num st.g v1 v2 (malloc st.chamadas) l1
        have e2 := inserirAresta_num (inserirAresta st.g (some v1) (some v2) (malloc st.chamadas)).1
          v2 v1 (malloc (st.chamadas + 1)) (by rw [length_inserirAresta]; exact l2)
        refine ⟨?_, ?_, ?_, ?_⟩
        · exact (semArestas_inserirAresta _ _ _ _).trans
            ((semArestas_inserirAresta _ _ _ _).trans f1)
        · intro k a ha
          exact lerArestas_inserirAresta_mono _ _ _ _ k a
            (lerArestas_inserirAresta_mono _ _ _ _ k a (f2 k a ha))
        · simp only
          omega
        · simp only [Bool.or_eq_true]
          rw [f4]
          constructor
          · rintro ((h5 | h5) | h5)
            · omega
            · rw [if_pos h5] at e1
              omega
            · rw [if_pos h5] at e2
              omega
          · intro h5
            by_cases b1 : (inserirAresta st.g (some v1) (some v2) (malloc st.chamadas)).2 = true
            · exact Or.inl (Or.inr b1)
            · by_cases b2 : (inserirAresta
                  (inserirAresta st.g (some v1) (some v2) (malloc st.chamadas)).1
                  (some v2) (some v1) (malloc (st.chamadas + 1))).2 = true
              · exact Or.inr b2
              · rw [if_neg b1] at e1
                rw [if_neg b2] at e2
                left
                left
                omega
      · simp only [if_neg hc]
        exact h

theorem ligar_par_forma (malloc : Nat → Bool) (v1 v2 : Nat) (st : Estado) :
    (ligarVerticesComMesmaFrequencia.par malloc v1 v2 st).g.vertices.map semArestas =
      st.g.vertices.map semArestas ∧
    ∀ k a, a ∈ lerArestas st.g.vertices k →
      a ∈ lerArestas (ligarVerticesComMesmaFrequencia.par malloc v1 v2 st).g.vertices k := by
  unfold ligarVerticesComMesmaFrequencia.par
  split
  · split
    · refine ⟨(semArestas_inserirAresta _ _ _ _).trans (semArestas_inserirAresta _ _ _ _), ?_⟩
      intro k a ha
      exact lerArestas_inserirAresta_mono _ _ _ _ k a
        (lerArestas_inserirAresta_mono _ _ _ _ k a ha)
    · exact ⟨rfl, fun _ _ h => h⟩
  · exact ⟨rfl, fun _ _ h => h⟩

theorem freq_of_semArestas {cur vs : List Vertice}
    (h : cur.map semArestas = vs.map semArestas) {k : Nat} {c v : Vertice}
    (hc : cur[k]? = some c) (hv : vs[k]? = some v) : c.freq = v.freq := by
  have := getElem?_of_semArestas h k
  rw [hc, hv] at this
  simp only [Option.map_some', Option.some.injEq] at this
  rw [this]

/-- When `malloc` succeeds, the body of the inner loop for the positions `i`
and `j` of two nodes with the same label, neither `'#'` nor `'.'`, leaves each
of the two nodes with an edge to the other. -/
theorem ligar_par_liga (g : Grafo) (malloc : Nat → Bool) (hm : ∀ n, malloc n = true)
    (i j : Nat) (vi vj : Vertice) (hi : g.vertices[i]? = some vi) (hj : g.vertices[j]? = some vj)
    (hf : vi.freq = vj.freq ∧ vi.freq ≠ '#' ∧ vi.freq ≠ '.') (st : Estado)
    (hs : st.g.vertices.map semArestas = g.vertices.map semArestas) :
    vj.addr ∈ lerArestas (ligarVerticesComMesmaFrequencia.par malloc i j st).g.vertices i ∧
    vi.addr ∈ lerArestas (ligarVerticesComMesmaFrequencia.par malloc i j st).g.vertices j := by
  have hlen := length_of_semArestas hs
  have li : i < st.g.vertices.length := by
    rw [hlen]; exact (List.getElem?_eq_some_iff.mp hi).1
  have lj : j < st.g.vertices.length := by
    rw [hlen]; exact (List.getElem?_eq_some_iff.mp hj).1
  have ci : st.g.vertices[i]? = some (st.g.vertices[i]) := List.getElem?_eq_getElem li
  have cj : st.g.vertices[j]? = some (st.g.vertices[j]) := List.getElem?_eq_getElem lj
  have fi := freq_of_semArestas hs ci hi
  have fj := freq_of_semArestas hs cj hj
  have hc : (st.g.vertices[i]).freq = (st.g.vertices[j]).freq ∧
      (st.g.vertices[i]).freq ≠ '#' ∧ (st.g.vertices[i]).freq ≠ '.' := by
    rw [fi, fj]
    exact hf
  have ei : endereco st.g.vertices i = vi.addr := by
    rw [endereco_of_semArestas hs, endereco_of_getElem hi]
  have ej : endereco st.g.vertices j = vj.addr := by
    rw [endereco_of_semArestas hs, endereco_of_getElem hj]
  unfold ligarVerticesComMesmaFrequencia.par
  simp only [ci, cj, if_pos hc, hm]
  constructor
  · apply lerArestas_inserirAresta_mono
    rw [← ej]
    exact inserirAresta_liga st.g i j li
  · have := inserirAresta_liga (inserirAresta st.g (some i) (some j) true).1 j i
      (by rw [length_inserirAresta]; exact lj)
    rw [endereco_of_semArestas (semArestas_inserirAresta st.g (some i) (some j) true), ei] at this
    exact this

theorem ligar_interno_forma (malloc : Nat → Bool) (v1 : Nat) (l : List Nat) (st : Estado) :
    (l.foldl (fun st v2 => ligarVerticesComMesmaFrequencia.par malloc v1 v2 st) st).g.vertices.map
        semArestas = st.g.vertices.map semArestas ∧
    ∀ k a, a ∈ lerArestas st.g.vertices k →
      a ∈ lerArestas
        (l.foldl (fun st v2 => ligarVerticesComMesmaFrequencia.par malloc v1 v2 st) st).g.vertices
        k := by
  induction l generalizing st with
  | nil => exact ⟨rfl, fun _ _ h => h⟩
  | cons a t ih =>
    obtain ⟨p1, p2⟩ := ligar_par_forma malloc v1 a st
    obtain ⟨i1, i2⟩ := ih (ligarVerticesComMesmaFrequencia.par malloc v1 a st)
    simp only [List.foldl_cons]
    exact ⟨i1.trans p1, fun k b hb => i2 k b (p2 k b hb)⟩

/-- When `malloc` succeeds, after `ligarVerticesComMesmaFrequencia` two nodes at
positions `i < j` with the same label, neither `'#'` nor `'.'`, have an edge to
each other. -/
theorem ligar_liga (g : Grafo) (malloc : Nat → Bool) (hm : ∀ n, malloc n = true)
    (i j : Nat) (vi vj : Vertice) (hij : i < j) (hi : g.vertices[i]? = some vi)
    (hj : g.vertices[j]? = some vj)
    (hf : vi.freq = vj.freq ∧ vi.freq ≠ '#' ∧ vi.freq ≠ '.') :
    vj.addr ∈ lerArestas (ligarVerticesComMesmaFrequencia g malloc).1.vertices i ∧
    vi.addr ∈ lerArestas (ligarVerticesComMesmaFrequencia g malloc).1.vertices j := by
  have li : i < g.vertices.length := (List.getElem?_eq_some_iff.mp hi).1
  have lj : j < g.vertices.length := (List.getElem?_eq_some_iff.mp hj).1
  unfold ligarVerticesComMesmaFrequencia
  apply foldl_estabelece
    (fun st v1 =>
      (List.range' (v1 + 1) (g.vertices.length - (v1 + 1))).foldl
        (fun st v2 => ligarVerticesComMesmaFrequencia.par malloc v1 v2 st) st)
    (fun st => vj.addr ∈ lerArestas st.g.vertices i ∧ vi.addr ∈ lerArestas st.g.vertices j)
    (fun st => st.g.vertices.map semArestas = g.vertices.map semArestas) i
  · intro st v1 hs
    exact (ligar_interno_forma malloc v1 _ st).1.trans hs
  · intro st v1 _ hq
    exact ⟨(ligar_interno_forma malloc v1 _ st).2 i _ hq.1,
      (ligar_interno_forma malloc v1 _ st).2 j _ hq.2⟩
  · intro st hs
    apply foldl_estabelece
      (fun st v2 => ligarVerticesComMesmaFrequencia.par malloc i v2 st)
      (fun st => vj.addr ∈ lerArestas st.g.vertices i ∧ vi.addr ∈ lerArestas st.g.vertices j)
      (fun st => st.g.vertices.map semArestas = g.vertices.map semArestas) j
    · intro s a hs2
      exact (ligar_par_forma malloc i a s).1.trans hs2
    · intro s a _ hq
      exact ⟨(ligar_par_forma malloc i a s).2 i _ hq.1, (ligar_par_forma malloc i a s).2 j _ hq.2⟩
    · intro s hs2
      exact ligar_par_liga g malloc hm i j vi vj hi hj hf s hs2
    · rw [List.mem_range'_1]
      omega
    · exact hs
  · exact List.mem_range.mpr li
  · rfl

theorem ligar_ligou (g : Grafo) (malloc : Nat → Bool) :
    ligou g
      ((List.range g.vertices.length).foldl
        (fun st v1 =>
          (List.range' (v1 + 1) (g.vertices.length - (v1 + 1))).foldl
            (fun st v2 => ligarVerticesComMesmaFrequencia.par malloc v1 v2 st) st)
        { g := g, modificou := false, chamadas := 0 }) := by
  apply foldl_invariante _ (ligou g)
  · intro st v1 h
    apply foldl_invariante _ (ligou g) _ _ _ h
    intro s v2 hs
    exact ligar_par_ligou g malloc v1 v2 s hs
  · exact ⟨rfl, fun _ _ h => h, le_refl _, by simp⟩

theorem ligar_tres (g : Grafo) (malloc : Nat → Bool) (hm : ∀ n, malloc n = true)
    (a b c : Vertice) (hg : g.vertices = [a, b, c])
    (hab : a.freq = b.freq) (hbc : b.freq = c.freq) (h1 : a.freq ≠ '#') (h2 : a.freq ≠ '.')
    (ea : a.arestas = []) (eb : b.arestas = []) (ec : c.arestas = [])
    (nab : a.addr ≠ b.addr) (nac : a.addr ≠ c.addr) (nbc : b.addr ≠ c.addr) :
    numArestas (ligarVerticesComMesmaFrequencia g malloc).1 = 6 := by
  obtain ⟨aa, ai, ax, ay, af, av, ae⟩ := a
  obtain ⟨ba, bi, bx, b_y, bf, bv, be⟩ := b
  obtain ⟨ca, ci, cx, cy, cf, cv, ce⟩ := c
  simp only at hab hbc h1 h2 ea eb ec nab nac nbc
  subst hab hbc ea eb ec
  have r3 : List.range 3 = [0, 1, 2] := rfl
  have r0 : List.range' 1 2 = [1, 2] := rfl
  have r1 : List.range' 2 1 = [2] := rfl
  have r2 : List.range' 3 0 = [] := rfl
  have nba : ba ≠ aa := fun e => nab e.symm
  have nca : ca ≠ aa := fun e => nac e.symm
  have ncb : ca ≠ ba := fun e => nbc e.symm
  obtain ⟨vs, nv, tp⟩ := g
  simp only at hg
  subst hg
  unfold ligarVerticesComMesmaFrequencia
  simp only [List.length_cons, List.length_nil, r3, List.foldl_cons, List.foldl_nil]
  simp [r0, r1, r2, ligarVerticesComMesmaFrequencia.par, inserirAresta, temAresta, endereco,
    lerArestas, porArestas, hm, h1, h2, numArestas, nab, nac, nbc, nba, nca, ncb]

/-- C14 as stated fails: the graph `tresA` has three vertices labelled `'A'` and
no edge; when the allocation of the `Aresta` nodes fails
`ligarVerticesComMesmaFrequencia` returns false and leaves it without any
edge. -/
theorem C14_contra :
    tresA.vertices.map (fun v => (v.freq, v.arestas)) = [('A', []), ('A', []), ('A', [])] ∧
    ligarVerticesComMesmaFrequencia tresA nunca = (tresA, false) ∧ numArestas tresA = 0 := by
  decide

/-- C14 (amended): for every graph `g`, (1) when every allocation of an edge
succeeds, after `ligarVerticesComMesmaFrequencia(g)` any two distinct nodes
with the same label, neither `'#'` nor `'.'`, have an edge to each other, and
(2) on a graph of exactly three nodes (at three addresses) that share such a
label and have no edge this gives exactly 6 directed edges; (3) whatever the
allocations do, the function returns true exactly when the number of edges has
grown. -/
theorem C14_ligacao (g : Grafo) (malloc : Nat → Bool) :
    ((∀ n, malloc n = true) → ∀ (i j : Nat) (vi vj : Vertice), i ≠ j →
      g.vertices[i]? = some vi → g.vertices[j]? = some vj →
      vi.freq = vj.freq → vi.freq ≠ '#' → vi.freq ≠ '.' →
      vj.addr ∈ lerArestas (ligarVerticesComMesmaFrequencia g malloc).1.vertices i ∧
      vi.addr ∈ lerArestas (ligarVerticesComMesmaFrequencia g malloc).1.vertices j) ∧
    ((∀ n, malloc n = true) → ∀ a b c : Vertice, g.vertices = [a, b, c] →
      a.freq = b.freq → b.freq = c.freq → a.freq ≠ '#' → a.freq ≠ '.' →
      a.arestas = [] → b.arestas = [] → c.arestas = [] →
      a.addr ≠ b.addr → a.addr ≠ c.addr → b.addr ≠ c.addr →
      numArestas (ligarVerticesComMesmaFrequencia g malloc).1 = 6) ∧
    ((ligarVerticesComMesmaFrequencia g malloc).2 = true ↔
      numArestas g < numArestas (ligarVerticesComMesmaFrequencia g malloc).1) ∧
    (ligarVerticesComMesmaFrequencia g malloc).1.vertices.map
        (fun v => { v with arestas := [] }) =
      g.vertices.map (fun v => { v with arestas := [] }) := by
  refine ⟨?_, ?_, (ligar_ligou g malloc).2.2.2, (ligar_ligou g malloc).1⟩
  · intro hm i j vi vj hij hi hj hf h1 h2
    rcases Nat.lt_or_gt_of_ne hij with h | h
    · exact ligar_liga g malloc hm i j vi vj h hi hj ⟨hf, h1, h2⟩
    · exact (ligar_liga g malloc hm j i vj vi h hj hi ⟨hf.symm, hf ▸ h1, hf ▸ h2⟩).symm
  · intro hm a b c hg hab hbc h1 h2 ea eb ec nab nac nbc
    exact ligar_tres g malloc hm a b c hg hab hbc h1 h2 ea eb ec nab nac nbc

theorem C14_ligacao_witness :
    (∀ n, sempre n = true) ∧
    tresA.vertices = [⟨3, 4, 2, 0, 'A', 0, []⟩, ⟨2, 2, 1, 0, 'A', 0, []⟩, ⟨1, 0, 0, 0, 'A', 0, []⟩] ∧
    (2 ∈ lerArestas (ligarVerticesComMesmaFrequencia tresA sempre).1.vertices 0 ∧
      3 ∈ lerArestas (ligarVerticesComMesmaFrequencia tresA sempre).1.vertices 1) ∧
    numArestas (ligarVerticesComMesmaFrequencia tresA sempre).1 = 6 ∧
    ((ligarVerticesComMesmaFrequencia tresA sempre).2 = true ↔
      numArestas tresA < numArestas (ligarVerticesComMesmaFrequencia tresA sempre).1) :=
  ⟨fun _ => rfl, by decide,
   (C14_ligacao tresA sempre).1 (fun _ => rfl) 0 1 ⟨3, 4, 2, 0, 'A', 0, []⟩
     ⟨2, 2, 1, 0, 'A', 0, []⟩ (by decide) (by decide) (by decide) rfl (by decide) (by decide),
   (C14_ligacao tresA sempre).2.1 (fun _ => rfl) ⟨3, 4, 2, 0, 'A', 0, []⟩
     ⟨2, 2, 1, 0, 'A', 0, []⟩ ⟨1, 0, 0, 0, 'A', 0, []⟩ (by decide) rfl rfl (by decide) (by decide)
     rfl rfl rfl (by decide) (by decide) (by decide),
   (C14_ligacao tresA sempre).2.2.1⟩

/-! ## `gerarMatrizGrafo` -/

theorem maximos_x : ∀ (vs : List Vertice) (m : Int × Int),
    m.1 ≤ (gerarMatrizGrafo.maximos vs m).1 ∧
    (∀ v ∈ vs, v.x ≤ (gerarMatrizGrafo.maximos vs m).1) ∧
    ((gerarMatrizGrafo.maximos vs m).1 = m.1 ∨
      ∃ v ∈ vs, v.x = (gerarMatrizGrafo.maximos vs m).1)
  | [], m => by simp [gerarMatrizGrafo.maximos]
  | v :: resto, m => by
    simp only [gerarMatrizGrafo.maximos]
    have ha : m.1 ≤ (if v.x > m.1 then v.x else m.1) ∧ v.x ≤ (if v.x > m.1 then v.x else m.1) ∧
        ((if v.x > m.1 then v.x else m.1) = m.1 ∨ (if v.x > m.1 then v.x else m.1) = v.x) := by
      split_ifs <;> omega
    generalize (if v.x > m.1 then v.x else m.1) = a at ha ⊢
    generalize (if v.y > m.2 then v.y else m.2) = b
    obtain ⟨h1, h2, h3⟩ := maximos_x resto (a, b)
    simp only at h1 h3
    refine ⟨by omega, ?_, ?_⟩
    · intro w hw
      rcases List.mem_cons.1 hw with e | hw
      · rw [e]
        omega
      · exact h2 w hw
    · rcases h3 with h3 | ⟨w, hw, e⟩
      · rcases ha.2.2 with e | e
        · exact Or.inl (h3.trans e)
        · exact Or.inr ⟨v, List.mem_cons_self _ _, (h3.trans e).symm⟩
      · exact Or.inr ⟨w, List.mem_cons_of_mem _ hw, e⟩

theorem maximos_y : ∀ (vs : List Vertice) (m : Int × Int),
    m.2 ≤ (gerarMatrizGrafo.maximos vs m).2 ∧
    (∀ v ∈ vs, v.y ≤ (gerarMatrizGrafo.maximos vs m).2) ∧
    ((gerarMatrizGrafo.maximos vs m).2 = m.2 ∨
      ∃ v ∈ vs, v.y = (gerarMatrizGrafo.maximos vs m).2)
  | [], m => by simp [gerarMatrizGrafo.maximos]
  | v :: resto, m => by
    simp only [gerarMatrizGrafo.maximos]
    have ha : m.2 ≤ (if v.y > m.2 then v.y else m.2) ∧ v.y ≤ (if v.y > m.2 then v.y else m.2) ∧
        ((if v.y > m.2 then v.y else m.2) = m.2 ∨ (if v.y > m.2 then v.y else m.2) = v.y) := by
      split_ifs <;> omega
    generalize (if v.y > m.2 then v.y else m.2) = b at ha ⊢
    generalize (if v.x > m.1 then v.x else m.1) = a
    obtain ⟨h1, h2, h3⟩ := maximos_y resto (a, b)
    simp only at h1 h3
    refine ⟨by omega, ?_, ?_⟩
    · intro w hw
      rcases List.mem_cons.1 hw with e | hw
      · rw [e]
        omega
      · exact h2 w hw
    · rcases h3 with h3 | ⟨w, hw, e⟩
      · rcases ha.2.2 with e | e
        · exact Or.inl (h3.trans e)
        · exact Or.inr ⟨v, List.mem_cons_self _ _, (h3.trans e).symm⟩
      · exact Or.inr ⟨w, List.mem_cons_of_mem _ hw, e⟩

/-- The first loop of `gerarMatrizGrafo` finds the largest `x` when no `x` is
negative. -/
theorem maximos_fst (vs : List Vertice) (hn : ∀ v ∈ vs, 0 ≤ v.x) (mx : Int)
    (hx : maximoDe (vs.map (fun v => v.x)) mx) :
    (gerarMatrizGrafo.maximos vs (0, 0)).1 = mx := by
  obtain ⟨h1, h2, h3⟩ := maximos_x vs (0, 0)
  simp only at h1 h3
  by_cases he : vs = []
  · subst he
    simpa [gerarMatrizGrafo.maximos] using (hx.1 rfl).symm
  · have hne : vs.map (fun v => v.x) ≠ [] := by simpa using he
    obtain ⟨hm, hmax⟩ := hx.2 hne
    obtain ⟨w, hw, rfl⟩ := List.mem_map.1 hm
    have ha := h2 w hw
    rcases h3 with h3 | ⟨u, hu, e⟩
    · have := hn w hw
      omega
    · have := hmax u.x (List.mem_map.2 ⟨u, hu, rfl⟩)
      omega

theorem maximos_snd (vs : List Vertice) (hn : ∀ v ∈ vs, 0 ≤ v.y) (my : Int)
    (hy : maximoDe (vs.map (fun v => v.y)) my) :
    (gerarMatrizGrafo.maximos vs (0, 0)).2 = my := by
  obtain ⟨h1, h2, h3⟩ := maximos_y vs (0, 0)
  simp only at h1 h3
  by_cases he : vs = []
  · subst he
    simpa [gerarMatrizGrafo.maximos] using (hy.1 rfl).symm
  · have hne : vs.map (fun v => v.y) ≠ [] := by simpa using he
    obtain ⟨hm, hmax⟩ := hy.2 hne
    obtain ⟨w, hw, rfl⟩ := List.mem_map.1 hm
    have ha := h2 w hw
    rcases h3 with h3 | ⟨u, hu, e⟩
    · have := hn w hw
      omega
    · have := hmax u.y (List.mem_map.2 ⟨u, hu, rfl⟩)
      omega

/-- The largest coordinate of a graph without negative coordinates is not
negative. -/
theorem maximoDe_nonneg (l : List Int) (hn : ∀ a ∈ l, 0 ≤ a) (m : Int) (h : maximoDe l m) :
    0 ≤ m := by
  by_cases he : l = []
  · rw [h.1 he]
  · exact hn m (h.2 he).1

theorem escrever_meio (pre suf : List Char) (c0 c : Char) (i : Int)
    (hi : i = (pre.length : Int)) :
    escrever (pre ++ c0 :: suf) i c = some (pre ++ c :: suf) := by
  subst hi
  unfold escrever
  rw [if_pos]
  · simp
  · constructor
    · exact Int.ofNat_nonneg _
    · simp only [List.length_append, List.length_cons]
      omega

/-- Writing `n` bytes one after the other replaces them all. -/
theorem encher (f : Nat → Char) (idx : Nat → Int) : ∀ (n : Nat) (pre old suf : List Char),
    old.length = n → (∀ i, i < n → idx i = ((pre.length + i : Nat) : Int)) →
    (List.range n).foldlM (fun b (i : Nat) => escrever b (idx i) (f i)) (pre ++ old ++ suf) =
      some (pre ++ (List.range n).map f ++ suf)
  | 0, pre, old, suf, ho, _ => by
    have : old = [] := List.length_eq_zero.1 ho
    simp [this]
  | n + 1, pre, old, suf, ho, hi => by
    have hne : old ≠ [] := by
      intro e
      simp [e] at ho
    have ho2 := ho
    rw [← List.dropLast_concat_getLast hne] at ho2 ⊢
    have hl : old.dropLast.length = n := by simpa using ho2
    have ih := encher f idx n pre old.dropLast ([old.getLast hne] ++ suf) hl
      (fun i h => hi i (by omega))
    have e1 : pre ++ (old.dropLast ++ [old.getLast hne]) ++ suf =
        pre ++ old.dropLast ++ ([old.getLast hne] ++ suf) := by simp
    rw [List.range_succ, List.foldlM_append, e1, ih]
    have hw := escrever_meio (pre ++ (List.range n).map f) suf (old.getLast hne) (f n) (idx n)
      (by rw [hi n (by omega)]; simp)
    simpa using hw

theorem desenhar_succ (f : Int → Int → Char) (C L : Nat) :
    desenhar f C (L + 1) =
      desenhar f C L ++ ((List.range C).map (fun (x : Nat) => f (x : Int) (L : Int)) ++ ['\n']) := by
  simp [desenhar, List.range_succ]

theorem desenhar_zero (f : Int → Int → Char) (C : Nat) : desenhar f C 0 = [] := by
  simp [desenhar]

theorem length_desenhar (f : Int → Int → Char) (C : Nat) :
    ∀ L, (desenhar f C L).length = L * (C + 1)
  | 0 => by simp [desenhar_zero]
  | L + 1 => by
    rw [desenhar_succ, List.length_append, length_desenhar f C L]
    simp only [List.length_append, List.length_map, List.length_range, List.length_singleton]
    rw [Nat.succ_mul]

theorem desenhar_congr (f h : Int → Int → Char) (C : Nat) :
    ∀ L, (∀ x y : Nat, x < C → y < L → f x y = h x y) → desenhar f C L = desenhar h C L
  | 0, _ => by simp [desenhar_zero]
  | L + 1, hh => by
    rw [desenhar_succ, desenhar_succ,
      desenhar_congr f h C L (fun x y hx hy => hh x y hx (by omega))]
    congr 2
    apply List.map_congr_left
    intro x hx
    exact hh x L (List.mem_range.1 hx) (by omega)

/-- One round of the loop on `y` writes row `y`. -/
theorem linha_ok (C y : Nat) (pre old suf : List Char) (hp : pre.length = y * (C + 1))
    (ho : old.length = C + 1) :
    gerarMatrizGrafo.linha (C : Int) (y : Int) (pre ++ old ++ suf) =
      some (pre ++ ((List.range C).map (fun _ => '.') ++ ['\n']) ++ suf) := by
  have hne : old ≠ [] := by
    intro e
    simp [e] at ho
  have ho2 := ho
  rw [← List.dropLast_concat_getLast hne] at ho2 ⊢
  have hl : old.dropLast.length = C := by simpa using ho2
  have h1 := encher (fun _ => '.') (fun (x : Nat) => (y : Int) * ((C : Int) + 1) + (x : Int)) C
    pre old.dropLast ([old.getLast hne] ++ suf) hl
    (by
      intro i _
      rw [hp]
      push_cast
      ring)
  have e1 : pre ++ (old.dropLast ++ [old.getLast hne]) ++ suf =
      pre ++ old.dropLast ++ ([old.getLast hne] ++ suf) := by simp
  unfold gerarMatrizGrafo.linha
  rw [Int.toNat_ofNat, e1, h1, Option.some_bind]
  have hw := escrever_meio (pre ++ (List.range C).map (fun _ => '.')) suf (old.getLast hne) '\n'
    ((y : Int) * ((C : Int) + 1) + (C : Int))
    (by
      simp only [List.length_append, List.length_map, List.length_range, hp]
      push_cast
      ring)
  simpa using hw

/-- The loop on `y` writes the drawing of the empty grid. -/
theorem preencher_laco (C : Nat) : ∀ (L : Nat) (old suf : List Char), old.length = L * (C + 1) →
    (List.range L).foldlM
        (fun b (y : Nat) => gerarMatrizGrafo.linha (C : Int) (y : Int) b) (old ++ suf) =
      some (desenhar (fun _ _ => '.') C L ++ suf)
  | 0, old, suf, ho => by
    have : old = [] := List.length_eq_zero.1 (by simpa using ho)
    simp [this, desenhar_zero]
  | L + 1, old, suf, ho => by
    have hs : old = old.take (L * (C + 1)) ++ old.drop (L * (C + 1)) :=
      (List.take_append_drop _ _).symm
    have h1 : (old.take (L * (C + 1))).length = L * (C + 1) := by
      rw [List.length_take, ho, Nat.succ_mul]
      omega
    have h2 : (old.drop (L * (C + 1))).length = C + 1 := by
      rw [List.length_drop, ho, Nat.succ_mul]
      omega
    have ih := preencher_laco C L (old.take (L * (C + 1))) (old.drop (L * (C + 1)) ++ suf) h1
    have hl := linha_ok C L (desenhar (fun _ _ => '.') C L) (old.drop (L * (C + 1))) suf
      (length_desenhar _ C L) h2
    rw [List.range_succ, List.foldlM_append]
    conv_lhs => rw [hs, List.append_assoc, ih]
    simp only [Option.some_bind, bind, List.foldlM_cons, List.foldlM_nil, pure, Option.bind_some]
    rw [← List.append_assoc, hl, desenhar_succ]

theorem preencher_ok (C L : Nat) (old suf : List Char) (ho : old.length = L * (C + 1)) :
    gerarMatrizGrafo.preencher (L : Int) (C : Int) (old ++ suf) =
      some (desenhar (fun _ _ => '.') C L ++ suf) := by
  unfold gerarMatrizGrafo.preencher
  rw [Int.toNat_ofNat]
  exact preencher_laco C L old suf ho

theorem set_map_range (h : Nat → Char) (C x : Nat) (c : Char) :
    ((List.range C).map h).set x c = (List.range C).map (fun i => if i = x then c else h i) := by
  apply List.ext_getElem?
  intro i
  rw [List.getElem?_set]
  by_cases hi : i < C
  · by_cases hx : x = i
    · subst hx
      simp [List.getElem?_map, List.getElem?_range hi, hi]
    · have hx2 : ¬ i = x := fun e => hx e.symm
      simp [List.getElem?_map, List.getElem?_range hi, hx, hx2]
  · have : C ≤ i := Nat.le_of_not_lt hi
    have hn : ((List.range C).map h)[i]? = none := by
      rw [List.getElem?_eq_none]
      simpa using this
    have hn2 : ((List.range C).map (fun i => if i = x then c else h i))[i]? = none := by
      rw [List.getElem?_eq_none]
      simpa using this
    rw [hn, hn2]
    by_cases hx : x = i
    · subst hx
      simp [hi]
    · simp [hx]

/-- One byte written in the drawing changes the character of one cell. -/
theorem set_desenhar (f : Int → Int → Char) (C x y : Nat) (c : Char) (hx : x < C) :
    ∀ L, y < L → ∀ z : List Char, (desenhar f C L ++ z).set (y * (C + 1) + x) c =
      desenhar (comRotulo f x y c) C L ++ z
  | 0, hy, _ => absurd hy (Nat.not_lt_zero _)
  | L + 1, hy, z => by
    rw [desenhar_succ, desenhar_succ, List.append_assoc (desenhar f C L),
      List.append_assoc (desenhar (comRotulo f x y c) C L)]
    by_cases hl : y < L
    · have ih := set_desenhar f C x y c hx L hl
        (((List.range C).map (fun (x : Nat) => f (x : Int) (L : Int)) ++ ['\n']) ++ z)
      have hR : (List.range C).map (fun (a : Nat) => comRotulo f x y c (a : Int) (L : Int)) =
          (List.range C).map (fun (a : Nat) => f (a : Int) (L : Int)) := by
        apply List.map_congr_left
        intro i _
        have : ¬ ((L : Int) = (y : Int)) := by omega
        simp [comRotulo, this]
      rw [hR]
      exact ih
    · have hyl : y = L := by omega
      subst hyl
      have hc : desenhar (comRotulo f x y c) C y = desenhar f C y :=
        desenhar_congr _ _ C y (fun a b _ hb => by
          have : ¬ ((b : Int) = (y : Int)) := by omega
          simp [comRotulo, this])
      have hR : (List.range C).map (fun (a : Nat) => comRotulo f x y c (a : Int) (y : Int)) =
          (List.range C).map (fun i => if i = x then c else f (i : Int) (y : Int)) := by
        apply List.map_congr_left
        intro i _
        by_cases hi : i = x
        · simp [comRotulo, hi]
        · have : ¬ ((i : Int) = (x : Int)) := by omega
          simp [comRotulo, hi, this]
      rw [hc, hR, List.set_append_right _ _ (by rw [length_desenhar]; omega), length_desenhar,
        Nat.add_sub_cancel_left, List.append_assoc,
        List.set_append_left _ _ (by simpa using hx), set_map_range, List.append_assoc]

/-- The last loop of `gerarMatrizGrafo` writes the labels in the drawing, when
every node is inside the grid. -/
theorem rotulos_ok (C L : Nat) (z : List Char) : ∀ (vs : List Vertice) (f : Int → Int → Char),
    (∀ v ∈ vs, 0 ≤ v.x ∧ v.x < C ∧ 0 ≤ v.y ∧ v.y < L) →
    gerarMatrizGrafo.rotulos (C : Int) vs (desenhar f C L ++ z) =
      some (desenhar (rotular vs f) C L ++ z)
  | [], f, _ => rfl
  | v :: resto, f, h => by
    obtain ⟨hx0, hxC, hy0, hyL⟩ := h v (List.mem_cons_self _ _)
    obtain ⟨x, ex⟩ := Int.eq_ofNat_of_zero_le hx0
    obtain ⟨y, ey⟩ := Int.eq_ofNat_of_zero_le hy0
    have hx : x < C := by omega
    have hy : y < L := by omega
    have hb : y * (C + 1) + x < L * (C + 1) :=
      calc y * (C + 1) + x < y * (C + 1) + (C + 1) := by omega
        _ = (y + 1) * (C + 1) := by rw [Nat.succ_mul]
        _ ≤ L * (C + 1) := Nat.mul_le_mul_right _ hy
    have hi : v.y * ((C : Int) + 1) + v.x = ((y * (C + 1) + x : Nat) : Int) := by
      rw [ex, ey]
      push_cast
      ring
    have hlen : ((y * (C + 1) + x : Nat) : Int) < ((desenhar f C L ++ z).length : Int) := by
      rw [List.length_append, length_desenhar]
      omega
    have ih := rotulos_ok C L z resto (comRotulo f x y v.freq)
      (fun w hw => h w (List.mem_cons_of_mem _ hw))
    simp only [gerarMatrizGrafo.rotulos, rotular]
    rw [hi]
    unfold escrever
    rw [if_pos ⟨Int.ofNat_nonneg _, hlen⟩, Option.some_bind, Int.toNat_ofNat,
      set_desenhar f C x y v.freq hx L hy z, ih, ex, ey]

/-- With unique coordinates the labels written are those of `celula`. -/
theorem rotular_eq (x y : Int) : ∀ (vs : List Vertice) (f : Int → Int → Char),
    (vs.map coord).Nodup →
    rotular vs f x y =
      match vs.find? (fun v => decide (v.x = x ∧ v.y = y)) with
      | some v => v.freq
      | none => f x y
  | [], f, _ => rfl
  | v :: resto, f, hn => by
    rw [List.map_cons, List.nodup_cons] at hn
    simp only [rotular]
    rw [rotular_eq x y resto _ hn.2, List.find?_cons]
    by_cases hv : v.x = x ∧ v.y = y
    · have hnone : resto.find? (fun w => decide (w.x = x ∧ w.y = y)) = none := by
        rw [List.find?_eq_none]
        intro w hw hd
        have hd2 : w.x = x ∧ w.y = y := by simpa using hd
        apply hn.1
        refine List.mem_map.2 ⟨w, hw, ?_⟩
        simp [coord, hd2.1, hd2.2, hv.1, hv.2]
      rw [hnone]
      simp [hv, comRotulo]
    · have hv2 : ¬ (x = v.x ∧ y = v.y) := fun e => hv ⟨e.1.symm, e.2.symm⟩
      simp only [hv, decide_False, comRotulo, hv2, if_false]

/-- The buffer returned by `gerarMatrizGrafo` is the drawing of the graph and a
final NUL. -/
theorem gerar_texto (g : Grafo) (lixo : Nat → Char) (hu : coordenadasUnicas g)
    (hn : naoNegativas g) (mx my : Int) (hx : maximoDe (g.vertices.map (fun v => v.x)) mx)
    (hy : maximoDe (g.vertices.map (fun v => v.y)) my)
    (ht : (my + 1) * (mx + 2) + 1 ≤ INT_MAX) :
    gerarMatrizGrafo g (some lixo) = Matriz.texto (desenho g mx my ++ [Char.ofNat 0]) := by
  have h1 := maximos_fst g.vertices (fun v hv => (hn v hv).1) mx hx
  have h2 := maximos_snd g.vertices (fun v hv => (hn v hv).2) my hy
  have hmx : 0 ≤ mx := maximoDe_nonneg _
    (fun a ha => by
      obtain ⟨v, hv, rfl⟩ := List.mem_map.1 ha
      exact (hn v hv).1) mx hx
  have hmy : 0 ≤ my := maximoDe_nonneg _
    (fun a ha => by
      obtain ⟨v, hv, rfl⟩ := List.mem_map.1 ha
      exact (hn v hv).2) my hy
  obtain ⟨C, hC⟩ : ∃ C : Nat, mx + 1 = (C : Int) :=
    ⟨(mx + 1).toNat, (Int.toNat_of_nonneg (by omega)).symm⟩
  obtain ⟨L, hL⟩ : ∃ L : Nat, my + 1 = (L : Int) :=
    ⟨(my + 1).toNat, (Int.toNat_of_nonneg (by omega)).symm⟩
  have ht2 : (L : Int) * ((C : Int) + 1) + 1 ≤ INT_MAX := by
    rw [← hC, ← hL]
    have : mx + 1 + 1 = mx + 2 := by ring
    rw [this]
    exact ht
  have hT : ((L : Int) * ((C : Int) + 1) + 1).toNat = L * (C + 1) + 1 := by
    have : (L : Int) * ((C : Int) + 1) + 1 = ((L * (C + 1) + 1 : Nat) : Int) := by
      push_cast
      ring
    rw [this, Int.toNat_ofNat]
  have hdentro : ∀ v ∈ g.vertices, 0 ≤ v.x ∧ v.x < C ∧ 0 ≤ v.y ∧ v.y < L := by
    intro v hv
    have hne1 : g.vertices.map (fun v => v.x) ≠ [] := by
      intro e
      rw [List.map_eq_nil_iff] at e
      rw [e] at hv
      exact absurd hv (List.not_mem_nil _)
    have hne2 : g.vertices.map (fun v => v.y) ≠ [] := by
      intro e
      rw [List.map_eq_nil_iff] at e
      rw [e] at hv
      exact absurd hv (List.not_mem_nil _)
    have a1 := (hx.2 hne1).2 v.x (List.mem_map.2 ⟨v, hv, rfl⟩)
    have a2 := (hy.2 hne2).2 v.y (List.mem_map.2 ⟨v, hv, rfl⟩)
    have := hn v hv
    omega
  have hfim : (L : Int) * ((C : Int) + 1) + 1 - 1 =
      ((desenhar (fun _ _ => '.') C L).length : Int) := by
    rw [length_desenhar]
    push_cast
    ring
  unfold gerarMatrizGrafo
  simp only [h1, h2, hC, hL]
  rw [if_neg (not_lt.2 ht2)]
  simp only [hT]
  rw [List.range_succ, List.map_append, preencher_ok C L _ _ (by simp), Option.some_bind,
    List.map_singleton, escrever_meio _ [] _ _ _ hfim, Option.some_bind,
    rotulos_ok C L _ g.vertices _ hdentro]
  simp only
  congr 2
  unfold desenho
  rw [hC, hL, Int.toNat_ofNat, Int.toNat_ofNat]
  apply desenhar_congr
  intro x y _ _
  rw [rotular_eq _ _ _ _ hu]
  rfl

theorem celula_of_mem (g : Grafo) (hu : coordenadasUnicas g) (v : Vertice)
    (hv : v ∈ g.vertices) : celula g v.x v.y = v.freq := by
  have h := rotular_eq v.x v.y g.vertices (fun _ _ => '.') hu
  unfold celula
  cases hf : g.vertices.find? (fun w => decide (w.x = v.x ∧ w.y = v.y)) with
  | none =>
    rw [List.find?_eq_none] at hf
    exact absurd (by simp) (hf v hv)
  | some w =>
    have hw := List.mem_of_find?_eq_some hf
    have hp := List.find?_some hf
    have hp2 : w.x = v.x ∧ w.y = v.y := by simpa using hp
    have hc : coord w = coord v := by simp [coord, hp2.1, hp2.2]
    have := List.inj_on_of_nodup_map hu hw hv hc
    simp [this]

theorem antenasDaLinha_nil (y x0 : Nat) : antenasDaLinha y x0 [] = [] := rfl

theorem antenasDaLinha_cons (y x0 : Nat) (c : Char) (l : List Char) :
    antenasDaLinha y x0 (c :: l) =
      (if c ≠ '.' then [((x0 : Int), (y : Int), c)] else []) ++ antenasDaLinha y (x0 + 1) l := by
  unfold antenasDaLinha
  by_cases h : c = '.'
  · simp [h, List.enumFrom_cons]
  · simp [h, List.enumFrom_cons, List.filter_cons]

theorem antenasDasLinhas_nil (y0 : Nat) : antenasDasLinhas y0 [] = [] := rfl

theorem antenasDasLinhas_cons (y0 : Nat) (l : List Char) (ls : List (List Char)) :
    antenasDasLinhas y0 (l :: ls) = antenasDaLinha y0 0 l ++ antenasDasLinhas (y0 + 1) ls := by
  simp [antenasDasLinhas, List.enumFrom_cons]

theorem linhasDe_cons (c : Char) (resto : List Char) :
    linhasDe (c :: resto) =
      if c = '\n' then [] :: linhasDe resto
      else (c :: (linhasDe resto).headD []) :: (linhasDe resto).tail := rfl

/-- The loop of `LerFicheiro` keeps the column and the line of the character it
reads. -/
theorem antenasDesde_eq : ∀ (t : List Char) (x y : Nat),
    antenasDesde x y t =
      antenasDaLinha y x ((linhasDe t).headD []) ++ antenasDasLinhas (y + 1) (linhasDe t).tail
  | [], x, y => by simp [antenasDesde, linhasDe, antenasDaLinha_nil, antenasDasLinhas_nil]
  | c :: resto, x, y => by
    rw [linhasDe_cons]
    by_cases hn : c = '\n'
    · rw [if_pos hn]
      simp only [antenasDesde, if_pos hn, List.headD_cons, List.tail_cons, antenasDaLinha_nil,
        List.nil_append]
      rw [antenasDesde_eq resto 0 (y + 1)]
      cases h : linhasDe resto with
      | nil => simp [antenasDaLinha_nil, antenasDasLinhas_nil]
      | cons l ls => simp [antenasDasLinhas_cons]
    · rw [if_neg hn]
      simp only [antenasDesde, if_neg hn, List.headD_cons, List.tail_cons, antenasDaLinha_cons]
      by_cases hp : c = '.'
      · simp only [hp, ne_eq, not_true_eq_false, if_false, List.nil_append]
        exact antenasDesde_eq resto (x + 1) y
      · simp only [ne_eq, hp, not_false_eq_true, if_true, List.singleton_append,
          List.cons_append]
        rw [antenasDesde_eq resto (x + 1) y]
        simp

theorem antenasDesde_texto (t : List Char) : antenasDesde 0 0 t = antenasDoTexto t := by
  rw [antenasDesde_eq]
  unfold antenasDoTexto
  cases h : linhasDe t with
  | nil => simp [antenasDaLinha_nil, antenasDasLinhas_nil]
  | cons l ls => simp [antenasDasLinhas_cons]

theorem mem_antenasDaLinha (y : Nat) (a b : Int) (c : Char) : ∀ (l : List Char) (x0 : Nat),
    (a, b, c) ∈ antenasDaLinha y x0 l ↔
      b = y ∧ ∃ k : Nat, a = ((x0 + k : Nat) : Int) ∧ l[k]? = some c ∧ c ≠ '.'
  | [], x0 => by simp [antenasDaLinha_nil]
  | d :: l, x0 => by
    rw [antenasDaLinha_cons, List.mem_append, mem_antenasDaLinha y a b c l (x0 + 1)]
    constructor
    · rintro (h | ⟨hb, k, ha, hk, hc⟩)
      · by_cases hd : d = '.'
        · simp [hd] at h
        · simp only [ne_eq, hd, not_false_eq_true, if_true, List.mem_singleton,
            Prod.mk.injEq] at h
          obtain ⟨h1, h2, h3⟩ := h
          exact ⟨h2, 0, by simpa using h1, by simp [h3], by rw [h3]; exact hd⟩
      · exact ⟨hb, k + 1, by rw [ha]; congr 1; omega, by simpa using hk, hc⟩
    · rintro ⟨hb, k, ha, hk, hc⟩
      cases k with
      | zero =>
        left
        have hd : d = c := by simpa using hk
        subst hd
        simp only [ne_eq, hc, not_false_eq_true, if_true, List.mem_singleton, Prod.mk.injEq]
        exact ⟨by simpa using ha, hb, trivial⟩
      | succ k =>
        right
        exact ⟨hb, k, by rw [ha]; congr 1; omega, by simpa using hk, hc⟩

theorem mem_antenasDasLinhas (a b : Int) (c : Char) : ∀ (ls : List (List Char)) (y0 : Nat),
    (a, b, c) ∈ antenasDasLinhas y0 ls ↔
      ∃ (j k : Nat) (l : List Char), b = ((y0 + j : Nat) : Int) ∧ a = (k : Int) ∧
        ls[j]? = some l ∧ l[k]? = some c ∧ c ≠ '.'
  | [], y0 => by simp [antenasDasLinhas_nil]
  | l0 :: ls, y0 => by
    rw [antenasDasLinhas_cons, List.mem_append, mem_antenasDaLinha,
      mem_antenasDasLinhas a b c ls (y0 + 1)]
    constructor
    · rintro (⟨hb, k, ha, hk, hc⟩ | ⟨j, k, l, hb, ha, hj, hk, hc⟩)
      · exact ⟨0, k, l0, by simpa using hb, by simpa using ha, by simp, hk, hc⟩
      · exact ⟨j + 1, k, l, by rw [hb]; congr 1; omega, ha, by simpa using hj, hk, hc⟩
    · rintro ⟨j, k, l, hb, ha, hj, hk, hc⟩
      cases j with
      | zero =>
        left
        have hl : l0 = l := by simpa using hj
        subst hl
        exact ⟨by simpa using hb, k, by simpa using ha, hk, hc⟩
      | succ j =>
        right
        exact ⟨j, k, l, by rw [hb]; congr 1; omega, ha, by simpa using hj, hk, hc⟩

/-- The antennas of a text are the characters other than `'.'` of its lines, at
their column and line. -/
theorem mem_antenasDoTexto (t : List Char) (a b : Int) (c : Char) :
    (a, b, c) ∈ antenasDoTexto t ↔
      ∃ (i j : Nat) (linha : List Char), a = (i : Int) ∧ b = (j : Int) ∧
        (linhasDe t)[j]? = some linha ∧ linha[i]? = some c ∧ c ≠ '.' := by
  unfold antenasDoTexto
  rw [mem_antenasDasLinhas]
  constructor
  · rintro ⟨j, k, l, hb, ha, hj, hk, hc⟩
    exact ⟨k, j, l, ha, by simpa using hb, hj, hk, hc⟩
  · rintro ⟨i, j, l, ha, hb, hj, hk, hc⟩
    exact ⟨j, i, l, by simpa using hb, ha, hj, hk, hc⟩

/-- The loop of `LerFicheiro` puts one node in front of the list for every
antenna it meets, when every allocation succeeds and no character reads as
`EOF`. -/
theorem LerFicheiro_laco_ok (malloc : Nat → Option Bloco) (hm : ∀ k, malloc k ≠ none) :
    ∀ (t : List Char) (g : Grafo) (x y n : Nat), (∀ c ∈ t, c ≠ charEOF) → antes g x y →
    ∃ (G : Grafo) (novos : List Vertice),
      LerFicheiro.laco malloc t (some g) (x : Int) (y : Int) n = some (some G) ∧
      G.vertices = novos ++ g.vertices ∧
      novos.map antena = (antenasDesde x y t).reverse ∧
      ∀ v ∈ novos, v.arestas = []
  | [], g, x, y, n, _, _ => ⟨g, [], rfl, rfl, rfl, by simp⟩
  | c :: resto, g, x, y, n, ht, ha => by
    have hc : c ≠ charEOF := ht c (List.mem_cons_self _ _)
    have ht2 : ∀ d ∈ resto, d ≠ charEOF := fun d hd => ht d (List.mem_cons_of_mem _ hd)
    by_cases hn : c = '\n'
    · have ha2 : antes g 0 (y + 1) := by
        intro v hv
        rcases ha v hv with h | h
        · left
          push_cast
          omega
        · left
          push_cast
          omega
      obtain ⟨G, novos, h1, h2, h3, h4⟩ := LerFicheiro_laco_ok malloc hm resto g 0 (y + 1) n ht2 ha2
      refine ⟨G, novos, ?_, h2, ?_, h4⟩
      · simp only [LerFicheiro.laco, if_neg hc, if_pos hn]
        simpa using h1
      · simp only [antenasDesde, if_pos hn]
        exact h3
    · by_cases hp : c = '.'
      · have ha2 : antes g (x + 1) y := by
          intro v hv
          rcases ha v hv with h | h
          · exact Or.inl h
          · right
            push_cast
            omega
        obtain ⟨G, novos, h1, h2, h3, h4⟩ :=
          LerFicheiro_laco_ok malloc hm resto g (x + 1) y n ht2 ha2
        refine ⟨G, novos, ?_, h2, ?_, h4⟩
        · simp only [LerFicheiro.laco, if_neg hc, if_neg hn, hp, ne_eq, not_true_eq_false,
            if_false]
          simpa using h1
        · simp only [antenasDesde, if_neg hn, hp, ne_eq, not_true_eq_false, if_false]
          exact h3
      · obtain ⟨b, hb⟩ := Option.ne_none_iff_exists'.1 (hm n)
        have hlivre : ProcurarVertice g x y = none :=
          ProcurarVertice_eq_none_of_forall g x y (fun v hv hxy => by
            rcases ha v hv with h | h
            · omega
            · omega)
        have hadd := AdicionarVertice_livre g x y c b hlivre
        have ha2 : antes (AdicionarVertice g x y c (some b)).1 (x + 1) y := by
          rw [hadd]
          intro v hv
          rcases List.mem_cons.1 hv with e | hv
          · right
            rw [e]
            simp
          · rcases ha v hv with h | h
            · exact Or.inl h
            · right
              push_cast
              omega
        obtain ⟨G, novos, h1, h2, h3, h4⟩ := LerFicheiro_laco_ok malloc hm resto
          (AdicionarVertice g x y c (some b)).1 (x + 1) y (n + 1) ht2 ha2
        rw [hadd] at h2
        refine ⟨G, novos ++ [⟨b.addr, g.num_vertices, x, y, c, b.visita, []⟩], ?_, ?_, ?_, ?_⟩
        · simp only [LerFicheiro.laco, if_neg hc, if_neg hn, ne_eq, hp, not_false_eq_true,
            if_true, hb]
          simpa using h1
        · rw [h2]
          simp
        · simp only [antenasDesde, if_neg hn, ne_eq, hp, not_false_eq_true, if_true,
            List.map_append, h3, List.reverse_cons]
          rfl
        · intro v hv
          rcases List.mem_append.1 hv with h | h
          · exact h4 v h
          · rw [List.mem_singleton.1 h]

/-- C24 (the code at a failing input): `AdicionarVertice` writes every field of
the new node but `visita`, which keeps what the block held. On a new graph, with
a block that holds 7 there, `AdicionarVertice(g, 0, 0, 'A')` succeeds, the node
that `ProcurarVertice(g, 0, 0)` then returns has visit order 7, and
`mostrarcaminho` reports it as visited though no traversal was run. -/
theorem C24_visita_por_iniciar :
    ProcurarVertice vazio 0 0 = none ∧
    (AdicionarVertice vazio 0 0 'A' (some ⟨1, 7⟩)).2 = true ∧
    ProcurarVertice (AdicionarVertice vazio 0 0 'A' (some ⟨1, 7⟩)).1 0 0 = some 0 ∧
    lerVisita (AdicionarVertice vazio 0 0 'A' (some ⟨1, 7⟩)).1.vertices 0 = 7 ∧
    mostrarcaminho (AdicionarVertice vazio 0 0 'A' (some ⟨1, 7⟩)).1 = ([(0, 0, 'A', 7)], true) := by
  decide

/-- C25: for every graph `g` with unique coordinates in which
`AdicionarAresta(g, xs, ys, xd, yd)` succeeds, there are a node `vo` at
`(xs, ys)` and a node `ve` at `(xd, yd)`, the only ones there, and the vertex
list afterwards is the list of `g` in which the adjacency list of `vo` is the
new edge to `ve` followed by its old adjacency list: the nodes, their order and
every other field are unchanged, and so is the adjacency list of every other
node (that of `ve` too, when `ve` is not `vo`: no reverse edge). -/
theorem C25_insercao_a_cabeca (g : Grafo) (xs ys xd yd : Int) (nova : Bool)
    (hu : coordenadasUnicas g) (h : (AdicionarAresta g xs ys xd yd nova).2 = true) :
    ∃ (o e : Nat) (vo ve : Vertice),
      g.vertices[o]? = some vo ∧ g.vertices[e]? = some ve ∧
      vo.x = xs ∧ vo.y = ys ∧ ve.x = xd ∧ ve.y = yd ∧
      (∀ v ∈ g.vertices, v.x = xs → v.y = ys → v = vo) ∧
      (∀ v ∈ g.vertices, v.x = xd → v.y = yd → v = ve) ∧
      (AdicionarAresta g xs ys xd yd nova).1 =
        { g with vertices := g.vertices.set o { vo with arestas := ve.addr :: vo.arestas } } ∧
      lerArestas (AdicionarAresta g xs ys xd yd nova).1.vertices o = ve.addr :: vo.arestas ∧
      (∀ k, k ≠ o → (AdicionarAresta g xs ys xd yd nova).1.vertices[k]? = g.vertices[k]?) ∧
      (AdicionarAresta g xs ys xd yd nova).1.vertices.map semArestas =
        g.vertices.map semArestas := by
  obtain ⟨o, e, vo, ve, ho, he, hvo, hve, -, hr⟩ := AdicionarAresta_sucesso g xs ys xd yd nova h
  obtain ⟨vo2, hvo2, -, hox, hoy⟩ := ProcurarVertice_eq_some ho
  obtain ⟨ve2, hve2, -, hex, hey⟩ := ProcurarVertice_eq_some he
  rw [hvo] at hvo2
  rw [hve] at hve2
  have e1 := Option.some.inj hvo2
  have e2 := Option.some.inj hve2
  subst e1 e2
  have hunico : ∀ (w v : Vertice), w ∈ g.vertices → v ∈ g.vertices → v.x = w.x → v.y = w.y →
      v = w := by
    intro w v hw hv hx hy
    apply List.inj_on_of_nodup_map hu hv hw
    simp [coord, hx, hy]
  have hlt : o < g.vertices.length := (List.getElem?_eq_some_iff.mp hvo).1
  have hp : porArestas g.vertices o (ve.addr :: vo.arestas) =
      g.vertices.set o { vo with arestas := ve.addr :: vo.arestas } := by
    simp [porArestas, hvo]
  rw [hp] at hr
  refine ⟨o, e, vo, ve, hvo, hve, hox, hoy, hex, hey, ?_, ?_, hr, ?_, ?_, ?_⟩
  · intro v hv hx hy
    exact hunico vo v (List.mem_iff_getElem?.mpr ⟨o, hvo⟩) hv (hx.trans hox.symm)
      (hy.trans hoy.symm)
  · intro v hv hx hy
    exact hunico ve v (List.mem_iff_getElem?.mpr ⟨e, hve⟩) hv (hx.trans hex.symm)
      (hy.trans hey.symm)
  · rw [hr]
    simp [lerArestas, List.getElem?_set_self hlt]
  · intro k hk
    rw [hr]
    exact List.getElem?_set_ne (fun e => hk e.symm)
  · rw [hr, ← hp]
    exact map_porArestas semArestas (fun _ _ => rfl) g.vertices o _

theorem C25_insercao_a_cabeca_witness :
    coordenadasUnicas umaIda ∧ (AdicionarAresta umaIda 0 0 1 0 true).2 = true ∧
    ∃ (o e : Nat) (vo ve : Vertice),
      umaIda.vertices[o]? = some vo ∧ umaIda.vertices[e]? = some ve ∧
      vo.x = 0 ∧ vo.y = 0 ∧ ve.x = 1 ∧ ve.y = 0 ∧
      (∀ v ∈ umaIda.vertices, v.x = 0 → v.y = 0 → v = vo) ∧
      (∀ v ∈ umaIda.vertices, v.x = 1 → v.y = 0 → v = ve) ∧
      (AdicionarAresta umaIda 0 0 1 0 true).1 =
        { umaIda with
          vertices := umaIda.vertices.set o { vo with arestas := ve.addr :: vo.arestas } } ∧
      lerArestas (AdicionarAresta umaIda 0 0 1 0 true).1.vertices o = ve.addr :: vo.arestas ∧
      (∀ k, k ≠ o → (AdicionarAresta umaIda 0 0 1 0 true).1.vertices[k]? = umaIda.vertices[k]?) ∧
      (AdicionarAresta umaIda 0 0 1 0 true).1.vertices.map semArestas =
        umaIda.vertices.map semArestas :=
  ⟨by decide, by decide, C25_insercao_a_cabeca umaIda 0 0 1 0 true (by decide) (by decide)⟩

/-! ## An end-to-end example -/

theorem diagonal_ler (g : Option Grafo) (topo : Int) (malloc : Nat → Option Bloco)
    (b0 b1 : Bloco) (h0 : malloc 0 = some b0) (h1 : malloc 1 = some b1) :
    LerFicheiro g (some diagonal) (some topo) malloc =
      some (some (diagonalLida b0 b1 topo), true) := by
  have e1 : ¬ ('A' = charEOF) := by decide
  have e2 : ¬ ('.' = charEOF) := by decide
  have e3 : ¬ ('\n' = charEOF) := by decide
  simp [LerFicheiro, LerFicheiro.laco, CriarGrafo, diagonal, diagonalLida, AdicionarVertice,
    ProcurarVertice, ProcurarVertice.laco, h0, h1, e1, e2, e3]

theorem diagonal_ligar (b0 b1 : Bloco) (topo : Int) (malloc : Nat → Bool)
    (hm : ∀ n, malloc n = true) :
    ligarVerticesComMesmaFrequencia (diagonalLida b0 b1 topo) malloc =
      (diagonalLigada b0 b1 topo, true) := by
  have r2 : List.range 2 = [0, 1] := rfl
  have r0 : List.range' 1 1 = [1] := rfl
  have r1 : List.range' 2 0 = [] := rfl
  unfold ligarVerticesComMesmaFrequencia
  simp only [diagonalLida, List.length_cons, List.length_nil, r2, List.foldl_cons,
    List.foldl_nil]
  simp [r0, r1, ligarVerticesComMesmaFrequencia.par, inserirAresta, temAresta, endereco,
    lerArestas, porArestas, hm, diagonalLigada]

theorem diagonal_deduzir (b0 b1 b2 : Bloco) (topo : Int) (malloc : Nat → Option Bloco)
    (h0 : malloc 0 = some b2) :
    deduzirNefasto (diagonalLigada b0 b1 topo) malloc =
      (diagonalNefasta b0 b1 b2 topo, true) := by
  simp [deduzirNefasto, deduzirNefasto.externo, deduzirNefasto.interno, deduzirNefasto.par,
    deduzirNefasto.tentar, AdicionarVertice, ProcurarVertice, ProcurarVertice.laco,
    diagonalLigada, diagonalNefasta, emInt, h0]

theorem diagonal_matriz (b0 b1 b2 : Bloco) (topo : Int) (lixo : Nat → Char) :
    gerarMatrizGrafo (diagonalNefasta b0 b1 b2 topo) (some lixo) =
      Matriz.texto
        ['A', '.', '.', '\n', '.', 'A', '.', '\n', '.', '.', '#', '\n', Char.ofNat 0] := by
  have h := gerar_texto (diagonalNefasta b0 b1 b2 topo) lixo
    (by simp [coordenadasUnicas, coordenadas, coord, diagonalNefasta, diagonalLigada])
    (by simp [naoNegativas, diagonalNefasta, diagonalLigada]) 2 2
    (by simp [maximoDe, diagonalNefasta, diagonalLigada])
    (by simp [maximoDe, diagonalNefasta, diagonalLigada]) (by decide)
  rw [h]
  have r3 : List.range 3 = [0, 1, 2] := rfl
  simp [desenho, desenhar, celula, diagonalNefasta, diagonalLigada, r3]


/-- C21 as stated fails: when the allocation of the nodes fails, the graph that
`LerFicheiro` builds from the text `diagonal` has no vertex. -/
theorem C21_contra :
    LerFicheiro none (some diagonal) (some 0) semBlocos = some (some vazio, true) ∧
    vazio.vertices = [] := by
  decide

/-- C21 (amended): when every allocation succeeds, reading the text `diagonal`
(`A.`, `.A`) gives exactly two nodes, `A` at (0,0) and `A` at (1,1), without
edges; `ligarVerticesComMesmaFrequencia` then returns true and gives each of
the two an edge to the other and nothing else; `deduzirNefasto` then returns
true and adds exactly one node, a `#` at (2,2) (none at (-1,-1));
`gerarMatrizGrafo` then returns the three rows `A..`, `.A.`, `..#`, each ended
by a line break, and the final NUL. -/
theorem C21_exemplo (g : Option Grafo) (topo : Int) (mv md : Nat → Option Bloco)
    (me : Nat → Bool) (lixo : Nat → Char) (hv : ∀ n, mv n ≠ none) (he : ∀ n, me n = true)
    (hd : ∀ n, md n ≠ none) :
    ∃ b0 b1 b2 : Bloco,
      LerFicheiro g (some diagonal) (some topo) mv =
        some (some (diagonalLida b0 b1 topo), true) ∧
      ligarVerticesComMesmaFrequencia (diagonalLida b0 b1 topo) me =
        (diagonalLigada b0 b1 topo, true) ∧
      deduzirNefasto (diagonalLigada b0 b1 topo) md = (diagonalNefasta b0 b1 b2 topo, true) ∧
      gerarMatrizGrafo (diagonalNefasta b0 b1 b2 topo) (some lixo) =
        Matriz.texto
          ['A', '.', '.', '\n', '.', 'A', '.', '\n', '.', '.', '#', '\n', Char.ofNat 0] := by
  obtain ⟨b0, h0⟩ := Option.ne_none_iff_exists'.1 (hv 0)
  obtain ⟨b1, h1⟩ := Option.ne_none_iff_exists'.1 (hv 1)
  obtain ⟨b2, h2⟩ := Option.ne_none_iff_exists'.1 (hd 0)
  exact ⟨b0, b1, b2, diagonal_ler g topo mv b0 b1 h0 h1, diagonal_ligar b0 b1 topo me he,
    diagonal_deduzir b0 b1 b2 topo md h2, diagonal_matriz b0 b1 b2 topo lixo⟩

theorem C21_exemplo_witness :
    ∃ b0 b1 b2 : Bloco,
      LerFicheiro none (some diagonal) (some 0) blocos =
        some (some (diagonalLida b0 b1 0), true) ∧
      ligarVerticesComMesmaFrequencia (diagonalLida b0 b1 0) sempre =
        (diagonalLigada b0 b1 0, true) ∧
      deduzirNefasto (diagonalLigada b0 b1 0) blocos = (diagonalNefasta b0 b1 b2 0, true) ∧
      gerarMatrizGrafo (diagonalNefasta b0 b1 b2 0) (some (fun _ => 'x')) =
        Matriz.texto
          ['A', '.', '.', '\n', '.', 'A', '.', '\n', '.', '.', '#', '\n', Char.ofNat 0] :=
  C21_exemplo none 0 blocos blocos sempre (fun _ => 'x') (fun _ h => Option.noConfusion h)
    (fun _ => rfl) (fun _ h => Option.noConfusion h)

/-! ## The binary file of edges -/

/-- C22 (the code at a failing input): the reachable graph `repetidoLigado` has
two nodes, at (3,0) and (2,0), each with an edge to the other, and both with
`id` 4; the test `v->id < a->destino->id` fails for both edges, and
`GuardarArestasBinario` writes no record for their connection. -/
theorem C22_ligacao_omitida :
    Alcancavel repetidoLigado ∧
    repetidoLigado.vertices.map (fun v => (v.x, v.y, v.id, v.addr, v.arestas)) =
      [(3, 0, 4, 1, [3]), (2, 0, 4, 3, [1])] ∧
    GuardarArestasBinario repetidoLigado true = some (some [], true) :=
  ⟨Alcancavel.passo _ _
      (Alcancavel.passo _ _
        (Alcancavel.passo _ _
          (Alcancavel.passo _ _ (Alcancavel.passo _ _ alcancavel_tresA trivial) trivial)
          (by show livre _ 1; decide))
        trivial)
      trivial,
   by decide, by decide⟩

theorem desref_of_mem : ∀ (vs : List Vertice) (a : Nat), a ∈ vs.map (fun w => w.addr) →
    ∃ d, desref vs a = some d
  | [], a, h => by simp at h
  | v :: resto, a, h => by
    unfold desref desref.laco
    by_cases hc : v.addr = a
    · exact ⟨0, by rw [if_pos hc]⟩
    · rw [if_neg hc]
      have h2 : a ∈ resto.map (fun w => w.addr) := by
        rw [List.map_cons, List.mem_cons] at h
        rcases h with h | h
        · exact absurd h.symm hc
        · exact h
      obtain ⟨d, hd⟩ := desref_of_mem resto a h2
      unfold desref at hd
      exact ⟨d + 1, by rw [hd]; rfl⟩

theorem emInts_nil : emInts [] = [] := rfl

theorem emInts_append (r s : List Registo) : emInts (r ++ s) = emInts r ++ emInts s := by
  simp [emInts]

theorem emInts_cons (r : Registo) (rs : List Registo) :
    emInts (r :: rs) = r.1 :: r.2.1 :: r.2.2.1 :: r.2.2.2 :: emInts rs := by
  simp [emInts]

/-- The inner loop of `GuardarArestasBinario` writes the records of the edges
of the node, when every edge pointer designates a node. -/
theorem guardar_arestas (vs : List Vertice) (v : Vertice) : ∀ (l : List Nat),
    (∀ a ∈ l, a ∈ vs.map (fun w => w.addr)) →
    GuardarArestasBinario.arestas vs v l = some (emInts (l.flatMap (registoDe vs v)))
  | [], _ => rfl
  | a :: resto, h => by
    obtain ⟨d, hd⟩ := desref_of_mem vs a (h a (List.mem_cons_self _ _))
    have hlt := desref_lt hd
    have hg : vs[d]? = some (vs[d]) := List.getElem?_eq_getElem hlt
    have ih := guardar_arestas vs v resto (fun b hb => h b (List.mem_cons_of_mem _ hb))
    simp only [GuardarArestasBinario.arestas, hd, hg, ih, Option.map_some', List.flatMap_cons,
      emInts_append, registoDe]
    by_cases hc : v.id < (vs[d]).id
    · simp [hc, emInts]
    · simp [hc, emInts]

theorem guardar_laco (vs : List Vertice) : ∀ (l : List Vertice),
    (∀ v ∈ l, ∀ a ∈ v.arestas, a ∈ vs.map (fun w => w.addr)) →
    GuardarArestasBinario.laco vs l =
      some (emInts (l.flatMap (fun v => v.arestas.flatMap (registoDe vs v))))
  | [], _ => rfl
  | v :: resto, h => by
    have ih := guardar_laco vs resto (fun w hw => h w (List.mem_cons_of_mem _ hw))
    simp only [GuardarArestasBinario.laco, guardar_arestas vs v v.arestas
      (h v (List.mem_cons_self _ _)), ih, Option.some_bind, Option.map_some', List.flatMap_cons,
      emInts_append]

/-- `GuardarArestasBinario` writes the records of the graph, when no edge is
dangling. -/
theorem guardar_registos (g : Grafo) (hp : semPendentes g) :
    GuardarArestasBinario g true = some (some (emInts (registos g)), true) := by
  unfold GuardarArestasBinario registos
  rw [if_pos rfl, guardar_laco g.vertices g.vertices ((semPendentes_iff g).1 hp)]
  rfl

/-- The records of the graph are those of its edges from a node to a node with
a greater `id`. -/
theorem mem_registos (g : Grafo) (r : Registo) :
    r ∈ registos g ↔
      ∃ u v, arestaDe g u v ∧ u.id < v.id ∧ r = (u.x, u.y, v.x, v.y) := by
  unfold registos arestaDe
  simp only [List.mem_flatMap]
  constructor
  · rintro ⟨u, hu, a, ha, hr⟩
    unfold registoDe at hr
    cases hd : desref g.vertices a with
    | none => simp [hd] at hr
    | some d =>
      cases hg : g.vertices[d]? with
      | none => simp [hd, hg] at hr
      | some v =>
        simp only [hd, hg] at hr
        by_cases hc : u.id < v.id
        · rw [if_pos hc, List.mem_singleton] at hr
          exact ⟨u, v, ⟨hu, a, ha, d, hd, hg⟩, hc, hr⟩
        · rw [if_neg hc] at hr
          exact absurd hr (List.not_mem_nil _)
  · rintro ⟨u, v, ⟨hu, a, ha, d, hd, hg⟩, hc, hr⟩
    refine ⟨u, hu, a, ha, ?_⟩
    unfold registoDe
    simp only [hd, hg, if_pos hc, hr, List.mem_singleton]

/-- One round of the loop of `LerArestasBinario` is one call of
`AdicionarAresta` with the coordinates read. -/
theorem LerArestasBinario_laco_cons (malloc : Nat → Bool) (x1 y1 x2 y2 : Int)
    (resto : List Int) (n : Nat) (g : Grafo) :
    LerArestasBinario.laco malloc (x1 :: y1 :: x2 :: y2 :: resto) n g =
      LerArestasBinario.laco malloc resto (n + 1) (AdicionarAresta g x1 y1 x2 y2 (malloc n)).1 := by
  rw [LerArestasBinario.laco]
  cases h1 : ProcurarVertice g x1 y1 with
  | none => simp [AdicionarAresta, h1]
  | some v1 =>
    cases h2 : ProcurarVertice g x2 y2 with
    | none => simp [AdicionarAresta, h1, h2]
    | some v2 =>
      obtain ⟨n1, hn1, -, e1, e2⟩ := ProcurarVertice_eq_some h1
      obtain ⟨n2, hn2, -, e3, e4⟩ := ProcurarVertice_eq_some h2
      simp only [hn1, hn2, e1, e2, e3, e4]

theorem LerArestasBinario_laco_registos (malloc : Nat → Bool) (hm : ∀ n, malloc n = true) :
    ∀ (rs : List Registo) (n : Nat) (g : Grafo),
      LerArestasBinario.laco malloc (emInts rs) n g = rs.foldl lerRegisto g
  | [], n, g => by
    rw [emInts_nil]
    rfl
  | r :: rs, n, g => by
    rw [emInts_cons, LerArestasBinario_laco_cons, hm n,
      LerArestasBinario_laco_registos malloc hm rs (n + 1)]
    rfl

theorem ProcurarVertice_of_semArestas {g g2 : Grafo}
    (h : g.vertices.map semArestas = g2.vertices.map semArestas) (x y : Int) :
    ProcurarVertice g x y = ProcurarVertice g2 x y := by
  unfold ProcurarVertice
  exact laco_map_coord x y _ _ (coord_of_semArestas h)

/-- One record read adds the edge it asks for and nothing else. -/
theorem lerRegisto_passo (g2 G : Grafo)
    (hG : G.vertices.map semArestas = g2.vertices.map semArestas) (r : Registo) :
    (lerRegisto G r).vertices.map semArestas = g2.vertices.map semArestas ∧
    ∀ i a, a ∈ lerArestas (lerRegisto G r).vertices i ↔
      a ∈ lerArestas G.vertices i ∨ pede g2 r i a := by
  unfold lerRegisto pede
  rw [← ProcurarVertice_of_semArestas hG, ← ProcurarVertice_of_semArestas hG]
  cases h1 : ProcurarVertice G r.1 r.2.1 with
  | none =>
    have : AdicionarAresta G r.1 r.2.1 r.2.2.1 r.2.2.2 true = (G, false) := by
      simp [AdicionarAresta, h1]
    rw [this]
    exact ⟨hG, fun i a => by simp⟩
  | some o =>
    cases h2 : ProcurarVertice G r.2.2.1 r.2.2.2 with
    | none =>
      have : AdicionarAresta G r.1 r.2.1 r.2.2.1 r.2.2.2 true = (G, false) := by
        simp [AdicionarAresta, h1, h2]
      rw [this]
      exact ⟨hG, fun i a => by simp⟩
    | some e =>
      have hlt : o < G.vertices.length := ProcurarVertice_lt h1
      have hend : ∀ j, endereco g2.vertices j = endereco G.vertices j :=
        fun j => (endereco_of_semArestas hG j).symm
      rw [AdicionarAresta_eq G _ _ _ _ true o e h1 h2]
      simp only [hend]
      by_cases ht : temAresta (endereco G.vertices e) (lerArestas G.vertices o) = true
      · rw [if_pos ht]
        refine ⟨hG, fun i a => ?_⟩
        rw [temAresta_iff] at ht
        constructor
        · exact Or.inl
        · rintro (h | ⟨hi, j, hj, ha⟩)
          · exact h
          · have e1 : o = i := Option.some.inj hi
            have e2 : e = j := Option.some.inj hj
            subst e1 e2
            rw [← ha]
            exact ht
      · rw [if_neg ht, if_pos trivial]
        refine ⟨(map_porArestas semArestas (fun _ _ => rfl) G.vertices o _).trans hG,
          fun i a => ?_⟩
        simp only
        rw [lerArestas_porArestas]
        by_cases hi : i = o
        · subst hi
          rw [if_pos ⟨rfl, hlt⟩, List.mem_cons]
          constructor
          · rintro (h | h)
            · exact Or.inr ⟨rfl, e, rfl, h.symm⟩
            · exact Or.inl h
          · rintro (h | ⟨-, j, hj, ha⟩)
            · exact Or.inr h
            · have e2 : e = j := Option.some.inj hj
              subst e2
              exact Or.inl ha.symm
        · rw [if_neg (fun h => hi h.1)]
          constructor
          · exact Or.inl
          · rintro (h | ⟨hi2, -⟩)
            · exact h
            · exact absurd (Option.some.inj hi2).symm hi

/-- The edges after a sequence of records has been read: those of before and
those that the records ask for. -/
theorem lerRegistos_arestas (g2 : Grafo) : ∀ (rs : List Registo) (G : Grafo),
    G.vertices.map semArestas = g2.vertices.map semArestas →
    (rs.foldl lerRegisto G).vertices.map semArestas = g2.vertices.map semArestas ∧
    ∀ i a, a ∈ lerArestas (rs.foldl lerRegisto G).vertices i ↔
      a ∈ lerArestas G.vertices i ∨ ∃ r ∈ rs, pede g2 r i a
  | [], G, hG => ⟨hG, fun i a => by simp⟩
  | r :: rs, G, hG => by
    obtain ⟨h1, h2⟩ := lerRegisto_passo g2 G hG r
    obtain ⟨h3, h4⟩ := lerRegistos_arestas g2 rs (lerRegisto G r) h1
    refine ⟨h3, fun i a => ?_⟩
    rw [List.foldl_cons, h4, h2]
    simp only [List.mem_cons, exists_eq_or_imp]
    exact or_assoc

/-- C23 as stated fails: the graph `umaIda` has unique coordinates and one
edge, from the node at (0,0), of `id` 0, to the node at (2,0), of `id` 4;
`GuardarArestasBinario` writes the record 0 0 2 0; when the allocation of the
edge fails, `LerArestasBinario` on `tresA`, which has the same nodes and no
edge, leaves it without any edge. -/
theorem C23_contra :
    coordenadasUnicas umaIda ∧
    umaIda.vertices.map (fun v => (v.x, v.y, v.id, v.addr, v.arestas)) =
      [(2, 0, 4, 3, []), (1, 0, 2, 2, []), (0, 0, 0, 1, [3])] ∧
    tresA.vertices = umaIda.vertices.map semArestas ∧
    GuardarArestasBinario umaIda true = some (some [0, 0, 2, 0], true) ∧
    LerArestasBinario tresA (some [0, 0, 2, 0]) nunca = tresA ∧ numArestas tresA = 0 := by
  decide

/-- C23 (amended): for every graph `g` with unique coordinates (in which every
edge pointer designates a node of the list), `GuardarArestasBinario(g)` writes a
sequence of records; when every allocation of an edge succeeds,
`LerArestasBinario` given this sequence on a graph `g2` that has nodes at the
same coordinates as `g` and no edge changes nothing but adjacency lists, and
afterwards: for every edge `u -> v` of `g` with `u.id < v.id`, `g2` has an
edge from its node at the coordinates of `u` to its node at the coordinates of
`v`; and every edge of `g2` is one of these. -/
theorem C23_ida_e_volta (g g2 : Grafo) (malloc : Nat → Bool)
    (hu : coordenadasUnicas g) (hp : semPendentes g)
    (hv : (coordenadas g2).Perm (coordenadas g)) (h0 : ∀ w ∈ g2.vertices, w.arestas = [])
    (hm : ∀ n, malloc n = true) :
    ∃ ints, GuardarArestasBinario g true = some (some ints, true) ∧
      (LerArestasBinario g2 (some ints) malloc).vertices.map semArestas =
        g2.vertices.map semArestas ∧
      (∀ u v, arestaDe g u v → u.id < v.id →
        ∃ (i j : Nat) (wi wj : Vertice), g2.vertices[i]? = some wi ∧ g2.vertices[j]? = some wj ∧
          coord wi = coord u ∧ coord wj = coord v ∧
          wj.addr ∈ lerArestas (LerArestasBinario g2 (some ints) malloc).vertices i) ∧
      (∀ i a, a ∈ lerArestas (LerArestasBinario g2 (some ints) malloc).vertices i →
        ∃ (u v : Vertice) (j : Nat) (wi wj : Vertice), arestaDe g u v ∧ u.id < v.id ∧
          g2.vertices[i]? = some wi ∧ g2.vertices[j]? = some wj ∧
          coord wi = coord u ∧ coord wj = coord v ∧ wj.addr = a) := by
  have hu2 : coordenadasUnicas g2 := hv.nodup_iff.2 hu
  have hler : LerArestasBinario g2 (some (emInts (registos g))) malloc =
      (registos g).foldl lerRegisto g2 :=
    LerArestasBinario_laco_registos malloc hm (registos g) 0 g2
  obtain ⟨h1, h2⟩ := lerRegistos_arestas g2 (registos g) g2 rfl
  have hvazio : ∀ i a, ¬ a ∈ lerArestas g2.vertices i := by
    intro i a ha
    rcases lerArestas_mem g2.vertices i with e | ⟨w, hw, e⟩
    · rw [e] at ha
      exact absurd ha (List.not_mem_nil _)
    · rw [e, h0 w hw] at ha
      exact absurd ha (List.not_mem_nil _)
  have hno : ∀ w ∈ g.vertices, ∃ (i : Nat) (wi : Vertice), g2.vertices[i]? = some wi ∧
      coord wi = coord w ∧ ProcurarVertice g2 w.x w.y = some i := by
    intro w hw
    have hc : coord w ∈ coordenadas g2 := hv.mem_iff.2 (List.mem_map.2 ⟨w, hw, rfl⟩)
    obtain ⟨wi, hwi, hcw⟩ := List.mem_map.1 hc
    obtain ⟨i, hi⟩ := List.mem_iff_getElem?.1 hwi
    have hpos := posicao_unica hu2 hi
    simp only [coord, Prod.mk.injEq] at hcw
    rw [hcw.1, hcw.2] at hpos
    exact ⟨i, wi, hi, by simp [coord, hcw.1, hcw.2], hpos⟩
  refine ⟨emInts (registos g), guardar_registos g hp, ?_, ?_, ?_⟩
  · rw [hler]
    exact h1
  · intro u v huv hid
    have hvm : v ∈ g.vertices := by
      obtain ⟨-, a, -, d, -, hd⟩ := huv
      exact List.mem_iff_getElem?.2 ⟨d, hd⟩
    obtain ⟨i, wi, hi, hci, hpi⟩ := hno u huv.1
    obtain ⟨j, wj, hj, hcj, hpj⟩ := hno v hvm
    refine ⟨i, j, wi, wj, hi, hj, hci, hcj, ?_⟩
    rw [hler, h2]
    right
    exact ⟨(u.x, u.y, v.x, v.y), (mem_registos g _).2 ⟨u, v, huv, hid, rfl⟩, hpi, j, hpj,
      endereco_of_getElem hj⟩
  · intro i a ha
    rw [hler, h2] at ha
    rcases ha with ha | ⟨r, hr, hpi, j, hpj, hend⟩
    · exact absurd ha (hvazio i a)
    · obtain ⟨u, v, huv, hid, rfl⟩ := (mem_registos g r).1 hr
      obtain ⟨wi, hi, -, hx, hy⟩ := ProcurarVertice_eq_some hpi
      obtain ⟨wj, hj, -, hx2, hy2⟩ := ProcurarVertice_eq_some hpj
      simp only at hx hy hx2 hy2
      refine ⟨u, v, j, wi, wj, huv, hid, hi, hj, by simp [coord, hx, hy],
        by simp [coord, hx2, hy2], ?_⟩
      rw [← hend, endereco_of_getElem hj]

theorem C23_ida_e_volta_witness :
    ∃ ints, GuardarArestasBinario tresALigados true = some (some ints, true) ∧
      (LerArestasBinario tresA (some ints) sempre).vertices.map semArestas =
        tresA.vertices.map semArestas ∧
      (∀ u v, arestaDe tresALigados u v → u.id < v.id →
        ∃ (i j : Nat) (wi wj : Vertice), tresA.vertices[i]? = some wi ∧
          tresA.vertices[j]? = some wj ∧ coord wi = coord u ∧ coord wj = coord v ∧
          wj.addr ∈ lerArestas (LerArestasBinario tresA (some ints) sempre).vertices i) ∧
      (∀ i a, a ∈ lerArestas (LerArestasBinario tresA (some ints) sempre).vertices i →
        ∃ (u v : Vertice) (j : Nat) (wi wj : Vertice), arestaDe tresALigados u v ∧
          u.id < v.id ∧ tresA.vertices[i]? = some wi ∧ tresA.vertices[j]? = some wj ∧
          coord wi = coord u ∧ coord wj = coord v ∧ wj.addr = a) :=
  C23_ida_e_volta tresALigados tresA sempre (by decide) (by decide)
    ((by decide : coordenadas tresA = coordenadas tresALigados) ▸ List.Perm.refl _)
    (by decide) (fun _ => rfl)

/-! ## A second call of `deduzirNefasto` -/

theorem tentar_parado (G : Grafo) (malloc : Nat → Option Bloco) (x y : Int) (st : Estado)
    (h : parado G st) (hc : x ≥ 0 → y ≥ 0 → (x, y) ∈ coordenadas G) :
    parado G (deduzirNefasto.tentar malloc x y st) := by
  unfold deduzirNefasto.tentar
  by_cases hxy : x ≥ 0 ∧ y ≥ 0
  · rw [if_pos hxy]
    have hp : ProcurarVertice st.g x y ≠ none := by
      rw [h.1]
      intro hn
      exact (ProcurarVertice_eq_none G x y).1 hn (hc hxy.1 hxy.2)
    rw [AdicionarVertice_ocupado st.g x y '#' _ hp]
    exact ⟨h.1, by simp [h.2]⟩
  · rw [if_neg hxy]
    exact h

theorem par_parado (G : Grafo) (hG : completo G) (malloc : Nat → Option Bloco)
    (v1 v2 : Vertice) (st : Estado) (h : parado G st) (hp : parDe G v1 v2) :
    parado G (deduzirNefasto.par malloc v1 v2 st) := by
  unfold deduzirNefasto.par
  by_cases hc : v1.freq = v2.freq ∧ v1.freq ≠ '#'
  · rw [if_pos hc]
    obtain ⟨i, j, hij, hi, hj⟩ := hp hc
    apply tentar_parado
    · apply tentar_parado G malloc _ _ st h
      exact hG i j v1 v2 hij hi hj hc.1 hc.2
    · exact hG j i v2 v1 (fun e => hij e.symm) hj hi hc.1.symm (hc.1 ▸ hc.2)
  · rw [if_neg hc]
    exact h

theorem interno_parado (G : Grafo) (hG : completo G) (malloc : Nat → Option Bloco)
    (v1 : Vertice) (d : Nat) (l : List Vertice) (st : Estado) (h : parado G st)
    (hl : ∀ pre v2 r, l = pre ++ v2 :: r → r.length ≠ d → parDe G v1 v2) :
    parado G (deduzirNefasto.interno malloc v1 d l st) := by
  induction l generalizing st with
  | nil => exact h
  | cons v2 resto ih =>
    have hl2 : ∀ pre w r, resto = pre ++ w :: r → r.length ≠ d → parDe G v1 w := by
      intro pre w r he hr
      exact hl (v2 :: pre) w r (by rw [he]; rfl) hr
    unfold deduzirNefasto.interno
    by_cases hc : resto.length = d
    · rw [if_pos hc]
      exact ih st h hl2
    · rw [if_neg hc]
      exact ih _ (par_parado G hG malloc v1 v2 st h (hl [] v2 resto rfl hc)) hl2

theorem externo_parado (G : Grafo) (hG : completo G) (malloc : Nat → Option Bloco)
    (l : List Vertice) :
    ∀ (pre : List Vertice) (st : Estado), G.vertices = pre ++ l → parado G st →
      parado G (deduzirNefasto.externo malloc l st) := by
  induction l with
  | nil => intro pre st _ h; exact h
  | cons v1 resto ih =>
    intro pre st hg h
    unfold deduzirNefasto.externo
    apply ih (pre ++ [v1]) _ (by rw [hg]; simp)
    apply interno_parado G hG malloc v1 resto.length _ st h
    rw [h.1]
    exact par_no_instantaneo G [] pre resto v1 (fun v hv => absurd hv (List.not_mem_nil v)) hg

/-- On a graph in which every point computed as a reflection is occupied
`deduzirNefasto` changes nothing and returns false. -/
theorem deduzirNefasto_completo (G : Grafo) (hG : completo G) (malloc : Nat → Option Bloco) :
    deduzirNefasto G malloc = (G, false) := by
  have h := externo_parado G hG malloc G.vertices []
    { g := G, modificou := false, chamadas := 0 } rfl ⟨rfl, rfl⟩
  unfold deduzirNefasto
  simp only
  rw [h.1, h.2]

/-- After a call of `deduzirNefasto` in which every allocation succeeds every
point computed as a reflection is occupied. -/
theorem completo_deduzirNefasto (g : Grafo) (malloc : Nat → Option Bloco)
    (hm : ∀ n, malloc n ≠ none) : completo (deduzirNefasto g malloc).1 := by
  obtain ⟨novos, h1, h2, -, -⟩ := deduzirNefasto_cresceu g malloc
  intro i j v1 v2 hij hi hj hf hn hx hy
  have hn2 : v2.freq ≠ '#' := hf ▸ hn
  rw [h1] at hi hj
  have hdentro : ∀ (k : Nat) (v : Vertice), (novos ++ g.vertices)[k]? = some v → v.freq ≠ '#' →
      novos.length ≤ k ∧ g.vertices[k - novos.length]? = some v := by
    intro k v hk hv
    by_cases hlt : k < novos.length
    · rw [List.getElem?_append_left hlt] at hk
      exact absurd (h2 v (List.mem_iff_getElem?.2 ⟨k, hk⟩)).1 hv
    · have hle : novos.length ≤ k := Nat.le_of_not_lt hlt
      rw [List.getElem?_append_right hle] at hk
      exact ⟨hle, hk⟩
  obtain ⟨a1, a2⟩ := hdentro i v1 hi hn
  obtain ⟨b1, b2⟩ := hdentro j v2 hj hn2
  exact deduzirNefasto_tem g malloc hm (i - novos.length) (j - novos.length) v1 v2 (by omega)
    a2 b2 ⟨hf, hn⟩ hx hy

/-- C28 as stated fails: on the graph `doisA`, which has unique coordinates, a
first call of `deduzirNefasto` in which the allocation fails changes nothing,
and a second call right after it, in which the allocation succeeds, returns
true and adds a node. -/
theorem C28_contra :
    coordenadasUnicas doisA ∧
    deduzirNefasto doisA semBlocos = (doisA, false) ∧
    (deduzirNefasto (deduzirNefasto doisA semBlocos).1 blocos).2 = true ∧
    (deduzirNefasto (deduzirNefasto doisA semBlocos).1 blocos).1.vertices.length = 3 ∧
    doisA.vertices.length = 2 := by
  decide

/-- C28 (amended): for every graph `g` (no integer overflow), after a call of
`deduzirNefasto` in which every allocation succeeds, a second call right after
it, whatever the allocations do, returns false and leaves the graph
unchanged. -/
theorem C28_ponto_fixo (g : Grafo) (m1 m2 : Nat → Option Bloco) (hm : ∀ n, m1 n ≠ none) :
    deduzirNefasto (deduzirNefasto g m1).1 m2 = ((deduzirNefasto g m1).1, false) :=
  deduzirNefasto_completo _ (completo_deduzirNefasto g m1 hm) m2

theorem C28_ponto_fixo_witness :
    (∀ n, blocos n ≠ none) ∧
    deduzirNefasto (deduzirNefasto doisA blocos).1 semBlocos =
      ((deduzirNefasto doisA blocos).1, false) :=
  ⟨fun _ h => Option.noConfusion h,
   C28_ponto_fixo doisA blocos semBlocos (fun _ h => Option.noConfusion h)⟩

/-! ## Drawing the graph and reading the drawing -/

theorem takeWhile_ate {α : Type} (p : α → Bool) (z : α) (r : List α) (hz : p z = false) :
    ∀ l : List α, (∀ c ∈ l, p c = true) → (l ++ z :: r).takeWhile p = l
  | [], _ => by simp [List.takeWhile, hz]
  | c :: l, h => by
    have hc : p c = true := h c (List.mem_cons_self _ _)
    simp only [List.cons_append, List.takeWhile_cons, hc, if_true]
    rw [takeWhile_ate p z r hz l (fun d hd => h d (List.mem_cons_of_mem _ hd))]

theorem mem_desenhar (f : Int → Int → Char) (C L : Nat) (c : Char)
    (h : c ∈ desenhar f C L) :
    c = '\n' ∨ ∃ x y : Nat, x < C ∧ y < L ∧ c = f x y := by
  unfold desenhar at h
  simp only [List.mem_flatMap, List.mem_range, List.mem_append, List.mem_map,
    List.mem_singleton] at h
  obtain ⟨y, hy, h | h⟩ := h
  · obtain ⟨x, hx, e⟩ := h
    exact Or.inr ⟨x, y, hx, hy, e.symm⟩
  · exact Or.inl h

theorem desenhar_eq_flatMap (f : Int → Int → Char) (C L : Nat) :
    desenhar f C L =
      ((List.range L).map
        (fun (y : Nat) => (List.range C).map (fun (x : Nat) => f (x : Int) (y : Int)))).flatMap
        (fun r => r ++ ['\n']) := by
  unfold desenhar
  rw [List.flatMap_map]

theorem linhasDe_linha : ∀ (linha resto : List Char), '\n' ∉ linha →
    linhasDe (linha ++ '\n' :: resto) = linha :: linhasDe resto
  | [], resto, _ => by simp [linhasDe]
  | c :: linha, resto, h => by
    have hc : c ≠ '\n' := fun e => h (e ▸ List.mem_cons_self _ _)
    have hl : '\n' ∉ linha := fun e => h (List.mem_cons_of_mem _ e)
    rw [List.cons_append, linhasDe_cons, if_neg hc, linhasDe_linha linha resto hl]
    rfl

theorem linhasDe_flatMap : ∀ (ls : List (List Char)), (∀ l ∈ ls, '\n' ∉ l) →
    linhasDe (ls.flatMap (fun r => r ++ ['\n'])) = ls ++ [[]]
  | [], _ => rfl
  | l :: ls, h => by
    rw [List.flatMap_cons, List.append_assoc, List.singleton_append,
      linhasDe_linha l _ (h l (List.mem_cons_self _ _)),
      linhasDe_flatMap ls (fun r hr => h r (List.mem_cons_of_mem _ hr))]
    rfl

/-- The antennas read from a drawing are its cells other than `'.'`, when no
cell is a line break. -/
theorem mem_antenas_desenhar (f : Int → Int → Char) (hf : ∀ x y, f x y ≠ '\n') (C L : Nat)
    (a b : Int) (c : Char) :
    (a, b, c) ∈ antenasDoTexto (desenhar f C L) ↔
      ∃ i j : Nat, i < C ∧ j < L ∧ a = (i : Int) ∧ b = (j : Int) ∧ c = f i j ∧ c ≠ '.' := by
  rw [mem_antenasDoTexto, desenhar_eq_flatMap, linhasDe_flatMap]
  · constructor
    · rintro ⟨i, j, linha, ha, hb, hj, hi, hc⟩
      by_cases hjl : j < L
      · rw [List.getElem?_append_left (by simpa using hjl), List.getElem?_map,
          List.getElem?_range hjl] at hj
        simp only [Option.map_some', Option.some.injEq] at hj
        subst hj
        have hil : i < C := by
          by_contra hn
          rw [List.getElem?_eq_none (by simpa using Nat.le_of_not_lt hn)] at hi
          exact Option.noConfusion hi
        rw [List.getElem?_map, List.getElem?_range hil] at hi
        simp only [Option.map_some', Option.some.injEq] at hi
        exact ⟨i, j, hil, hjl, ha, hb, hi.symm, hc⟩
      · rw [List.getElem?_append_right (by simpa using Nat.le_of_not_lt hjl)] at hj
        simp only [List.length_map, List.length_range] at hj
        cases hk : j - L with
        | zero =>
          rw [hk] at hj
          simp only [List.getElem?_cons_zero, Option.some.injEq] at hj
          subst hj
          simp at hi
        | succ k =>
          rw [hk] at hj
          simp at hj
    · rintro ⟨i, j, hil, hjl, ha, hb, hc, hp⟩
      refine ⟨i, j, (List.range C).map (fun (x : Nat) => f (x : Int) (j : Int)), ha, hb, ?_, ?_,
        hp⟩
      · rw [List.getElem?_append_left (by simpa using hjl), List.getElem?_map,
          List.getElem?_range hjl]
        rfl
      · rw [List.getElem?_map, List.getElem?_range hil, hc]
        rfl
  · intro l hl
    simp only [List.mem_map, List.mem_range] at hl
    obtain ⟨y, -, rfl⟩ := hl
    simp only [List.mem_map, List.mem_range, not_exists, not_and]
    intro x _ e
    exact hf _ _ e

/-- The graph that `LerFicheiro` builds from a text without the byte 255, when
every allocation succeeds: its nodes are the antennas of the text, the last one
first. -/
theorem LerFicheiro_antenas (g : Option Grafo) (t : List Char) (topo : Int)
    (malloc : Nat → Option Bloco) (hm : ∀ k, malloc k ≠ none) (ht : ∀ c ∈ t, c ≠ charEOF) :
    ∃ G : Grafo, LerFicheiro g (some t) (some topo) malloc = some (some G, true) ∧
      G.vertices.map antena = (antenasDoTexto t).reverse := by
  have h0 : antes ⟨[], 0, topo⟩ 0 0 := fun v hv => absurd hv (List.not_mem_nil _)
  obtain ⟨G, novos, h1, h2, h3, -⟩ :=
    LerFicheiro_laco_ok malloc hm t ⟨[], 0, topo⟩ 0 0 0 ht h0
  rw [List.append_nil] at h2
  rw [← h2, antenasDesde_texto] at h3
  refine ⟨G, ?_, h3⟩
  simp only [LerFicheiro, CriarGrafo]
  have h1b : LerFicheiro.laco malloc t (some ⟨[], 0, topo⟩) 0 0 0 = some (some G) := by
    simpa using h1
  rw [h1b]
  rfl

/-- The label that `celula` gives is that of a node at that place, or `'.'`. -/
theorem celula_eq (g : Grafo) (x y : Int) :
    (celula g x y = '.' ∧ ∀ v ∈ g.vertices, ¬ (v.x = x ∧ v.y = y)) ∨
      ∃ v ∈ g.vertices, v.x = x ∧ v.y = y ∧ celula g x y = v.freq := by
  unfold celula
  cases hf : g.vertices.find? (fun w => decide (w.x = x ∧ w.y = y)) with
  | none =>
    left
    rw [List.find?_eq_none] at hf
    exact ⟨rfl, fun v hv => by simpa using hf v hv⟩
  | some w =>
    right
    have hp := List.find?_some hf
    have hp2 : w.x = x ∧ w.y = y := by simpa using hp
    exact ⟨w, List.mem_of_find?_eq_some hf, hp2.1, hp2.2, rfl⟩

/-- Every node of a graph without negative coordinates is inside the grid that
the largest coordinates give. -/
theorem dentro_da_grelha (g : Grafo) (hn : naoNegativas g) (mx my : Int)
    (hx : maximoDe (g.vertices.map (fun v => v.x)) mx)
    (hy : maximoDe (g.vertices.map (fun v => v.y)) my) :
    ∀ v ∈ g.vertices, 0 ≤ v.x ∧ v.x ≤ mx ∧ 0 ≤ v.y ∧ v.y ≤ my := by
  intro v hv
  have hne1 : g.vertices.map (fun v => v.x) ≠ [] := by
    intro e
    rw [List.map_eq_nil_iff] at e
    rw [e] at hv
    exact absurd hv (List.not_mem_nil _)
  have hne2 : g.vertices.map (fun v => v.y) ≠ [] := by
    intro e
    rw [List.map_eq_nil_iff] at e
    rw [e] at hv
    exact absurd hv (List.not_mem_nil _)
  have a1 := (hx.2 hne1).2 v.x (List.mem_map.2 ⟨v, hv, rfl⟩)
  have a2 := (hy.2 hne2).2 v.y (List.mem_map.2 ⟨v, hv, rfl⟩)
  have := hn v hv
  exact ⟨this.1, a1, this.2, a2⟩

/-- C29 as stated fails. The graphs `tresA`, `comByte c` and `longe` have
unique coordinates, none negative, and no label `'.'` or line break. When the
allocation of the buffer fails `gerarMatrizGrafo(tresA)` is the null pointer,
and when the allocation of the nodes fails the text of `tresA` is read into a
graph without nodes. The text of `comByte charEOF` starts with the byte 255,
at which the reading ends, and the text of `comByte NUL` is empty, the string
ending at the label NUL: both are read into a graph without nodes. On `longe`
the size of the buffer is not an `int`. -/
theorem C29_contra :
    (gerarMatrizGrafo tresA none = Matriz.nula ∧
      gerarMatrizGrafo tresA blocoX = Matriz.texto ['A', 'A', 'A', '\n', Char.ofNat 0] ∧
      textoC ['A', 'A', 'A', '\n', Char.ofNat 0] = ['A', 'A', 'A', '\n'] ∧
      LerFicheiro none (some ['A', 'A', 'A', '\n']) (some 0) semBlocos =
        some (some vazio, true)) ∧
    ((comByte charEOF).vertices.map antena = [(1, 0, 'A'), (0, 0, charEOF)] ∧
      gerarMatrizGrafo (comByte charEOF) blocoX =
        Matriz.texto [charEOF, 'A', '\n', Char.ofNat 0] ∧
      textoC [charEOF, 'A', '\n', Char.ofNat 0] = [charEOF, 'A', '\n'] ∧
      LerFicheiro none (some [charEOF, 'A', '\n']) (some 0) blocos = some (some vazio, true)) ∧
    ((comByte (Char.ofNat 0)).vertices.map antena = [(1, 0, 'A'), (0, 0, Char.ofNat 0)] ∧
      gerarMatrizGrafo (comByte (Char.ofNat 0)) blocoX =
        Matriz.texto [Char.ofNat 0, 'A', '\n', Char.ofNat 0] ∧
      textoC [Char.ofNat 0, 'A', '\n', Char.ofNat 0] = [] ∧
      LerFicheiro none (some []) (some 0) blocos = some (some vazio, true)) ∧
    (longe.vertices.map antena = [(65535, 65535, 'A')] ∧
      gerarMatrizGrafo longe blocoX = Matriz.indefinida) := by
  decide

/-- C29 (amended): for every graph `g` with unique coordinates, none negative,
in which no label is `'.'`, a line break, NUL or the byte 255, with `mx` and
`my` the largest `x` and `y`, when the size `(my + 1) * (mx + 2) + 1` is at
most `INT_MAX` and every allocation succeeds: `gerarMatrizGrafo(g)` returns a
buffer, and `LerFicheiro` reading the string that the buffer holds returns a
graph `G` whose set of triples (x, y, label) is that of `g`. -/
theorem C29_desenhar_e_ler (g : Grafo) (g0 : Option Grafo) (lixo : Nat → Char) (topo : Int)
    (malloc : Nat → Option Bloco) (mx my : Int)
    (hu : coordenadasUnicas g) (hn : naoNegativas g)
    (hl : ∀ v ∈ g.vertices,
      v.freq ≠ '.' ∧ v.freq ≠ '\n' ∧ v.freq ≠ Char.ofNat 0 ∧ v.freq ≠ charEOF)
    (hx : maximoDe (g.vertices.map (fun v => v.x)) mx)
    (hy : maximoDe (g.vertices.map (fun v => v.y)) my)
    (ht : (my + 1) * (mx + 2) + 1 ≤ INT_MAX) (hm : ∀ k, malloc k ≠ none) :
    ∃ (buffer : List Char) (G : Grafo),
      gerarMatrizGrafo g (some lixo) = Matriz.texto buffer ∧
      LerFicheiro g0 (some (textoC buffer)) (some topo) malloc = some (some G, true) ∧
      ∀ t, t ∈ G.vertices.map antena ↔ t ∈ g.vertices.map antena := by
  have hcel : ∀ x y, celula g x y ≠ '\n' ∧ celula g x y ≠ Char.ofNat 0 ∧
      celula g x y ≠ charEOF := by
    intro x y
    rcases celula_eq g x y with ⟨e, -⟩ | ⟨v, hv, -, -, e⟩
    · rw [e]
      decide
    · rw [e]
      exact ⟨(hl v hv).2.1, (hl v hv).2.2.1, (hl v hv).2.2.2⟩
  have hdes : ∀ c ∈ desenho g mx my, c ≠ Char.ofNat 0 ∧ c ≠ charEOF := by
    intro c hc
    rcases mem_desenhar _ _ _ c hc with e | ⟨x, y, -, -, e⟩
    · rw [e]
      decide
    · rw [e]
      exact (hcel x y).2
  have htexto : textoC (desenho g mx my ++ [Char.ofNat 0]) = desenho g mx my :=
    takeWhile_ate _ (Char.ofNat 0) [] (by simp) (desenho g mx my)
      (fun c hc => by simpa using (hdes c hc).1)
  obtain ⟨G, hG1, hG2⟩ := LerFicheiro_antenas g0 (desenho g mx my) topo malloc hm
    (fun c hc => (hdes c hc).2)
  have hmx : 0 ≤ mx := maximoDe_nonneg _
    (fun a ha => by
      obtain ⟨v, hv, rfl⟩ := List.mem_map.1 ha
      exact (hn v hv).1) mx hx
  have hmy : 0 ≤ my := maximoDe_nonneg _
    (fun a ha => by
      obtain ⟨v, hv, rfl⟩ := List.mem_map.1 ha
      exact (hn v hv).2) my hy
  refine ⟨desenho g mx my ++ [Char.ofNat 0], G, gerar_texto g lixo hu hn mx my hx hy ht, ?_, ?_⟩
  · rw [htexto]
    exact hG1
  · rintro ⟨a, b, c⟩
    rw [hG2, List.mem_reverse]
    unfold desenho
    rw [mem_antenas_desenhar (celula g) (fun x y => (hcel x y).1), List.mem_map]
    constructor
    · rintro ⟨i, j, -, -, ha, hb, hc, hp⟩
      rcases celula_eq g i j with ⟨e, -⟩ | ⟨v, hv, e1, e2, e3⟩
      · exact absurd (hc.trans e) hp
      · exact ⟨v, hv, by simp [antena, e1, e2, ha, hb, hc, e3]⟩
    · rintro ⟨v, hv, e⟩
      simp only [antena, Prod.mk.injEq] at e
      obtain ⟨e1, e2, e3⟩ := e
      obtain ⟨d1, d2, d3, d4⟩ := dentro_da_grelha g hn mx my hx hy v hv
      have hcm := celula_of_mem g hu v hv
      refine ⟨v.x.toNat, v.y.toNat, ?_, ?_, ?_, ?_, ?_, ?_⟩
      · omega
      · omega
      · rw [Int.toNat_of_nonneg d1]
        exact e1.symm
      · rw [Int.toNat_of_nonneg d3]
        exact e2.symm
      · rw [Int.toNat_of_nonneg d1, Int.toNat_of_nonneg d3, hcm]
        exact e3.symm
      · rw [← e3]
        exact (hl v hv).1

theorem C29_desenhar_e_ler_witness :
    ∃ (buffer : List Char) (G : Grafo),
      gerarMatrizGrafo duasLinhas (some (fun _ => 'x')) = Matriz.texto buffer ∧
      LerFicheiro none (some (textoC buffer)) (some 0) blocos = some (some G, true) ∧
      ∀ t, t ∈ G.vertices.map antena ↔ t ∈ duasLinhas.vertices.map antena :=
  C29_desenhar_e_ler duasLinhas none (fun _ => 'x') 0 blocos 1 1 (by decide) (by decide)
    (by decide) (by decide) (by decide) (by decide) (fun _ h => Option.noConfusion h)

/-! ## Termination of `dfsRecursivo` -/

theorem carimbar_zero (g : Grafo) (p : Nat) (ht : g.topo = 0)
    (hv : lerVisita g.vertices p = 0) : (carimbar g p).vertices = g.vertices := by
  simp only [carimbar, ht]
  apply List.ext_getElem?
  intro k
  rw [getElem?_porVisita]
  by_cases hk : k = p
  · subst hk
    rw [if_pos rfl]
    cases hg : g.vertices[k]? with
    | none => rfl
    | some w =>
      simp only [lerVisita, hg] at hv
      simp only [Option.map_some', Option.some.injEq]
      cases w
      simp only at hv
      simp [hv]
  · rw [if_neg hk]

theorem porVisitar_carimbar_ne (g : Grafo) (p : Nat) (hp : p < g.vertices.length)
    (hv : lerVisita g.vertices p = 0) (ht : g.topo ≠ 0) :
    porVisitar (carimbar g p) + 1 = porVisitar g := by
  unfold porVisitar carimbar porVisita
  have hg : g.vertices[p]? = some (g.vertices[p]) := List.getElem?_eq_getElem hp
  rw [hg]
  apply filter_length_set _ _ _ _ _ hg
  · simp only [lerVisita, hg] at hv
    simp [hv]
  · simp only [decide_eq_false_iff_not]
    exact ht

/-- Every statement `v->visita = g->topo++` on a node whose visit order is 0
makes the measure one less. -/
theorem medida_carimbar (g : Grafo) (p : Nat) (hp : p < g.vertices.length)
    (hv : lerVisita g.vertices p = 0) : medida (carimbar g p) + 1 = medida g := by
  unfold medida
  by_cases ht : g.topo = 0
  · have hvs := carimbar_zero g p ht hv
    have hpv : porVisitar (carimbar g p) = porVisitar g := by
      unfold porVisitar
      rw [hvs]
    have h1 : (carimbar g p).topo = 1 := by simp [carimbar, ht]
    rw [hpv, h1, ht]
    simp
  · have hpv := porVisitar_carimbar_ne g p hp hv ht
    have h1 : (carimbar g p).topo = g.topo + 1 := rfl
    rw [h1]
    by_cases hc : g.topo ≤ 0
    · have hc2 : g.topo + 1 ≤ 0 := by omega
      rw [if_pos hc, if_pos hc2]
      omega
    · have hc2 : ¬ g.topo + 1 ≤ 0 := by omega
      rw [if_neg hc, if_neg hc2]
      omega

theorem Carimbado.medida {g1 g2 : Grafo} (h : Carimbado g1 g2) :
    Antenas.medida g2 ≤ Antenas.medida g1 := by
  induction h with
  | nada => exact le_refl _
  | mais g p _ hp hv ih =>
    have := medida_carimbar g p hp hv
    omega

theorem dfsArestas_total (fundo : Nat)
    (ih : ∀ v g, apontaLista g v → medida g < fundo → ∃ r, dfsRecursivo fundo v g = some r)
    (l : List Nat) (g : Grafo) (hf : medida g < fundo) :
    ∃ g3, dfsArestas fundo l g = some g3 := by
  induction l generalizing g with
  | nil => exact ⟨g, rfl⟩
  | cons a t iht =>
    obtain ⟨r, hr⟩ := ih (desref g.vertices a) g (apontaLista_desref g a) hf
    have hc := dfsRecursivo_carimbado fundo _ g r (apontaLista_desref g a) hr
    obtain ⟨g3, h3⟩ := iht r.1 (lt_of_le_of_lt hc.medida hf)
    refine ⟨g3, ?_⟩
    rw [dfsArestas_cons, hr]
    exact h3

/-- The recursion of `dfsRecursivo` ends whatever the clock: a depth above the
measure is enough. -/
theorem dfsRecursivo_total (fundo : Nat) :
    ∀ v g, apontaLista g v → medida g < fundo → ∃ r, dfsRecursivo fundo v g = some r := by
  induction fundo with
  | zero =>
    intro v g _ hf
    exact absurd hf (Nat.not_lt_zero _)
  | succ fundo ih =>
    intro v g hv hf
    cases v with
    | none => exact ⟨(g, false), rfl⟩
    | some v =>
      rw [dfsRecursivo_succ]
      by_cases hvis : lerVisita g.vertices v ≠ 0
      · rw [if_pos hvis]
        exact ⟨_, rfl⟩
      · rw [if_neg hvis]
        have h0 : lerVisita g.vertices v = 0 := by simpa using hvis
        have hm := medida_carimbar g v (hv v rfl) h0
        obtain ⟨g3, h3⟩ := dfsArestas_total fundo ih
          (lerArestas (carimbar g v).vertices v) (carimbar g v) (by omega)
        rw [h3]
        exact ⟨_, rfl⟩

theorem dfsArestas_mais (fundo : Nat)
    (ih : ∀ v g r, dfsRecursivo fundo v g = some r → dfsRecursivo (fundo + 1) v g = some r)
    (l : List Nat) (g g3 : Grafo) (h : dfsArestas fundo l g = some g3) :
    dfsArestas (fundo + 1) l g = some g3 := by
  induction l generalizing g with
  | nil => exact h
  | cons a t iht =>
    rw [dfsArestas_cons] at h ⊢
    simp only [Option.bind_eq_some, Option.map_eq_some'] at h
    obtain ⟨g2, ⟨r, hr, rfl⟩, h2⟩ := h
    rw [ih _ g r hr]
    exact iht r.1 h2

/-- A deeper bound does not change the result of `dfsRecursivo`. -/
theorem dfsRecursivo_mais (fundo : Nat) :
    ∀ v g r, dfsRecursivo fundo v g = some r → dfsRecursivo (fundo + 1) v g = some r := by
  induction fundo with
  | zero =>
    intro v g r h
    simp [dfsRecursivo] at h
  | succ fundo ih =>
    intro v g r h
    cases v with
    | none => exact h
    | some v =>
      rw [dfsRecursivo_succ] at h ⊢
      by_cases hvis : lerVisita g.vertices v ≠ 0
      · rw [if_pos hvis] at h ⊢
        exact h
      · rw [if_neg hvis] at h ⊢
        rw [Option.map_eq_some'] at h
        obtain ⟨g3, h3, rfl⟩ := h
        rw [dfsArestas_mais fundo ih _ _ g3 h3]
        rfl

theorem dfsRecursivo_mais_le (v : Option Nat) (g : Grafo) (r : Grafo × Bool) (n m : Nat)
    (hnm : n ≤ m) (h : dfsRecursivo n v g = some r) : dfsRecursivo m v g = some r := by
  induction hnm with
  | refl => exact h
  | step _ ih => exact dfsRecursivo_mais _ v g r ih

theorem medida_le (g : Grafo) : medida g ≤ porVisitar g + 1 := by
  unfold medida
  split <;> omega

/-- C26 as stated fails in its reason: the graph `umA` has one node, not
stamped, no edge, and its clock is 0; `dfsRecursivo` on that node does not
return at once (it returns true), but the stamp it writes is 0: the node is
still not stamped and the number of nodes not stamped is 1 as before. -/
theorem C26_contra :
    semPendentes umA ∧ umA.topo = 0 ∧ lerVisita umA.vertices 0 = 0 ∧ porVisitar umA = 1 ∧
    dfsRecursivo 2 (some 0) umA = some ({ umA with topo := 1 }, true) ∧
    lerVisita umA.vertices 0 = 0 ∧ porVisitar { umA with topo := 1 } = 1 := by
  decide

/-- C26 (amended): for every graph `g` with no dangling edge and every pointer
`v` that is null or designates a node of the list, `dfsRecursivo(v, g)`
returns, cycles and self-loops or not: every depth above the number of nodes
not stamped plus one gives one and the same result. When the clock `topo` is
at least 1, as `dfs` sets it, a call that does not return at once (its node is
not stamped) stamps that node, which makes the number of nodes not stamped one
less, returns true, and leaves fewer nodes not stamped than it found; a call
on the null pointer or on a stamped node returns false at once and changes
nothing. -/
theorem C26_dfs_termina (g : Grafo) (v : Option Nat) (_hd : semPendentes g)
    (hv : apontaLista g v) :
    (∃ r, ∀ fundo, porVisitar g + 1 < fundo → dfsRecursivo fundo v g = some r) ∧
    (∀ p, v = some p → lerVisita g.vertices p = 0 → 0 < g.topo →
      porVisitar (carimbar g p) + 1 = porVisitar g ∧
      ∀ fundo r, dfsRecursivo fundo v g = some r →
        r.2 = true ∧ visitado r.1 p ∧ porVisitar r.1 < porVisitar g) ∧
    ((v = none ∨ ∃ p, v = some p ∧ lerVisita g.vertices p ≠ 0) →
      ∀ fundo, dfsRecursivo (fundo + 1) v g = some (g, false)) := by
  refine ⟨?_, ?_, ?_⟩
  · obtain ⟨r, hr⟩ := dfsRecursivo_total (medida g + 1) v g hv (Nat.lt_succ_self _)
    refine ⟨r, fun fundo hf => ?_⟩
    have := medida_le g
    exact dfsRecursivo_mais_le v g r _ fundo (by omega) hr
  · intro p hp h0 ht
    subst hp
    have hlt := hv p rfl
    have h1 := porVisitar_carimbar g p hlt h0 ht
    refine ⟨h1, ?_⟩
    intro fundo r hr
    cases fundo with
    | zero => simp [dfsRecursivo] at hr
    | succ fundo =>
      rw [dfsRecursivo_succ, if_neg (by simpa using h0), Option.map_eq_some'] at hr
      obtain ⟨g3, h3, rfl⟩ := hr
      have hc := dfsArestas_carimbado fundo (dfsRecursivo_carimbado fundo) _ _ g3 h3
      have ht1 : 0 < (carimbar g p).topo := by
        simp only [carimbar]
        omega
      have h2 := hc.porVisitar ht1
      exact ⟨rfl, hc.mono p (visitado_carimbar g p hlt ht),
        show porVisitar g3 < porVisitar g by omega⟩
  · rintro (h | ⟨p, hp, hvis⟩) fundo
    · subst h
      rfl
    · subst hp
      rw [dfsRecursivo_succ, if_pos hvis]

theorem C26_dfs_termina_witness :
    semPendentes (limparVisitados ciclo).1 ∧
    (∃ r, ∀ fundo, porVisitar (limparVisitados ciclo).1 + 1 < fundo →
      dfsRecursivo fundo (some 1) (limparVisitados ciclo).1 = some r) ∧
    (∀ p, some 1 = some p → lerVisita (limparVisitados ciclo).1.vertices p = 0 →
      0 < (limparVisitados ciclo).1.topo →
      porVisitar (carimbar (limparVisitados ciclo).1 p) + 1 =
        porVisitar (limparVisitados ciclo).1 ∧
      ∀ fundo r, dfsRecursivo fundo (some 1) (limparVisitados ciclo).1 = some r →
        r.2 = true ∧ visitado r.1 p ∧ porVisitar r.1 < porVisitar (limparVisitados ciclo).1) ∧
    ((some 1 = none ∨ ∃ p, some 1 = some p ∧
        lerVisita (limparVisitados ciclo).1.vertices p ≠ 0) →
      ∀ fundo, dfsRecursivo (fundo + 1) (some 1) (limparVisitados ciclo).1 =
        some ((limparVisitados ciclo).1, false)) :=
  ⟨by decide,
   C26_dfs_termina (limparVisitados ciclo).1 (some 1) (by decide)
     (fun p hp => by cases hp; decide)⟩

/-! ## Breadth-first traversal and distances -/

theorem Passos.alcanca {vs : List Vertice} {s n p : Nat} (h : Passos vs s n p) :
    Antenas.alcanca vs s p := by
  induction h with
  | zero => exact Relation.ReflTransGen.refl
  | mais n p q _ hl ih => exact Relation.ReflTransGen.tail ih hl

theorem passos_of_alcanca {vs : List Vertice} {s p : Nat} (h : alcanca vs s p) :
    ∃ n, Passos vs s n p := by
  induction h with
  | refl => exact ⟨0, Passos.zero⟩
  | tail _ hl ih =>
    obtain ⟨n, hn⟩ := ih
    exact ⟨n + 1, Passos.mais n _ _ hn hl⟩

theorem distancia_existe {vs : List Vertice} {s p : Nat} (h : ∃ n, Passos vs s n p) :
    ∃ d, distancia vs s p d := by
  classical
  exact ⟨Nat.find h, Nat.find_spec h, fun m hm => Nat.find_min' h hm⟩

theorem distancia_unica {vs : List Vertice} {s p d1 d2 : Nat} (h1 : distancia vs s p d1)
    (h2 : distancia vs s p d2) : d1 = d2 :=
  Nat.le_antisymm (h1.2 d2 h2.1) (h2.2 d1 h1.1)

theorem distancia_inicio (vs : List Vertice) (s : Nat) : distancia vs s s 0 :=
  ⟨Passos.zero, fun _ _ => Nat.zero_le _⟩

theorem distancia_zero {vs : List Vertice} {s p : Nat} (h : distancia vs s p 0) : p = s := by
  cases h.1
  rfl

theorem distancia_sucessor {vs : List Vertice} {s p q d : Nat} (h : distancia vs s p d)
    (hl : ligado vs p q) : ∃ d2, distancia vs s q d2 ∧ d2 ≤ d + 1 := by
  have hp : Passos vs s (d + 1) q := Passos.mais d p q h.1 hl
  obtain ⟨d2, h2⟩ := distancia_existe ⟨d + 1, hp⟩
  exact ⟨d2, h2, h2.2 _ hp⟩

theorem distancia_antecessor {vs : List Vertice} {s x d : Nat}
    (h : distancia vs s x (d + 1)) : ∃ y, distancia vs s y d ∧ ligado vs y x := by
  obtain ⟨hp, hmin⟩ := h
  cases hp with
  | mais n y q hy hl =>
    obtain ⟨d2, h2⟩ := distancia_existe ⟨d, hy⟩
    have hle : d2 ≤ d := h2.2 d hy
    have hge : d + 1 ≤ d2 + 1 := hmin (d2 + 1) (Passos.mais d2 y x h2.1 hl)
    have : d2 = d := by omega
    subst this
    exact ⟨y, h2, hl⟩

theorem dentro_mono (vs : List Vertice) (s : Nat) (p : Nat) :
    ∀ n m, n ≤ m → p ∈ dentro vs s n → p ∈ dentro vs s m := by
  intro n m hnm
  induction hnm with
  | refl => exact id
  | step _ ih =>
    intro h
    exact List.mem_append_left _ (ih h)

/-- Every node that a path of `n` edges reaches is in the list `dentro n`. -/
theorem Passos.dentro {vs : List Vertice} {s n p : Nat} (h : Passos vs s n p) :
    p ∈ Antenas.dentro vs s n := by
  induction h with
  | zero => exact List.mem_singleton_self _
  | mais n p q _ hl ih =>
    obtain ⟨a, ha, hd⟩ := hl
    apply List.mem_append_right
    rw [List.mem_flatMap]
    refine ⟨p, ih, ?_⟩
    unfold sucessores
    rw [List.mem_filterMap]
    exact ⟨a, ha, hd⟩

/-- A node that is not among those within `d` edges has no path of `d` edges
or less. -/
theorem fora_de_dentro {vs : List Vertice} {s p d : Nat} (h : p ∉ dentro vs s d) :
    ∀ m, Passos vs s m p → d + 1 ≤ m := by
  intro m hm
  by_contra hc
  exact h (dentro_mono vs s p m d (by omega) hm.dentro)

/-- Inside the inner loop for `atual`, every node that is not farther from the
start than `atual` is stamped. -/
theorem bfs_perto (vs : List Vertice) (s atual : Nat) (st : EstadoBfs)
    (hi : bfsInterno vs s atual st) (hn : bfsNivel vs s atual st) (da : Nat)
    (hda : distancia vs s atual da) :
    ∀ d x, distancia vs s x d → d ≤ da → visitado st.g x := by
  obtain ⟨-, -, -, -, h3, h4⟩ := hi
  obtain ⟨n1, -, n3, -, n5, -⟩ := hn
  intro d
  induction d with
  | zero =>
    intro x hx _
    rw [distancia_zero hx]
    exact n1
  | succ d ih =>
    intro x hx hle
    obtain ⟨y, hy, hl⟩ := distancia_antecessor hx
    have hvy := ih y hy (by omega)
    have hne : y ≠ atual := by
      rintro rfl
      have := distancia_unica hy hda
      omega
    have hnf : y ∉ st.fila := by
      intro hin
      have a1 := n5 y hin
      have a2 := n3 y atual d da hvy h4 hy hda (by omega)
      omega
    exact h3 y hvy hnf hne x hl

/-- One round of the inner loop of `bfs` keeps `bfsNivel`. -/
theorem bfs_aresta_nivel (malloc : Nat → Bool) (hm : ∀ n, malloc n = true)
    (vs : List Vertice) (s atual : Nat) (st : EstadoBfs) (a : Nat)
    (ha : a ∈ lerArestas vs atual) (hi : bfsInterno vs s atual st)
    (hn : bfsNivel vs s atual st) : bfsNivel vs s atual (bfs.aresta malloc st a) := by
  rcases bfs_aresta_eq malloc st a with ⟨he, -⟩ | ⟨w, hw, hv, he⟩
  · rw [he]
    exact hn
  · have hperto := bfs_perto vs s atual st hi hn
    obtain ⟨hf, ht, h1, h2, -, h4⟩ := hi
    obtain ⟨n1, n2, n3, n4, n5, n6⟩ := hn
    have hlt := desref_lt hw
    have hw2 : desref vs a = some w := by rw [← desref_of_semVisita hf]; exact hw
    have hlig : ligado vs atual w := ⟨a, ha, hw2⟩
    obtain ⟨da, hda⟩ := distancia_existe (passos_of_alcanca (h2 atual h4))
    obtain ⟨dw, hdw, hdw1⟩ := distancia_sucessor hda hlig
    have hnw : ¬ visitado st.g w := fun h => h hv
    have hdw2 : da < dw := by
      by_contra hc
      exact hnw (hperto da hda dw w hdw (by omega))
    have hL := fun k => lerVisita_carimbar st.g w k hlt
    have hiff := fun p => visitado_carimbar_iff st.g w p hlt ht
    have hold : ∀ p, visitado st.g p → p ≠ w := fun p hp e => hnw (e ▸ hp)
    have holdv : ∀ p, visitado st.g p →
        lerVisita (carimbar st.g w).vertices p = lerVisita st.g.vertices p :=
      fun p hp => by rw [hL, if_neg (hold p hp)]
    have hneww : lerVisita (carimbar st.g w).vertices w = st.g.topo := by
      rw [hL, if_pos rfl]
    have hvelho : ∀ p, visitado (carimbar st.g w) p → p ≠ w → visitado st.g p := by
      intro p hp hne
      rcases (hiff p).1 hp with h | h
      · exact absurd h hne
      · exact h
    rw [he]
    simp only [hm, if_true]
    refine ⟨(hiff s).2 (Or.inr n1), ?_, ?_, ?_, ?_, ?_⟩
    · intro p hp
      have htopo : (carimbar st.g w).topo = st.g.topo + 1 := rfl
      by_cases hpw : p = w
      · rw [hpw, hneww, htopo]
        omega
      · have hp2 := hvelho p hp hpw
        rw [holdv p hp2, htopo]
        have := n2 p hp2
        omega
    · intro p q dp dq hp hq hdp hdq hlt2
      by_cases hpw : p = w
      · subst hpw
        by_cases hqw : q = p
        · subst hqw
          have := distancia_unica hdp hdq
          omega
        · have hq2 := hvelho q hq hqw
          have e1 := distancia_unica hdp hdw
          have := n6 q dq da hq2 hdq hda
          omega
      · have hp2 := hvelho p hp hpw
        by_cases hqw : q = w
        · subst hqw
          rw [holdv p hp2, hneww]
          exact n2 p hp2
        · have hq2 := hvelho q hq hqw
          rw [holdv p hp2, holdv q hq2]
          exact n3 p q dp dq hp2 hq2 hdp hdq hlt2
    · rw [List.pairwise_append]
      refine ⟨?_, List.pairwise_singleton _ _, ?_⟩
      · apply List.Pairwise.imp_of_mem _ n4
        intro x y hx hy hxy
        rw [holdv x (h1 x hx), holdv y (h1 y hy)]
        exact hxy
      · intro x hx y hy
        rw [List.mem_singleton] at hy
        subst hy
        rw [holdv x (h1 x hx), hneww]
        exact n2 x (h1 x hx)
    · intro q hq
      rw [holdv atual h4]
      rcases List.mem_append.1 hq with hq | hq
      · rw [holdv q (h1 q hq)]
        exact n5 q hq
      · rw [List.mem_singleton] at hq
        subst hq
        rw [hneww]
        exact n2 atual h4
    · intro q dq da2 hq hdq hda2
      have e1 := distancia_unica hda2 hda
      by_cases hqw : q = w
      · subst hqw
        have := distancia_unica hdq hdw
        omega
      · have := n6 q dq da (hvelho q hq hqw) hdq hda
        omega

theorem bfs_vizinhos_nivel (malloc : Nat → Bool) (hm : ∀ n, malloc n = true)
    (vs : List Vertice) (s atual : Nat) (l : List Nat) (st : EstadoBfs)
    (hl : ∀ a ∈ l, a ∈ lerArestas vs atual) (hi : bfsInterno vs s atual st)
    (hn : bfsNivel vs s atual st) :
    bfsNivel vs s atual (l.foldl (bfs.aresta malloc) st) := by
  induction l generalizing st with
  | nil => exact hn
  | cons a t ih =>
    have ha := hl a (List.mem_cons_self _ _)
    simp only [List.foldl_cons]
    exact ih (bfs.aresta malloc st a) (fun b hb => hl b (List.mem_cons_of_mem _ hb))
      (bfs_aresta_interno malloc hm vs s atual st a ha hi).1
      (bfs_aresta_nivel malloc hm vs s atual st a ha hi hn)

/-- One round of the outer loop of `bfs`, for the node `atual` at the head of
the queue, keeps `bfsExterno` and `bfsOrdem`. -/
theorem bfs_ronda (malloc : Nat → Bool) (hm : ∀ n, malloc n = true)
    (vs : List Vertice) (s : Nat) (st : EstadoBfs) (atual : Nat) (resto : List Nat)
    (hq : st.fila = atual :: resto) (h : bfsExterno vs s st) (ho : bfsOrdem vs s st) :
    bfsExterno vs s
      ((lerArestas st.g.vertices atual).foldl (bfs.aresta malloc) { st with fila := resto }) ∧
    bfsOrdem vs s
      ((lerArestas st.g.vertices atual).foldl (bfs.aresta malloc) { st with fila := resto }) := by
  obtain ⟨hf, ht, h1, h2, h3⟩ := h
  obtain ⟨o1, o2, o3, o4, o5⟩ := ho
  have hatual : visitado st.g atual := h1 atual (by rw [hq]; exact List.mem_cons_self _ _)
  have hint : bfsInterno vs s atual { st with fila := resto } := by
    refine ⟨hf, ht, ?_, h2, ?_, hatual⟩
    · intro p hp
      exact h1 p (by rw [hq]; exact List.mem_cons_of_mem _ hp)
    · intro p hp hnf hna q hqq
      apply h3 p hp _ q hqq
      rw [hq]
      intro hin
      rcases List.mem_cons.mp hin with h5 | h5
      · exact hna h5
      · exact hnf h5
  rw [hq, List.pairwise_cons] at o4
  have hniv : bfsNivel vs s atual { st with fila := resto } :=
    ⟨o1, o2, o3, o4.2, o4.1, fun q dq da hv hd hda => o5 atual (by rw [hq]; rfl) q dq da hv hd hda⟩
  have hl : ∀ a ∈ lerArestas st.g.vertices atual, a ∈ lerArestas vs atual :=
    fun a ha => by rw [← lerArestas_of_semVisita hf]; exact ha
  obtain ⟨⟨f1, f2, f3, f4, f5, f6⟩, v2⟩ := bfs_vizinhos_interno malloc hm vs s atual
    (lerArestas st.g.vertices atual) { st with fila := resto } hl hint
  obtain ⟨m1, m2, m3, m4, m5, m6⟩ := bfs_vizinhos_nivel malloc hm vs s atual
    (lerArestas st.g.vertices atual) { st with fila := resto } hl hint hniv
  refine ⟨⟨f1, f2, f3, f4, ?_⟩, ⟨m1, m2, m3, m4, ?_⟩⟩
  · intro p hp hnf q hqq
    by_cases hpa : p = atual
    · subst hpa
      obtain ⟨a, ha, hd⟩ := hqq
      exact v2 a (by rw [lerArestas_of_semVisita hf]; exact ha) q hd
    · exact f5 p hp hnf hpa q hqq
  · intro h hh q dq dh hvq hdq hdh
    have hmem : h ∈ ((lerArestas st.g.vertices atual).foldl (bfs.aresta malloc)
        { st with fila := resto }).fila := List.mem_of_mem_head? hh
    obtain ⟨da, hda⟩ := distancia_existe (passos_of_alcanca (f4 atual f6))
    have a1 := m6 q dq da hvq hdq hda
    have a2 : da ≤ dh := by
      by_contra hc
      have b1 := m3 h atual dh da (f3 h hmem) f6 hdh hda (by omega)
      have b2 := m5 h hmem
      omega
    omega

theorem bfs_laco_nivel (malloc : Nat → Bool) (hm : ∀ n, malloc n = true)
    (vs : List Vertice) (s : Nat) (rondas : Nat) :
    ∀ st st2 : EstadoBfs, bfsExterno vs s st → bfsOrdem vs s st →
      bfs.laco malloc rondas st = some st2 → bfsOrdem vs s st2 := by
  induction rondas with
  | zero =>
    intro st st2 _ ho hl
    by_cases hq : st.fila = []
    · rw [bfs_laco_vazia malloc 0 st hq, Option.some.injEq] at hl
      subst hl
      exact ho
    · simp [bfs.laco, hq] at hl
  | succ rondas ih =>
    intro st st2 h ho hl
    cases hq : st.fila with
    | nil =>
      rw [bfs_laco_vazia malloc _ st hq, Option.some.injEq] at hl
      subst hl
      exact ho
    | cons atual resto =>
      rw [bfs_laco_succ malloc rondas st atual resto hq] at hl
      obtain ⟨r1, r2⟩ := bfs_ronda malloc hm vs s st atual resto hq h ho
      exact ih _ st2 r1 r2 hl

/-- When every allocation of a queue node succeeds, the stamps that `bfs`
leaves grow with the distance from the start. -/
theorem bfs_distancia (g : Grafo) (x y : Int) (malloc : Nat → Bool)
    (hm : ∀ n, malloc n = true) (s : Nat) (hs : ProcurarVertice g x y = some s) :
    ∃ g2, bfs g x y malloc = some (g2, true) ∧
      ∀ u v du dv, distancia g.vertices s u du → distancia g.vertices s v dv → du < dv →
        visitado g2 u ∧ visitado g2 v ∧ lerVisita g2.vertices u < lerVisita g2.vertices v := by
  obtain ⟨st2, h2, hb, c2⟩ := bfs_resolve g x y malloc s hs
  have halc := bfs_alcanca g x y malloc hm s hs st2.g true hb
  have hs0 : ProcurarVertice (limparVisitados g).1 x y = some s :=
    (ProcurarVertice_limparVisitados g x y).trans hs
  have hlt : s < (limparVisitados g).1.vertices.length := ProcurarVertice_lt hs0
  have ht : 0 < (limparVisitados g).1.topo := by simp [limparVisitados]
  have ht1 : (limparVisitados g).1.topo = 1 := rfl
  have hf0 := semVisita_limparVisitados g
  have hiff := fun p => visitado_carimbar_iff (limparVisitados g).1 s p hlt ht
  have hL := fun k => lerVisita_carimbar (limparVisitados g).1 s k hlt
  have hnone : ∀ p, ¬ visitado (limparVisitados g).1 p :=
    fun p hp => hp (lerVisita_limparVisitados g p)
  have hso : ∀ p, visitado (carimbar (limparVisitados g).1 s) p → p = s := by
    intro p hp
    rcases (hiff p).mp hp with h | h
    · exact h
    · exact absurd h (hnone p)
  have hfila : (adicionarAFila [] s (malloc 0)).1 = [s] := by
    simp [adicionarAFila, hm]
  have hini : bfsExterno g.vertices s
      { g := carimbar (limparVisitados g).1 s,
        fila := (adicionarAFila [] s (malloc 0)).1, chamadas := 1 } := by
    refine ⟨(semVisita_carimbar _ s).trans hf0, ?_, ?_, ?_, ?_⟩
    · simp only [carimbar]
      omega
    · intro p hp
      rw [hfila, List.mem_singleton] at hp
      exact (hiff p).mpr (Or.inl hp)
    · intro p hp
      rw [hso p hp]
      exact Relation.ReflTransGen.refl
    · intro p hp hnf
      exfalso
      apply hnf
      rw [hfila, hso p hp]
      exact List.mem_singleton_self _
  have hord : bfsOrdem g.vertices s
      { g := carimbar (limparVisitados g).1 s,
        fila := (adicionarAFila [] s (malloc 0)).1, chamadas := 1 } := by
    refine ⟨(hiff s).mpr (Or.inl rfl), ?_, ?_, ?_, ?_⟩
    · intro p hp
      rw [hso p hp, hL, if_pos rfl]
      show (limparVisitados g).1.topo < (limparVisitados g).1.topo + 1
      omega
    · intro p q dp dq hp hq hdp hdq hlt2
      rw [hso p hp] at hdp
      rw [hso q hq] at hdq
      have := distancia_unica hdp hdq
      omega
    · simp only [hfila]
      exact List.pairwise_singleton _ _
    · intro h hh q dq dh hq hdq hdh
      simp only [hfila, List.head?_cons, Option.some.injEq] at hh
      subst hh
      rw [hso q hq] at hdq
      have := distancia_unica hdq hdh
      omega
  obtain ⟨-, -, o3, -, -⟩ := bfs_laco_nivel malloc hm g.vertices s _ _ st2 hini hord h2
  refine ⟨st2.g, hb, ?_⟩
  intro u v du dv hdu hdv hlt2
  have hu : visitado st2.g u := (halc u).2 hdu.1.alcanca
  have hv : visitado st2.g v := (halc v).2 hdv.1.alcanca
  exact ⟨hu, hv, o3 u v du dv hu hv hdu hdv hlt2⟩

/-- C27 as stated fails: in the graph `desvio`, which has no dangling edge, the
start (0,0) is the node at position 5; the node at (5,0), position 0, is 2
edges away from it and the node at (4,0), position 1, is 3 edges away; when
the second allocation of a queue node fails (the node at (1,0) is stamped and
not queued) `bfs` gives the visit order 6 to the node at (5,0) and 5 to the
node at (4,0). -/
theorem C27_contra :
    semPendentes desvio ∧ ProcurarVertice desvio 0 0 = some 5 ∧
    desvio.vertices.map (fun v => (v.x, v.y)) =
      [(5, 0), (4, 0), (3, 0), (2, 0), (1, 0), (0, 0)] ∧
    distancia desvio.vertices 5 0 2 ∧ distancia desvio.vertices 5 1 3 ∧
    (bfs desvio 0 0 falhaUma).map (fun r => (r.1.vertices.map (fun v => v.visita), r.2)) =
      some ([6, 5, 4, 3, 2, 1], true) :=
  ⟨by decide, by decide, by decide,
   ⟨Passos.mais 1 4 0 (Passos.mais 0 5 4 Passos.zero ⟨2, by decide, by decide⟩)
      ⟨6, by decide, by decide⟩,
    fora_de_dentro (by decide)⟩,
   ⟨Passos.mais 2 2 1
      (Passos.mais 1 3 2 (Passos.mais 0 5 3 Passos.zero ⟨3, by decide, by decide⟩)
        ⟨4, by decide, by decide⟩)
      ⟨5, by decide, by decide⟩,
    fora_de_dentro (by decide)⟩,
   by decide⟩

/-- C27 (amended): for every graph `g` with no dangling edge and every start
`(x, y)` that resolves to a node `s`, when every allocation of a queue node
succeeds, `bfs(g, x, y)` returns true and afterwards, for all nodes `u` and
`v` reachable from `s`, `du` and `dv` being the numbers of edges of the
shortest paths from `s` to them: if `du < dv` then both are stamped and the
visit order of `u` is less than that of `v`. -/
theorem C27_bfs_niveis (g : Grafo) (x y : Int) (malloc : Nat → Bool) (s : Nat)
    (_hd : semPendentes g) (hs : ProcurarVertice g x y = some s) (hm : ∀ n, malloc n = true) :
    ∃ g2, bfs g x y malloc = some (g2, true) ∧
      ∀ u v du dv, distancia g.vertices s u du → distancia g.vertices s v dv → du < dv →
        visitado g2 u ∧ visitado g2 v ∧ lerVisita g2.vertices u < lerVisita g2.vertices v :=
  bfs_distancia g x y malloc hm s hs

theorem C27_bfs_niveis_witness :
    semPendentes desvio ∧ ProcurarVertice desvio 0 0 = some 5 ∧ (∀ n, sempre n = true) ∧
    ∃ g2, bfs desvio 0 0 sempre = some (g2, true) ∧
      ∀ u v du dv, distancia desvio.vertices 5 u du → distancia desvio.vertices 5 v dv →
        du < dv →
        visitado g2 u ∧ visitado g2 v ∧ lerVisita g2.vertices u < lerVisita g2.vertices v :=
  ⟨by decide, by decide, fun _ => rfl,
   C27_bfs_niveis desvio 0 0 sempre 5 (by decide) (by decide) (fun _ => rfl)⟩

end Antenas
